import Mathlib

set_option linter.unusedVariables false

/-!
# The dynamic memory manager of `lab-3-memory-lab/memmgr.c`

A shallow embedding of the allocator: the heap is an arena of bytes, the
globals of `memmgr.c` are the fields of `State`, every C function is a Lean
function of the same name on `State`, and every C loop is a recursion on an
explicit iteration budget.  Machine words are natural numbers below `2 ^ 64`;
word and pointer arithmetic wraps modulo `2 ^ 64`.
-/

namespace MemMgr

/-! ## Machine words -/

/-- Number of values of `unsigned long` (the `TYPE` of the heap). -/
abbrev W : Nat := 18446744073709551616

/-- Addition of `unsigned long` values and of pointers, modulo `2 ^ 64`. -/
def wadd (a b : Nat) : Nat := (a + b) % W

/-- Subtraction of `unsigned long` values and of pointers, modulo `2 ^ 64`. -/
def wsub (a b : Nat) : Nat := (a + (W - b % W)) % W

/-- Multiplication of `unsigned long` values, modulo `2 ^ 64`. -/
def wmul (a b : Nat) : Nat := (a * b) % W

/-! ## Constants and macros of `memmgr.c` -/

abbrev TYPE_SIZE : Nat := 8
abbrev ALLOC : Nat := 1
abbrev FREE : Nat := 0
abbrev STATUS_MASK : Nat := 7
/-- The macro `~STATUS_MASK` on 64 bits. -/
abbrev SIZE_MASK : Nat := 18446744073709551608
abbrev CHUNKSIZE : Nat := 4096
abbrev BS : Nat := 32

/-- The macro `PACK(size,status)`. -/
def PACK (size status : Nat) : Nat := size ||| status

/-- The macro `SIZE(v)`. -/
def SIZE (v : Nat) : Nat := v &&& SIZE_MASK

/-- The macro `STATUS(v)`. -/
def STATUS (v : Nat) : Nat := v &&& STATUS_MASK

/-- The macro `ROUND_UP(w)` on `unsigned long`. -/
def ROUND_UP (w : Nat) : Nat := wmul (wsub (wadd w BS) 1 / BS) BS

/-- The macro `ROUND_DOWN(w)` on `unsigned long`. -/
def ROUND_DOWN (w : Nat) : Nat := wmul (w / BS) BS

/-! ## Memory: an arena of bytes -/

/-- Byte `i` of the little-endian representation of the word `v`. -/
def byteAt (v i : Nat) : Nat := v / 256 ^ i % 256

/-- The macro `GET(p)`: the 8-byte word stored at address `p`. -/
def GET (m : Nat → Nat) (p : Nat) : Nat :=
  m p % 256 + 256 * (m (p + 1) % 256 + 256 * (m (p + 2) % 256 + 256 * (m (p + 3) % 256
    + 256 * (m (p + 4) % 256 + 256 * (m (p + 5) % 256 + 256 * (m (p + 6) % 256
    + 256 * (m (p + 7) % 256)))))))

/-- The macro `PUT(p, v)`: store the 8-byte word `v` at address `p`. -/
def PUT (m : Nat → Nat) (p v : Nat) : Nat → Nat :=
  fun a => if p ≤ a ∧ a < p + 8 then byteAt v (a - p) else m a

/-- The macro `GET_SIZE(p)`. -/
def GET_SIZE (m : Nat → Nat) (p : Nat) : Nat := SIZE (GET m p)

/-- The macro `GET_STATUS(p)`. -/
def GET_STATUS (m : Nat → Nat) (p : Nat) : Nat := STATUS (GET m p)

/-- The macro `PREV_PTR(p)`. -/
def PREV_PTR (p : Nat) : Nat := wsub p TYPE_SIZE

/-- The macro `HDR2FTR(p)`. -/
def HDR2FTR (m : Nat → Nat) (p : Nat) : Nat := wsub (wadd p (GET_SIZE m p)) TYPE_SIZE

/-- The macro `NEXT_BLOCK(p)`. -/
def NEXT_BLOCK (m : Nat → Nat) (p : Nat) : Nat := wadd p (GET_SIZE m p)

/-- The macro `PREV_BLOCK(p)`. -/
def PREV_BLOCK (m : Nat → Nat) (p : Nat) : Nat := wsub p (GET_SIZE m (wsub p TYPE_SIZE))

/-! ## The virtual-memory provider -/

/-- Modelled from the spec: the data-segment module behind `dataseg.h`, whose
source is not among the sources of the lab.  It knows the start of the
data segment (`0` when uninitialized), the current break, the page size, and
the highest break the environment is willing to grant. -/
structure DataSeg where
  start : Nat
  brk : Nat
  limit : Nat
  pagesize : Nat

/-- Modelled from the spec: `ds_sbrk(n)` extends the break by `n` bytes and
returns the prior break, or returns the failure value `(void*)-1` and leaves
the break alone when the environment refuses. -/
def ds_sbrk (d : DataSeg) (n : Nat) : Nat × DataSeg :=
  if d.brk + n ≤ d.limit then (d.brk, { d with brk := d.brk + n }) else (W - 1, d)

/-- Modelled from the spec: `ds_heap_stat` reports the start of the data
segment and the current break. -/
def ds_heap_stat (d : DataSeg) : Nat × Nat := (d.start, d.brk)

/-- Modelled from the spec: `ds_getpagesize` reports the page size. -/
def ds_getpagesize (d : DataSeg) : Nat := d.pagesize

/-! ## Allocator state -/

/-- Modelled from the spec: the enumeration `AllocationPolicy` of `memmgr.h`
(not among the sources); `ap_Other` stands for every value that is none of the
three policies. -/
inductive AllocationPolicy where
  | ap_FirstFit
  | ap_NextFit
  | ap_BestFit
  | ap_Other
  deriving DecidableEq, Repr

/-- The three functions the pointer `get_block` can hold. -/
inductive Locator where
  | ff
  | nf
  | bf
  deriving DecidableEq, Repr

/-- The global variables of `memmgr.c`, the heap bytes and the provider. -/
structure State where
  mem : Nat → Nat
  ds : DataSeg
  ds_heap_start : Nat
  ds_heap_brk : Nat
  heap_start : Nat
  heap_end : Nat
  next_block : Nat
  PAGESIZE : Nat
  mm_initialized : Nat
  get_block : Option Locator

/-- Ways in which a call does not return to its caller. -/
inductive Fault where
  | panic
  | assertion
  | trap
  | fuel
  deriving DecidableEq, Repr

/-- Outcome of a call: a returned value with the state after the call, or a
fault with the state at the moment the process stopped. -/
inductive Result (α : Type) where
  | ok (val : α) (s : State)
  | fail (f : Fault) (s : State)

/-! ## `mm_init` -/

def mm_init (ap : AllocationPolicy) (s : State) : Result Unit :=
  match (match ap with
    | .ap_FirstFit => some Locator.ff
    | .ap_NextFit => some Locator.nf
    | .ap_BestFit => some Locator.bf
    | .ap_Other => none) with
  | none => .fail .panic s
  | some gb =>
    let s := { s with get_block := some gb }
    let s := { s with ds_heap_start := (ds_heap_stat s.ds).1, ds_heap_brk := (ds_heap_stat s.ds).2 }
    let s := { s with PAGESIZE := ds_getpagesize s.ds }
    if s.ds_heap_start = 0 then .fail .panic s
    else if s.ds_heap_start ≠ s.ds_heap_brk then .fail .panic s
    else if s.PAGESIZE = 0 then .fail .panic s
    else
      let r := ds_sbrk s.ds CHUNKSIZE
      let s := { s with ds := r.2 }
      if r.1 = W - 1 then .fail .panic s
      else
        let r := ds_sbrk s.ds 0
        let s := { s with ds := r.2, ds_heap_brk := r.1 }
        let s := { s with heap_start := wmul (wsub (wadd (wadd s.ds_heap_start TYPE_SIZE) BS) 1 / BS) BS }
        let s := { s with heap_end := wmul (wsub s.ds_heap_brk TYPE_SIZE / BS) BS }
        let s := { s with mem := PUT s.mem (wsub s.heap_start TYPE_SIZE) (PACK 0 ALLOC) }
        let s := { s with mem := PUT s.mem s.heap_end (PACK 0 ALLOC) }
        let size := wsub s.heap_end s.heap_start
        let bdrytag := PACK size FREE
        let s := { s with mem := PUT s.mem s.heap_start bdrytag }
        let s := { s with mem := PUT s.mem (wsub s.heap_end TYPE_SIZE) bdrytag }
        let s := { s with next_block := s.heap_start }
        .ok () { s with mm_initialized := 1 }

/-! ## The three locators -/

/-- The `do … while` loop of `ff_get_free_block`, one iteration per unit of budget. -/
def ff_loop (s : State) (size : Nat) : Nat → Nat → Result Nat
  | 0, _ => .fail .fuel s
  | fuel + 1, block =>
    let bstatus := GET_STATUS s.mem block
    let bsize := GET_SIZE s.mem block
    if bstatus = FREE ∧ bsize ≥ size then .ok block s
    else
      let block := wadd block bsize
      if GET_SIZE s.mem block > 0 then ff_loop s size fuel block else .ok 0 s

def ff_get_free_block (fuel : Nat) (size : Nat) (s : State) : Result Nat :=
  if s.mm_initialized = 0 then .fail .assertion s
  else ff_loop s size fuel s.heap_start

/-- The `while(1)` loop of `nf_get_free_block`, one iteration per unit of budget. -/
def nf_loop (s : State) (size : Nat) : Nat → Nat → Nat → Result Nat
  | 0, _, _ => .fail .fuel s
  | fuel + 1, block, cnt =>
    let bstatus := GET_STATUS s.mem block
    let bsize := GET_SIZE s.mem block
    let cnt := if GET_SIZE s.mem (NEXT_BLOCK s.mem block) = 0 then cnt + 1 else cnt
    if bstatus = FREE ∧ bsize ≥ size then
      if wadd block bsize < s.heap_end then .ok block { s with next_block := wadd block bsize }
      else .ok block { s with next_block := s.heap_start }
    else
      let block := if wadd block bsize < s.heap_end then wadd block bsize else s.heap_start
      if cnt = 2 then .ok 0 s else nf_loop s size fuel block cnt

def nf_get_free_block (fuel : Nat) (size : Nat) (s : State) : Result Nat :=
  if s.mm_initialized = 0 then .fail .assertion s
  else nf_loop s size fuel s.next_block 0

/-- The first loop of `bf_get_free_block`: it stops at the first fitting block
or at the end of the heap and yields `(block, minsize, minblock)`. -/
def bf_first (s : State) (size : Nat) : Nat → Nat → Option (Nat × Nat × Nat)
  | 0, _ => none
  | fuel + 1, block =>
    if GET_STATUS s.mem block = FREE ∧ GET_SIZE s.mem block ≥ size then
      some (block, GET_SIZE s.mem block, block)
    else
      let block := wadd block (GET_SIZE s.mem block)
      if GET_SIZE s.mem block = 0 then some (block, 0, 0) else bf_first s size fuel block

/-- The second loop of `bf_get_free_block`; it yields the final `minblock`. -/
def bf_scan (s : State) (size : Nat) : Nat → Nat → Nat → Nat → Option Nat
  | 0, _, _, _ => none
  | fuel + 1, block, minsize, minblock =>
    let bstatus := GET_STATUS s.mem block
    let bsize := GET_SIZE s.mem block
    let upd := bstatus = FREE ∧ bsize ≥ size ∧ bsize < minsize
    let minsize := if upd then bsize else minsize
    let minblock := if upd then block else minblock
    let block := wadd block bsize
    if GET_SIZE s.mem block ≠ 0 then bf_scan s size fuel block minsize minblock
    else some minblock

def bf_get_free_block (fuel : Nat) (size : Nat) (s : State) : Result Nat :=
  if s.mm_initialized = 0 then .fail .assertion s
  else
    match bf_first s size fuel s.heap_start with
    | none => .fail .fuel s
    | some (block, minsize, minblock) =>
      match bf_scan s size fuel block minsize minblock with
      | none => .fail .fuel s
      | some r => .ok r s

/-! ## Coalescing, heap growth, allocation, release -/

def coalesce (block : Nat) (s : State) : Result Nat :=
  if s.mm_initialized = 0 then .fail .assertion s
  else if GET_STATUS s.mem block ≠ FREE then .fail .assertion s
  else
    let size := GET_SIZE s.mem block
    let hdr := block
    let ftr := wsub (wadd block size) TYPE_SIZE
    let mergeNext := GET_STATUS s.mem (NEXT_BLOCK s.mem block) = FREE
    let size := if mergeNext then wadd size (GET_SIZE s.mem (NEXT_BLOCK s.mem block)) else size
    let ftr := if mergeNext then wsub (wadd hdr size) TYPE_SIZE else ftr
    let m :=
      if size > GET_SIZE s.mem block then PUT (PUT s.mem hdr (PACK size FREE)) ftr (PACK size FREE)
      else s.mem
    let mergePrev := GET_STATUS m (wsub block TYPE_SIZE) = FREE
    let size := if mergePrev then wadd size (GET_SIZE m (PREV_BLOCK m block)) else size
    let hdr := if mergePrev then PREV_BLOCK m block else hdr
    let m :=
      if size > GET_SIZE m block then PUT (PUT m hdr (PACK size FREE)) ftr (PACK size FREE)
      else m
    .ok hdr { s with mem := m }

/-- The part of `expand_heap` after the size has been rounded up to pages: move
the break, write the new FREE block and the new end sentinel, coalesce. -/
def grow_heap (size : Nat) (s : State) : Result Nat :=
  let r := ds_sbrk s.ds size
  let s := { s with ds := r.2 }
  let r := ds_sbrk s.ds 0
  let s := { s with ds := r.2 }
  let ds_new_brk := r.1
  let old_heap_end := s.heap_end
  let new_heap_end := wmul (wsub ds_new_brk TYPE_SIZE / BS) BS
  let s := { s with mem := PUT s.mem old_heap_end (PACK size FREE) }
  let s := { s with mem := PUT s.mem (wsub new_heap_end TYPE_SIZE) (PACK size FREE) }
  let s := { s with mem := PUT s.mem new_heap_end (PACK 0 ALLOC) }
  let s := { s with heap_end := new_heap_end }
  let s := { s with ds_heap_brk := ds_new_brk }
  coalesce old_heap_end s

/-- The function `expand_heap`.  The source keeps the page size in an `int`;
the provider's page size is taken to fit one.  A page size of zero makes the
division trap. -/
def expand_heap (blocksize : Nat) (s : State) : Result Nat :=
  let size :=
    if GET_STATUS s.mem (wsub s.heap_end TYPE_SIZE) = FREE then
      wsub blocksize (GET_SIZE s.mem (wsub s.heap_end TYPE_SIZE))
    else blocksize
  let ps := ds_getpagesize s.ds
  if ps = 0 then .fail .trap s
  else grow_heap (wmul (wsub (wadd size ps) 1 / ps) ps) s

/-- The call `get_block(blocksize)` through the function pointer. -/
def call_get_block (fuel : Nat) (blocksize : Nat) (s : State) : Result Nat :=
  match s.get_block with
  | none => .fail .trap s
  | some .ff => ff_get_free_block fuel blocksize s
  | some .nf => nf_get_free_block fuel blocksize s
  | some .bf => bf_get_free_block fuel blocksize s

/-- The part of `mm_malloc` after the block is known: split, mark, return. -/
def place (block blocksize : Nat) (s : State) : Result Nat :=
  let bsize := GET_SIZE s.mem block
  let s :=
    if blocksize < bsize then
      let next_block := wadd block blocksize
      let next_size := wsub bsize blocksize
      let s := { s with mem := PUT s.mem next_block (PACK next_size FREE) }
      { s with mem := PUT s.mem (wsub (wadd next_block next_size) TYPE_SIZE) (PACK next_size FREE) }
    else s
  let s := { s with mem := PUT s.mem block (PACK blocksize ALLOC) }
  let s := { s with mem := PUT s.mem (wsub (wadd block blocksize) TYPE_SIZE) (PACK blocksize ALLOC) }
  .ok (wadd block TYPE_SIZE) s

def mm_malloc (fuel : Nat) (size : Nat) (s : State) : Result Nat :=
  if s.mm_initialized = 0 then .fail .assertion s
  else
    let blocksize := ROUND_UP (wadd (wadd TYPE_SIZE size) TYPE_SIZE)
    match call_get_block fuel blocksize s with
    | .fail f s => .fail f s
    | .ok block s =>
      if block = 0 then
        match expand_heap blocksize s with
        | .fail f s => .fail f s
        | .ok block s => place block blocksize s
      else place block blocksize s

def mm_free (ptr : Nat) (s : State) : Result Unit :=
  if s.mm_initialized = 0 then .fail .assertion s
  else
    let block := wsub ptr TYPE_SIZE
    if GET_STATUS s.mem block ≠ ALLOC then .ok () s
    else
      let size := GET_SIZE s.mem block
      let s := { s with mem := PUT s.mem block (PACK size FREE) }
      let s := { s with mem := PUT s.mem (wsub (wadd block size) TYPE_SIZE) (PACK size FREE) }
      match coalesce block s with
      | .fail f s => .fail f s
      | .ok _ s => .ok () s

/-- The library call `memset(p, c, n)`: each of the `n` bytes from address `p`
becomes the byte `c`.  Modelled from the C standard: the `n` bytes must lie
inside an object, here the data segment from its start up to the break;
when they do not, the call does not return (`none`). -/
def memset (d : DataSeg) (m : Nat → Nat) (p c n : Nat) : Option (Nat → Nat) :=
  if d.start ≤ p ∧ p + n ≤ d.brk then
    some (fun a => if p ≤ a ∧ a < p + n then c % 256 else m a)
  else none

/-- The function `mm_calloc`.  When `memset` does not return the process stops
with a trap; the state kept with it is the one `mm_malloc` left. -/
def mm_calloc (fuel : Nat) (nmemb size : Nat) (s : State) : Result Nat :=
  if s.mm_initialized = 0 then .fail .assertion s
  else
    match mm_malloc fuel (wmul nmemb size) s with
    | .fail f s => .fail f s
    | .ok payload s =>
      if payload ≠ 0 then
        match memset s.ds s.mem payload 0 (wmul nmemb size) with
        | some m => .ok payload { s with mem := m }
        | none => .fail .trap s
      else .ok payload s

def mm_realloc (ptr size : Nat) (s : State) : Result Nat :=
  if s.mm_initialized = 0 then .fail .assertion s
  else .ok 0 s

/-! ## `mm_check` -/

/-- The `while (p < heap_end)` loop of `mm_check`; it yields the final `p` and
the error count. -/
def check_loop (s : State) : Nat → Nat → Nat → Option (Nat × Nat)
  | 0, _, _ => none
  | fuel + 1, p, errors =>
    if p < s.heap_end then
      let hdr := GET s.mem p
      let size := SIZE hdr
      let status := STATUS hdr
      let fp := wsub (wadd p size) TYPE_SIZE
      let ftr := GET s.mem fp
      let fsize := SIZE ftr
      let fstatus := STATUS ftr
      let errors := if size ≠ fsize ∨ status ≠ fstatus then errors + 1 else errors
      let p := wadd p size
      if size = 0 then some (p, errors) else check_loop s fuel p errors
    else some (p, errors)

/-- The function `mm_check` without its printing: the error count, the address
where the walk ended, and whether "Block structure coherent." is printed. -/
def mm_check (fuel : Nat) (s : State) : Result (Nat × Nat × Bool) :=
  if s.mm_initialized = 0 then .fail .assertion s
  else
    match check_loop s fuel s.heap_start 0 with
    | none => .fail .fuel s
    | some (p, errors) => .ok (errors, p, decide (p = s.heap_end ∧ errors = 0)) s
/-! ## The block list a heap walk sees -/

/-- Total size of a list of `(size, status)` blocks. -/
def span : List (Nat × Nat) → Nat
  | [] => 0
  | b :: bs => b.1 + span bs

/-- The blocks `bs` tile the bytes from `p` to `e`: every block has a size that
is a positive multiple of 32, a status that is `FREE` or `ALLOC`, and a header
and a footer that both hold `PACK(size, status)`. -/
def Layout (m : Nat → Nat) : Nat → List (Nat × Nat) → Nat → Prop
  | p, [], e => p = e
  | p, b :: bs, e =>
    32 ≤ b.1 ∧ b.1 % 32 = 0 ∧ (b.2 = FREE ∨ b.2 = ALLOC) ∧ GET m p = PACK b.1 b.2 ∧
      GET m (p + b.1 - 8) = PACK b.1 b.2 ∧ Layout m (p + b.1) bs e

instance Layout.decide (m : Nat → Nat) : ∀ p bs e, Decidable (Layout m p bs e)
  | p, [], e => inferInstanceAs (Decidable (p = e))
  | p, b :: bs, e =>
    have := Layout.decide m (p + b.1) bs e
    inferInstanceAs (Decidable (32 ≤ b.1 ∧ b.1 % 32 = 0 ∧ (b.2 = FREE ∨ b.2 = ALLOC) ∧
      GET m p = PACK b.1 b.2 ∧ GET m (p + b.1 - 8) = PACK b.1 b.2 ∧ Layout m (p + b.1) bs e))

/-- The heap of `s` is initialized and well formed with block list `bs`: the
blocks tile `[heap_start, heap_end)`, which is 32-byte aligned and lies inside
the address space, and both sentinel words hold `PACK(0, ALLOC)`. -/
def HeapOK (s : State) (bs : List (Nat × Nat)) : Prop :=
  s.mm_initialized ≠ 0 ∧ 8 ≤ s.heap_start ∧ s.heap_start % 32 = 0 ∧ s.heap_end + 8 ≤ W ∧
    GET s.mem (s.heap_start - 8) = PACK 0 ALLOC ∧ GET s.mem s.heap_end = PACK 0 ALLOC ∧
    Layout s.mem s.heap_start bs s.heap_end

instance (s : State) (bs : List (Nat × Nat)) : Decidable (HeapOK s bs) := by
  unfold HeapOK; infer_instance

/-- A block satisfies a request of block size `size`: it is `FREE` and large enough. -/
def Fits (size : Nat) (b : Nat × Nat) : Prop := b.2 = FREE ∧ size ≤ b.1

instance (size : Nat) (b : Nat × Nat) : Decidable (Fits size b) := by
  unfold Fits; infer_instance

/-- Address of the first block of `bs` (laid out from `p`) that fits, `0` when none does. -/
def firstFit (size : Nat) : Nat → List (Nat × Nat) → Nat
  | _, [] => 0
  | p, b :: bs => if Fits size b then p else firstFit size (p + b.1) bs


/-- The running best block of the second loop of best fit, on the block list:
`ms` and `mb` are `minsize` and `minblock`, `p` the address of the first block. -/
def bfScan (size : Nat) : Nat → List (Nat × Nat) → Nat → Nat → Nat
  | _, [], _, mb => mb
  | p, b :: bs, ms, mb =>
    if Fits size b ∧ b.1 < ms then bfScan size (p + b.1) bs b.1 p
    else bfScan size (p + b.1) bs ms mb

/-- The block at address `mb` has size `ms`, fits, is strictly smaller than every
fitting block before it and at most as large as every fitting block after it. -/
def Best (size hs : Nat) (l : List (Nat × Nat)) (ms mb : Nat) : Prop :=
  ∃ pre x post, l = pre ++ x :: post ∧ mb = hs + span pre ∧ x.1 = ms ∧ Fits size x ∧
    (∀ c ∈ pre, Fits size c → ms < c.1) ∧ (∀ c ∈ post, Fits size c → ms ≤ c.1)

/-- Header addresses of the blocks `bs` laid out from `p`. -/
def headers : Nat → List (Nat × Nat) → List Nat
  | _, [] => []
  | p, b :: bs => p :: headers (p + b.1) bs

/-- Size of the first block when it is FREE, `0` otherwise. -/
def freeHead : List (Nat × Nat) → Nat
  | [] => 0
  | b :: _ => if b.2 = FREE then b.1 else 0

/-- The list without its first block when that block is FREE. -/
def dropFreeHead : List (Nat × Nat) → List (Nat × Nat)
  | [] => []
  | b :: bs => if b.2 = FREE then bs else b :: bs

/-- Size of the last block when it is FREE, `0` otherwise. -/
def freeLast (l : List (Nat × Nat)) : Nat := freeHead l.reverse

/-- The list without its last block when that block is FREE. -/
def dropFreeLast (l : List (Nat × Nat)) : List (Nat × Nat) := (dropFreeHead l.reverse).reverse

/-- The block list after the block of size `z` between `pre` and `post` has
been released and merged with its FREE neighbours. -/
def coalesced (pre : List (Nat × Nat)) (z : Nat) (post : List (Nat × Nat)) : List (Nat × Nat) :=
  dropFreeLast pre ++ (freeLast pre + z + freeHead post, FREE) :: dropFreeHead post

/-- From the address `q`, at most `k` hops over headers left behind inside FREE
blocks (each still holding a FREE tag with a size that is a positive multiple
of 32) lead to the header of a block of `bs` or to the end of the heap `he`. -/
inductive Chain (m : Nat → Nat) (hs he : Nat) (bs : List (Nat × Nat)) : Nat → Nat → Prop
  | real (k q : Nat) : q ∈ headers hs bs → Chain m hs he bs k q
  | last (k q z : Nat) : GET m q = PACK z FREE → 32 ≤ z → z % 32 = 0 → q % 32 = 0 →
      hs ≤ q → q + z = he → Chain m hs he bs (k + 1) q
  | hop (k q z : Nat) : GET m q = PACK z FREE → 32 ≤ z → z % 32 = 0 → q % 32 = 0 →
      hs ≤ q → Chain m hs he bs k (q + z) → Chain m hs he bs (k + 1) q

/-! ## Running the allocator on concrete inputs -/

/-- The state a call leaves behind, whether it returned or stopped. -/
def Result.state {α : Type} : Result α → State
  | .ok _ s => s
  | .fail _ s => s

/-- The value a call returned, `none` when it did not return. -/
def Result.value? {α : Type} : Result α → Option α
  | .ok v _ => some v
  | .fail _ _ => none

/-- The fault a call stopped with, `none` when it returned. -/
def Result.fault? {α : Type} : Result α → Option Fault
  | .ok _ _ => none
  | .fail f _ => some f

/-- A process before `mm_init`: zeroed memory, all globals zero, and a clean
data segment at `start` whose break may grow up to `limit`. -/
def boot (start limit pagesize : Nat) : State :=
  { mem := fun _ => 0
    ds := { start := start, brk := start, limit := limit, pagesize := pagesize }
    ds_heap_start := 0
    ds_heap_brk := 0
    heap_start := 0
    heap_end := 0
    next_block := 0
    PAGESIZE := 0
    mm_initialized := 0
    get_block := none }

/-- A client call: `malloc n` requests `n` bytes, `free i` releases the handle
that the `i`-th `malloc` of the trace returned. -/
inductive Op where
  | malloc (n : Nat)
  | free (i : Nat)

/-- Run a trace of client calls.  The list pairs every handle returned so far
with a flag telling whether it is still live.  The run is `none` when a call
does not return or when a `free` names a handle that is not live. -/
def runOps (fuel : Nat) : List Op → State → List (Nat × Bool) → Option (State × List (Nat × Bool))
  | [], s, hs => some (s, hs)
  | .malloc n :: ops, s, hs =>
    match mm_malloc fuel n s with
    | .ok h s' => runOps fuel ops s' (hs ++ [(h, true)])
    | .fail _ _ => none
  | .free i :: ops, s, hs =>
    match hs.get? i with
    | some (h, true) =>
      match mm_free h s with
      | .ok _ s' => runOps fuel ops s' (hs.set i (h, false))
      | .fail _ _ => none
    | _ => none

/-- The heap right after `mm_init` with the next-fit policy (4 KiB pages, data
segment at `0x10000`, break free to grow to `0x110000`). -/
def heapNF : State := (mm_init .ap_NextFit (boot 65536 1114112 4096)).state

/-- The heap right after `mm_init` with the first-fit policy when the provider
refuses every extension beyond the initial chunk. -/
def heapFull : State := (mm_init .ap_FirstFit (boot 65536 69632 4096)).state

/-- The heap right after `mm_init` with the best-fit policy. -/
def heapBF0 : State := (mm_init .ap_BestFit (boot 65536 1114112 4096)).state

/-- A best-fit heap whose FREE blocks have the sizes 64, 128 and 96, in address order. -/
def heapBF : State :=
  match runOps 100 [.malloc 40, .malloc 1, .malloc 100, .malloc 1, .malloc 70, .malloc 1,
      .malloc 3632, .free 0, .free 2, .free 4] heapBF0 [] with
  | some (s, _) => s
  | none => heapBF0

/-- A next-fit heap with two adjacent ALLOCATED blocks of 32 bytes at its start. -/
def heapTwo : State :=
  match runOps 100 [.malloc 1, .malloc 1] heapNF [] with
  | some (s, _) => s
  | none => heapNF

/-- A next-fit heap whose cursor is the header of its second block. -/
def heapMid : State :=
  match runOps 100 [.malloc 1, .malloc 1, .malloc 1, .free 0, .malloc 1] heapNF [] with
  | some (s, _) => s
  | none => heapNF

/-- The state in which `mm_free` calls `coalesce` on the middle one of three
blocks whose two neighbours are FREE: the block at `heap_start + 32` has just
been marked FREE. -/
def heapTriple : State :=
  match runOps 100 [.malloc 1, .malloc 1, .free 0] heapNF [] with
  | some (s, _) =>
    { s with
      mem := PUT (PUT s.mem (s.heap_start + 32) (PACK 32 FREE)) (s.heap_start + 32 + 32 - 8)
        (PACK 32 FREE) }
  | none => heapNF

/-! ## The walk of `mm_check` -/

/-- The header and the footer of the block at `p` differ in size or in status. -/
def TagsDiffer (m : Nat → Nat) (p : Nat) : Prop :=
  SIZE (GET m p) ≠ SIZE (GET m (wsub (wadd p (SIZE (GET m p))) TYPE_SIZE)) ∨
    STATUS (GET m p) ≠ STATUS (GET m (wsub (wadd p (SIZE (GET m p))) TYPE_SIZE))

instance (m : Nat → Nat) (p : Nat) : Decidable (TagsDiffer m p) := by
  unfold TagsDiffer; infer_instance

/-- The blocks visited from `p` up to `he`, stepping by the size in each
header: `Walk m he p l e` says the walk from `p` visits the headers `l`, in
this order, and ends at the address `e`.  The walk ends at the first address
that is not below `he`, or right after a block whose header holds size 0. -/
inductive Walk (m : Nat → Nat) (he : Nat) : Nat → List Nat → Nat → Prop
  | done (p : Nat) : ¬ p < he → Walk m he p [] p
  | stuck (p : Nat) : p < he → GET_SIZE m p = 0 → Walk m he p [p] (wadd p (GET_SIZE m p))
  | step (p : Nat) (l : List Nat) (e : Nat) : p < he → GET_SIZE m p ≠ 0 →
      Walk m he (wadd p (GET_SIZE m p)) l e → Walk m he p (p :: l) e

/-- The blocks that `mm_malloc` leaves in place of a FREE block of size `z`
chosen for a request of block size `B`: the ALLOCATED block, followed by the
FREE remainder when `B < z`. -/
def placed (B z : Nat) : List (Nat × Nat) :=
  (B, ALLOC) :: (if B < z then [(z - B, FREE)] else [])

/-- The heap right after `mm_init` with the first-fit policy (provider free to
grow to `0x110000`). -/
def heapFF : State := (mm_init .ap_FirstFit (boot 65536 1114112 4096)).state

/-- The next-fit heap after `a = malloc 1; b = malloc 1; free a; a' = malloc 1;
free b; free a'`: one FREE block, with the cursor left on the old header of `b`. -/
def heapStale : State :=
  match runOps 100 [.malloc 1, .malloc 1, .free 0, .malloc 1, .free 1, .free 2] heapNF [] with
  | some (s, _) => s
  | none => heapNF

/-- The caller stores the byte `v` at address `a`. -/
def poke (s : State) (a v : Nat) : State :=
  { s with mem := fun x => if x = a then v % 256 else s.mem x }

/-- The cursor lies inside `[heap_start, heap_end)`, and `heap_end` is where
`mm_init` and `expand_heap` put it for the current break, which the provider
keeps inside the address space. -/
def CursorOK (s : State) : Prop :=
  s.heap_start ≤ s.next_block ∧ s.next_block < s.heap_end ∧
    s.heap_end = (s.ds.brk - 8) / 32 * 32 ∧ 8 ≤ s.ds.brk ∧ s.ds.brk ≤ s.ds.limit ∧
    s.ds.limit < W

/-! ## Reachable states -/

/-- The blocks `bs` laid out from `p`, each as `(address, size, status)`. -/
def blocksAt : Nat → List (Nat × Nat) → List (Nat × Nat × Nat)
  | _, [] => []
  | p, b :: bs => (p, b.1, b.2) :: blocksAt (p + b.1) bs

/-- No two neighbours in the block list are both FREE. -/
def NoAdjFree (bs : List (Nat × Nat)) : Prop :=
  List.Chain' (fun a b : Nat × Nat => ¬ (a.2 = FREE ∧ b.2 = FREE)) bs

instance NoAdjFree.decide : ∀ bs, Decidable (NoAdjFree bs)
  | [] => isTrue List.chain'_nil
  | [_] => isTrue (List.chain'_singleton _)
  | a :: b :: l =>
    have := NoAdjFree.decide (b :: l)
    decidable_of_iff (¬ (a.2 = FREE ∧ b.2 = FREE) ∧ NoAdjFree (b :: l))
      (List.chain'_cons (R := fun a b : Nat × Nat => ¬ (a.2 = FREE ∧ b.2 = FREE))).symm

/-- The provider as `mm_init` and `expand_heap` leave it: the page size is a
positive multiple of 32 that fits an `int`, `heap_end` is the break minus one
word rounded down to 32, and the break is within the limit, which lies inside
the address space. -/
def ProvOK (s : State) : Prop :=
  0 < s.ds.pagesize ∧ s.ds.pagesize % 32 = 0 ∧ s.ds.pagesize < 2147483648 ∧ 8 ≤ s.ds.brk ∧
    s.heap_end = (s.ds.brk - 8) / 32 * 32 ∧ s.ds.brk ≤ s.ds.limit ∧ s.ds.limit < W

instance (s : State) : Decidable (ProvOK s) := by
  unfold ProvOK; infer_instance

/-- The provider grants what `expand_heap B` asks for on the block list `bs`:
rounding `B` less a FREE last block up to pages stays inside 64 bits, and the
break may grow by that much. -/
def Granted (s : State) (bs : List (Nat × Nat)) (B : Nat) : Prop :=
  B - freeLast bs + s.ds.pagesize ≤ W ∧
    s.ds.brk + (B - freeLast bs + s.ds.pagesize - 1) / s.ds.pagesize * s.ds.pagesize ≤
      s.ds.limit

instance (s : State) (bs : List (Nat × Nat)) (B : Nat) : Decidable (Granted s bs B) := by
  unfold Granted; infer_instance

/-- The block size `mm_malloc` computes for a request of `n ≤ 2 ^ 64 - 48` bytes. -/
def blockSize (n : Nat) : Nat := (n + 16 + 31) / 32 * 32

/-- The states reached from `mm_init ap s0` by calls of `mm_malloc` with
requests of at most `2 ^ 64 - 48` bytes and calls of `mm_free` on live
handles, each state with its live handles and the sizes they were requested
with.  Only calls that return lead to a state. -/
inductive Reach (ap : AllocationPolicy) (s0 : State) : State → List (Nat × Nat) → Prop
  | init (s : State) : mm_init ap s0 = .ok () s → Reach ap s0 s []
  | malloc (s : State) (live : List (Nat × Nat)) (fuel n h : Nat) (s' : State) :
      Reach ap s0 s live → n ≤ 18446744073709551568 → mm_malloc fuel n s = .ok h s' →
      Reach ap s0 s' ((h, n) :: live)
  | free (s : State) (live : List (Nat × Nat)) (h n : Nat) (s' : State) :
      Reach ap s0 s live → (h, n) ∈ live → mm_free h s = .ok () s' →
      Reach ap s0 s' (live.erase (h, n))

/-- The invariant of the reachable states under first fit and best fit: the
heap is well formed with no two adjacent FREE blocks, the provider is as
`mm_init` and `expand_heap` leave it, the live handles are pairwise different,
and each is the payload of an ALLOCATED block of the list that has the block
size computed for its request. -/
def Inv (s : State) (live : List (Nat × Nat)) : Prop :=
  ∃ bs, HeapOK s bs ∧ NoAdjFree bs ∧ ProvOK s ∧ (∃ loc, s.get_block = some loc ∧ loc ≠ .nf) ∧
    (live.map Prod.fst).Nodup ∧
    ∀ x ∈ live, 8 ≤ x.1 ∧ (x.1 - 8, blockSize x.2, ALLOC) ∈ blocksAt s.heap_start bs

/-- The first-fit heap after `a = malloc 1`. -/
def heapOne : State := (mm_malloc 100 1 heapFF).state

/-- The first-fit heap after `a = malloc 1; free a`. -/
def heapBack : State := (mm_free 65576 heapOne).state

/-- The first-fit heap after `a = malloc 1; z = malloc (2 ^ 64 - 17); free z;
free a`, in which every `free` releases a live handle. -/
def heapAdj : State :=
  match runOps 100 [.malloc 1, .malloc 18446744073709551599, .free 1, .free 0] heapFF [] with
  | some (s, _) => s
  | none => heapFF

/-- The first-fit heap after `z = malloc (2 ^ 64 - 17); free z`. -/
def heapBare : State :=
  match runOps 100 [.malloc 18446744073709551599, .free 0] heapFF [] with
  | some (s, _) => s
  | none => heapFF

/-- The first-fit heap after `z = malloc (2 ^ 64 - 17); y = malloc 5000`. -/
def heapShared : State :=
  match runOps 100 [.malloc 18446744073709551599, .malloc 5000] heapFF [] with
  | some (s, _) => s
  | none => heapFF

/-- The caller stores the 64-bit word `v` at address `a`. -/
def store (s : State) (a v : Nat) : State := { s with mem := PUT s.mem a v }

/-- The next-fit heap after `a = malloc 1; b = malloc 1; free a; a' = malloc 1;
free b; free a'; x = malloc 5000` (every `free` releases a live handle): the
heap has grown, `x = 65576` is live, and the cursor is still 65600, the old
header of `b`, now inside the payload of `x`. -/
def heapGrown : State :=
  match runOps 100 [.malloc 1, .malloc 1, .free 0, .malloc 1, .free 1, .free 2, .malloc 5000]
      heapNF [] with
  | some (s, _) => s
  | none => heapNF

/-- The heap `heapGrown` after the caller has stored the word `2 ^ 64 - 56`
at `x + 24 = 65600`, inside its payload. -/
def heapBait : State := store heapGrown 65600 18446744073709551560

/-- The heap right after `mm_init` with the first-fit policy when the provider
lets the break grow by exactly one more page of 4096 bytes. -/
def heapTight : State := (mm_init .ap_FirstFit (boot 65536 73728 4096)).state

end MemMgr

/-! ## The job table of `lab-4-shell-lab/tsh.c` -/

namespace Tsh

abbrev MAXJOBS : Nat := 16
abbrev UNDEF : Int := 0
abbrev FG : Int := 1
abbrev BG : Int := 2
abbrev ST : Int := 3

/-- The struct `job_t`. -/
structure job_t where
  pid : Int
  jid : Int
  state : Int
  cmdline : String

/-- The globals `jobs` (indexed by array position) and `nextjid`. -/
structure Shell where
  jobs : Nat → job_t
  nextjid : Int

/-- The array `jobs` with entry `i` replaced. -/
def setjob (jobs : Nat → job_t) (i : Nat) (j : job_t) : Nat → job_t :=
  fun k => if k = i then j else jobs k

def clearjob (job : job_t) : job_t :=
  { job with pid := 0, jid := 0, state := UNDEF, cmdline := "" }

/-- The loop of `initjobs`, from index `i`, with `k` iterations left. -/
def initjobs_loop : Nat → Nat → (Nat → job_t) → (Nat → job_t)
  | 0, _, jobs => jobs
  | k + 1, i, jobs => initjobs_loop k (i + 1) (setjob jobs i (clearjob (jobs i)))

def initjobs (jobs : Nat → job_t) : Nat → job_t := initjobs_loop MAXJOBS 0 jobs

/-- The loop of `maxjid`, from index `i`, with `k` iterations left. -/
def maxjid_loop (jobs : Nat → job_t) : Nat → Nat → Int → Int
  | 0, _, max => max
  | k + 1, i, max => maxjid_loop jobs k (i + 1) (if (jobs i).jid > max then (jobs i).jid else max)

def maxjid (jobs : Nat → job_t) : Int := maxjid_loop jobs MAXJOBS 0 0

/-- The loop of `addjob`, from index `i`, with `k` iterations left; it yields
the return value and the globals. -/
def addjob_loop (pid state : Int) (cmdline : String) (sh : Shell) : Nat → Nat → Int × Shell
  | 0, _ => (0, sh)
  | k + 1, i =>
    if (sh.jobs i).pid = 0 then
      let jid := sh.nextjid
      let nextjid := sh.nextjid + 1
      let nextjid := if nextjid > MAXJOBS then 1 else nextjid
      (1, { jobs := setjob sh.jobs i { pid := pid, jid := jid, state := state, cmdline := cmdline },
            nextjid := nextjid })
    else addjob_loop pid state cmdline sh k (i + 1)

def addjob (sh : Shell) (pid state : Int) (cmdline : String) : Int × Shell :=
  if pid < 1 then (0, sh) else addjob_loop pid state cmdline sh MAXJOBS 0

/-- The loop of `deletejob`, from index `i`, with `k` iterations left. -/
def deletejob_loop (pid : Int) (sh : Shell) : Nat → Nat → Int × Shell
  | 0, _ => (0, sh)
  | k + 1, i =>
    if (sh.jobs i).pid = pid then
      let jobs := setjob sh.jobs i (clearjob (sh.jobs i))
      (1, { jobs := jobs, nextjid := maxjid jobs + 1 })
    else deletejob_loop pid sh k (i + 1)

def deletejob (sh : Shell) (pid : Int) : Int × Shell :=
  if pid < 1 then (0, sh) else deletejob_loop pid sh MAXJOBS 0

/-- The loop of `getjobjid`; it yields the index of the entry whose address is
returned, `none` for `NULL`. -/
def getjobjid_loop (jobs : Nat → job_t) (jid : Int) : Nat → Nat → Option Nat
  | 0, _ => none
  | k + 1, i => if (jobs i).jid = jid then some i else getjobjid_loop jobs jid k (i + 1)

def getjobjid (jobs : Nat → job_t) (jid : Int) : Option Nat :=
  if jid < 1 then none else getjobjid_loop jobs jid MAXJOBS 0

/-- A call on the job table: `add pid` is `addjob(jobs, pid, BG, "")`, `del pid`
is `deletejob(jobs, pid)`. -/
inductive JobOp where
  | add (pid : Int)
  | del (pid : Int)

/-- Run a sequence of calls on the job table. -/
def runJobs : List JobOp → Shell → Shell
  | [], sh => sh
  | .add pid :: ops, sh => runJobs ops (addjob sh pid BG "").2
  | .del pid :: ops, sh => runJobs ops (deletejob sh pid).2

/-- The globals after `initjobs(jobs)`, with `nextjid = 1`. -/
def start : Shell :=
  { jobs := initjobs (fun _ => { pid := 0, jid := 0, state := 0, cmdline := "" }), nextjid := 1 }

/-- The job table after fifteen `addjob` calls with the pids 1 to 15,
`deletejob` of pid 2, and `addjob` of the pids 16 and 17. -/
def crowded : Shell :=
  runJobs [.add 1, .add 2, .add 3, .add 4, .add 5, .add 6, .add 7, .add 8, .add 9, .add 10,
    .add 11, .add 12, .add 13, .add 14, .add 15, .del 2, .add 16, .add 17] start

end Tsh

namespace MemMgr
/-! ## Words, tags and bytes -/

theorem consts : W = 18446744073709551616 ∧ FREE = 0 ∧ ALLOC = 1 ∧ TYPE_SIZE = 8 ∧ BS = 32 :=
  ⟨rfl, rfl, rfl, rfl, rfl⟩

theorem wadd_eq {a b : Nat} (h : a + b < W) : wadd a b = a + b := by
  unfold wadd W at *; omega

theorem wsub_eq {a b : Nat} (hb : b ≤ a) (ha : a < W) : wsub a b = a - b := by
  unfold wsub W at *; omega

theorem wadd_lt (a b : Nat) : wadd a b < W := by
  unfold wadd W at *; omega

theorem wsub_lt (a b : Nat) : wsub a b < W := by
  unfold wsub W at *; omega

theorem STATUS_eq (v : Nat) : STATUS v = v % 8 := by
  unfold STATUS
  exact Nat.and_pow_two_sub_one_eq_mod v 3

theorem SIZE_eq (v : Nat) : SIZE v = 8 * (v % W / 8) := by
  unfold SIZE
  apply Nat.eq_of_testBit_eq
  intro i
  have h1 : SIZE_MASK = 2 ^ 3 * (2 ^ 61 - 1) := by norm_num
  have h2 : (8 : Nat) = 2 ^ 3 := by norm_num
  have h3 : W = 2 ^ 64 := by norm_num
  have h4 : v % W / 2 ^ 3 = (v % W) >>> 3 := by rw [Nat.shiftRight_eq_div_pow]
  rw [Nat.testBit_and, h1, h2, h3, Nat.testBit_mul_pow_two, Nat.testBit_mul_pow_two,
    Nat.testBit_two_pow_sub_one, ← h3, h4, Nat.testBit_shiftRight, h3, Nat.testBit_mod_two_pow]
  by_cases h : i ≥ 3
  · have e : 3 + (i - 3) = i := by omega
    rw [e]
    by_cases h' : i < 64
    · have : i - 3 < 61 := by omega
      simp [h, h', this]
    · have : ¬ (i - 3 < 61) := by omega
      simp [h, h', this]
  · simp [h]

theorem PACK_eq {size status : Nat} (h8 : size % 8 = 0) (hs : status < 8) :
    PACK size status = size + status := by
  unfold PACK
  have h : size = 2 ^ 3 * (size / 8) := by omega
  rw [h]
  exact (Nat.mul_add_lt_is_or (by omega : status < 2 ^ 3) (size / 8)).symm

theorem SIZE_PACK {size status : Nat} (h8 : size % 8 = 0) (hs : status < 8) (hw : size < W) :
    SIZE (PACK size status) = size := by
  rw [PACK_eq h8 hs, SIZE_eq]; unfold W at *; omega

theorem STATUS_PACK {size status : Nat} (h8 : size % 8 = 0) (hs : status < 8) :
    STATUS (PACK size status) = status := by
  rw [PACK_eq h8 hs, STATUS_eq]; omega

theorem SIZE_mod8 (v : Nat) : SIZE v % 8 = 0 := by
  rw [SIZE_eq]; omega

theorem SIZE_lt (v : Nat) : SIZE v < W := by
  rw [SIZE_eq]; unfold W; omega

theorem GET_lt (m : Nat → Nat) (p : Nat) : GET m p < W := by
  unfold GET W; omega

theorem GET_PUT_same (m : Nat → Nat) (p v : Nat) (hv : v < W) : GET (PUT m p v) p = v := by
  unfold GET PUT byteAt W at *
  simp
  omega

theorem GET_PUT_other (m : Nat → Nat) (p v q : Nat) (h : q + 8 ≤ p ∨ p + 8 ≤ q) :
    GET (PUT m p v) q = GET m q := by
  unfold GET PUT
  have e : ∀ i, i < 8 → (if p ≤ q + i ∧ q + i < p + 8 then byteAt v (q + i - p) else m (q + i)) = m (q + i) := by
    intro i hi
    rw [if_neg]; omega
  have e0 := e 0 (by omega)
  simp only [Nat.add_zero] at e0
  rw [e0, e 1 (by omega), e 2 (by omega), e 3 (by omega), e 4 (by omega), e 5 (by omega), e 6 (by omega), e 7 (by omega)]


theorem PUT_other (m : Nat → Nat) (p v a : Nat) (h : a < p ∨ p + 8 ≤ a) : PUT m p v a = m a := by
  unfold PUT
  rw [if_neg]; omega

/-- Reading a word depends only on its eight bytes. -/
theorem GET_congr {m m' : Nat → Nat} {q : Nat} (h : ∀ a, q ≤ a → a < q + 8 → m' a = m a) :
    GET m' q = GET m q := by
  unfold GET
  rw [h q (by omega) (by omega), h (q + 1) (by omega) (by omega), h (q + 2) (by omega) (by omega),
    h (q + 3) (by omega) (by omega), h (q + 4) (by omega) (by omega),
    h (q + 5) (by omega) (by omega), h (q + 6) (by omega) (by omega),
    h (q + 7) (by omega) (by omega)]

/-! ## Reading a well-formed heap -/

theorem Layout_end {m : Nat → Nat} : ∀ {bs : List (Nat × Nat)} {p e : Nat},
    Layout m p bs e → e = p + span bs
  | [], p, e, h => by simp [Layout] at h; simp [span, h]
  | b :: bs, p, e, h => by
    have h' := Layout_end h.2.2.2.2.2
    simp [span]; omega

/-- What the header of the first block of a layout holds. -/
theorem Layout_head {m : Nat → Nat} {b : Nat × Nat} {bs : List (Nat × Nat)} {p e : Nat}
    (h : Layout m p (b :: bs) e) (he : e < W) :
    GET_SIZE m p = b.1 ∧ GET_STATUS m p = b.2 ∧ wadd p b.1 = p + b.1 ∧ 32 ≤ b.1 ∧ b.2 < 8 := by
  obtain ⟨cW, cF, cA, -, -⟩ := consts
  obtain ⟨h1, h2, h3, h4, _, h6⟩ := h
  have h7 := Layout_end h6
  have hs : b.2 < 8 := by rcases h3 with h3 | h3 <;> omega
  have hw : b.1 < W := by omega
  refine ⟨?_, ?_, wadd_eq (by omega), h1, hs⟩
  · unfold GET_SIZE; rw [h4]; exact SIZE_PACK (by omega) hs hw
  · unfold GET_STATUS; rw [h4]; exact STATUS_PACK (by omega) hs

theorem sentinel_size {m : Nat → Nat} {e : Nat} (h : GET m e = PACK 0 ALLOC) :
    GET_SIZE m e = 0 ∧ GET_STATUS m e = ALLOC := by
  unfold GET_SIZE GET_STATUS; rw [h]; decide

/-! ## First fit -/

theorem ff_loop_spec (s : State) (size e : Nat) (he : e < W)
    (hs : GET s.mem e = PACK 0 ALLOC) :
    ∀ (bs : List (Nat × Nat)) (b : Nat × Nat) (p fuel : Nat),
      Layout s.mem p (b :: bs) e → (b :: bs).length ≤ fuel →
      ff_loop s size fuel p = .ok (firstFit size p (b :: bs)) s := by
  intro bs
  induction bs with
  | nil =>
    intro b p fuel hl hf
    obtain ⟨h1, h2, h3, h4, h5⟩ := Layout_head hl he
    have hend : p + b.1 = e := hl.2.2.2.2.2
    cases fuel with
    | zero => simp at hf
    | succ fuel =>
      simp only [ff_loop, firstFit, Fits, h1, h2, h3, hend, (sentinel_size hs).1]
      by_cases hfit : b.2 = FREE ∧ size ≤ b.1
      · simp [hfit]
      · simp [hfit]
  | cons c cs ih =>
    intro b p fuel hl hf
    obtain ⟨h1, h2, h3, h4, h5⟩ := Layout_head hl he
    have hl' : Layout s.mem (p + b.1) (c :: cs) e := hl.2.2.2.2.2
    obtain ⟨k1, k2, k3, k4, k5⟩ := Layout_head hl' he
    cases fuel with
    | zero => simp at hf
    | succ fuel =>
      have hf' : (c :: cs).length ≤ fuel := by simp at hf ⊢; omega
      have ih' := ih c (p + b.1) fuel hl' hf'
      rw [ff_loop]
      simp only [h1, h2, h3, k1]
      rw [firstFit]
      by_cases hfit : b.2 = FREE ∧ size ≤ b.1
      · simp [hfit, Fits]
      · have : c.1 > 0 := by omega
        simp [hfit, Fits, this, ih']

theorem span_append (xs ys : List (Nat × Nat)) : span (xs ++ ys) = span xs + span ys := by
  induction xs with
  | nil => simp [span]
  | cons x xs ih => simp [span, ih]; omega

/-- Either nothing fits and `firstFit` is `0`, or `firstFit` is the address of
the first fitting block. -/
theorem firstFit_cases (size : Nat) : ∀ (bs : List (Nat × Nat)) (p : Nat),
    ((∀ b ∈ bs, ¬ Fits size b) ∧ firstFit size p bs = 0) ∨
    ∃ pre b post, bs = pre ++ b :: post ∧ firstFit size p bs = p + span pre ∧ Fits size b ∧
      ∀ c ∈ pre, ¬ Fits size c
  | [], p => by left; simp [firstFit]
  | b :: bs, p => by
    by_cases hb : Fits size b
    · right
      exact ⟨[], b, bs, rfl, by simp [firstFit, hb, span], hb, by simp⟩
    · rcases firstFit_cases size bs (p + b.1) with ⟨h1, h2⟩ | ⟨pre, c, post, h1, h2, h3, h4⟩
      · left
        refine ⟨?_, by simp [firstFit, hb, h2]⟩
        intro x hx
        rcases List.mem_cons.1 hx with rfl | hx
        · exact hb
        · exact h1 x hx
      · right
        refine ⟨b :: pre, c, post, by simp [h1], ?_, h3, ?_⟩
        · simp [firstFit, hb, h2, span]; omega
        · intro x hx
          rcases List.mem_cons.1 hx with rfl | hx
          · exact hb
          · exact h4 x hx

theorem ff_top (s : State) (bs : List (Nat × Nat)) (size fuel : Nat)
    (hok : HeapOK s bs) (hfuel : bs.length + 1 ≤ fuel) :
    ff_get_free_block fuel size s = .ok (firstFit size s.heap_start bs) s := by
  obtain ⟨cW, cF, cA, -, -⟩ := consts
  obtain ⟨h1, h2, h3, h4, h5, h6, h7⟩ := hok
  unfold ff_get_free_block
  rw [if_neg h1]
  cases bs with
  | nil =>
    have e : s.heap_start = s.heap_end := h7
    obtain ⟨fuel, rfl⟩ : ∃ f, fuel = f + 1 := ⟨fuel - 1, by omega⟩
    have z := sentinel_size h6
    have w : wadd s.heap_end 0 = s.heap_end := wadd_eq (by omega)
    simp [ff_loop, firstFit, e, z.1, z.2, w]
  | cons b bs =>
    exact ff_loop_spec s size s.heap_end (by omega) h6 bs b s.heap_start fuel h7 (by simp at hfuel ⊢; omega)

/-! ## Next fit -/

/-- One pass of the next-fit loop over the blocks from a block header `p` to the
end of the heap: it stops at the first fitting block, and otherwise arrives at
`heap_start` with the wrap counter advanced by one. -/
theorem nf_loop_pass (s : State) (size : Nat) (he : s.heap_end < W)
    (hs : GET s.mem s.heap_end = PACK 0 ALLOC) :
    ∀ (bs : List (Nat × Nat)) (b : Nat × Nat) (p c : Nat), c ≤ 1 →
      Layout s.mem p (b :: bs) s.heap_end →
      ((∃ x ∈ b :: bs, Fits size x) → ∀ fuel, (b :: bs).length ≤ fuel →
        ∃ nb, nf_loop s size fuel p c = .ok (firstFit size p (b :: bs)) { s with next_block := nb }) ∧
      ((∀ x ∈ b :: bs, ¬ Fits size x) → ∀ fuel,
        nf_loop s size (fuel + (b :: bs).length) p c =
          if c + 1 = 2 then .ok 0 s else nf_loop s size fuel s.heap_start (c + 1)) := by
  obtain ⟨cW, cF, cA, -, -⟩ := consts
  intro bs
  induction bs with
  | nil =>
    intro b p c hc hl
    obtain ⟨h1, h2, h3, h4, h5⟩ := Layout_head hl he
    have hend : p + b.1 = s.heap_end := hl.2.2.2.2.2
    have z := sentinel_size hs
    constructor
    · rintro ⟨x, hx, hfit⟩ fuel hf
      have hb : Fits size b := by
        have : x = b := by simpa using hx
        rw [this] at hfit; exact hfit
      obtain ⟨fuel, rfl⟩ : ∃ f, fuel = f + 1 := ⟨fuel - 1, by simp at hf; omega⟩
      have hb' : b.2 = FREE ∧ size ≤ b.1 := hb
      simp only [nf_loop, NEXT_BLOCK, h1, h2, h3, hend, firstFit, hb, if_true]
      simp [hb']
    · intro hno fuel
      have hb : ¬ (b.2 = FREE ∧ size ≤ b.1) := hno b (by simp)
      simp only [List.length_singleton]
      simp only [nf_loop, NEXT_BLOCK, h1, h2, h3, hend, z.1]
      simp [hb]
  | cons d ds ih =>
    intro b p c hc hl
    obtain ⟨h1, h2, h3, h4, h5⟩ := Layout_head hl he
    have hl' : Layout s.mem (p + b.1) (d :: ds) s.heap_end := hl.2.2.2.2.2
    obtain ⟨k1, k2, k3, k4, k5⟩ := Layout_head hl' he
    have hend := Layout_end hl'
    have hlt : p + b.1 < s.heap_end := by simp [span] at hend; omega
    obtain ⟨ih1, ih2⟩ := ih d (p + b.1) c hc hl'
    have hk : ¬ (d.1 = 0) := by omega
    have hc2 : ¬ (c = 2) := by omega
    constructor
    · rintro ⟨x, hx, hfit⟩ fuel hf
      obtain ⟨fuel, rfl⟩ : ∃ f, fuel = f + 1 := ⟨fuel - 1, by simp at hf; omega⟩
      by_cases hb : Fits size b
      · have hb' : b.2 = FREE ∧ size ≤ b.1 := hb
        simp only [nf_loop, NEXT_BLOCK, h1, h2, h3, firstFit, hb, if_true]
        simp [hb', hlt]
      · have hb' : ¬ (b.2 = FREE ∧ size ≤ b.1) := hb
        have hx' : ∃ x ∈ d :: ds, Fits size x := by
          rcases List.mem_cons.1 hx with rfl | hx
          · exact absurd hfit hb
          · exact ⟨x, hx, hfit⟩
        obtain ⟨nb, hnb⟩ := ih1 hx' fuel (by simp at hf ⊢; omega)
        refine ⟨nb, ?_⟩
        rw [nf_loop]
        simp only [NEXT_BLOCK, h1, h2, h3, k1, hk, if_false, hlt, if_true, hc2]
        rw [firstFit, if_neg hb]
        simp [hb', hnb]
    · intro hno fuel
      have hb : ¬ (b.2 = FREE ∧ size ≤ b.1) := hno b (by simp)
      have hno' : ∀ x ∈ d :: ds, ¬ Fits size x := fun x hx => hno x (List.mem_cons_of_mem _ hx)
      have e : fuel + (b :: d :: ds).length = (fuel + (d :: ds).length) + 1 := by simp; omega
      rw [e, nf_loop]
      simp only [NEXT_BLOCK, h1, h2, h3, k1, hk, if_false, hlt, if_true, hc2]
      simp only [hb, if_false]
      exact ih2 hno' fuel

theorem Layout_append (m : Nat → Nat) : ∀ (xs ys : List (Nat × Nat)) (p e : Nat),
    Layout m p (xs ++ ys) e ↔ Layout m p xs (p + span xs) ∧ Layout m (p + span xs) ys e
  | [], ys, p, e => by simp [Layout, span]
  | x :: xs, ys, p, e => by
    have ih := Layout_append m xs ys (p + x.1) e
    have e1 : p + span (x :: xs) = p + x.1 + span xs := by simp [span]; omega
    rw [e1]
    constructor
    · rintro ⟨a1, a2, a3, a4, a5, a6⟩
      exact ⟨⟨a1, a2, a3, a4, a5, (ih.1 a6).1⟩, (ih.1 a6).2⟩
    · rintro ⟨⟨a1, a2, a3, a4, a5, a6⟩, a7⟩
      exact ⟨a1, a2, a3, a4, a5, ih.2 ⟨a6, a7⟩⟩

theorem firstFit_append_left (size : Nat) : ∀ (xs ys : List (Nat × Nat)) (p : Nat),
    (∃ x ∈ xs, Fits size x) → firstFit size p (xs ++ ys) = firstFit size p xs
  | [], ys, p, h => by simp at h
  | x :: xs, ys, p, h => by
    by_cases hx : Fits size x
    · simp [firstFit, hx]
    · have h' : ∃ y ∈ xs, Fits size y := by
        obtain ⟨y, hy, hfit⟩ := h
        rcases List.mem_cons.1 hy with rfl | hy
        · exact absurd hfit hx
        · exact ⟨y, hy, hfit⟩
      simp [firstFit, hx, firstFit_append_left size xs ys (p + x.1) h']

/-- The next-fit loop on a well-formed heap, entered with the counter at `0` at
the header of the block `b` that follows the blocks `pre`. -/
theorem nf_loop_from (s : State) (pre post : List (Nat × Nat)) (b : Nat × Nat) (size fuel : Nat)
    (hok : HeapOK s (pre ++ b :: post))
    (hfuel : 2 * (pre ++ b :: post).length ≤ fuel) :
    ((∃ x ∈ b :: post, Fits size x) → ∃ nb, nf_loop s size fuel (s.heap_start + span pre) 0 =
        .ok (firstFit size (s.heap_start + span pre) (b :: post)) { s with next_block := nb }) ∧
    ((∀ x ∈ b :: post, ¬ Fits size x) → (∃ x ∈ pre, Fits size x) →
      ∃ nb, nf_loop s size fuel (s.heap_start + span pre) 0 =
        .ok (firstFit size s.heap_start pre) { s with next_block := nb }) ∧
    ((∀ x ∈ pre ++ b :: post, ¬ Fits size x) →
      nf_loop s size fuel (s.heap_start + span pre) 0 = .ok 0 s) := by
  obtain ⟨cW, cF, cA, -, -⟩ := consts
  obtain ⟨h1, h2, h3, h4, h5, h6, h7⟩ := hok
  have he : s.heap_end < W := by omega
  have hsplit := (Layout_append s.mem pre (b :: post) s.heap_start s.heap_end).1 h7
  have hlen : (pre ++ b :: post).length = pre.length + (b :: post).length := by simp
  obtain ⟨p1, p2⟩ := nf_loop_pass s size he h6 post b (s.heap_start + span pre) 0 (by omega) hsplit.2
  -- the pass from `heap_start` over the whole list, entered with the counter at 1
  have hwhole : ∃ c cs, pre ++ b :: post = c :: cs := by
    cases pre with
    | nil => exact ⟨b, post, rfl⟩
    | cons c cs => exact ⟨c, cs ++ b :: post, rfl⟩
  obtain ⟨c, cs, hcs⟩ := hwhole
  rw [hcs] at h7
  obtain ⟨q1, q2⟩ := nf_loop_pass s size he h6 cs c s.heap_start 1 (by omega) h7
  rw [← hcs] at q1 q2
  refine ⟨fun hfit => p1 hfit fuel (by omega), ?_, ?_⟩
  · intro hno hfit
    have e : fuel = (fuel - (b :: post).length) + (b :: post).length := by omega
    rw [e, p2 hno]
    simp only [Nat.zero_add, Nat.reduceEqDiff, if_false]
    have hfit' : ∃ x ∈ pre ++ b :: post, Fits size x := by
      obtain ⟨x, hx, hf⟩ := hfit
      exact ⟨x, List.mem_append_left _ hx, hf⟩
    obtain ⟨nb, hnb⟩ := q1 hfit' (fuel - (b :: post).length) (by omega)
    exact ⟨nb, by rw [hnb, firstFit_append_left size pre (b :: post) s.heap_start hfit]⟩
  · intro hno
    have hno' : ∀ x ∈ b :: post, ¬ Fits size x := fun x hx => hno x (List.mem_append_right _ hx)
    have e : fuel = (fuel - (b :: post).length) + (b :: post).length := by omega
    rw [e, p2 hno']
    simp only [Nat.zero_add, Nat.reduceEqDiff, if_false]
    have e2 : fuel - (b :: post).length =
        (fuel - (b :: post).length - (pre ++ b :: post).length) + (pre ++ b :: post).length := by omega
    rw [e2, q2 hno]
    simp

/-- The whole next-fit search on a well-formed heap whose cursor is the header
of the block `b` that follows the blocks `pre`. -/
theorem nf_top (s : State) (pre post : List (Nat × Nat)) (b : Nat × Nat) (size fuel : Nat)
    (hok : HeapOK s (pre ++ b :: post)) (hcur : s.next_block = s.heap_start + span pre)
    (hfuel : 2 * (pre ++ b :: post).length ≤ fuel) :
    ((∃ x ∈ b :: post, Fits size x) → ∃ nb, nf_get_free_block fuel size s =
        .ok (firstFit size (s.heap_start + span pre) (b :: post)) { s with next_block := nb }) ∧
    ((∀ x ∈ b :: post, ¬ Fits size x) → (∃ x ∈ pre, Fits size x) →
      ∃ nb, nf_get_free_block fuel size s =
        .ok (firstFit size s.heap_start pre) { s with next_block := nb }) ∧
    ((∀ x ∈ pre ++ b :: post, ¬ Fits size x) → nf_get_free_block fuel size s = .ok 0 s) := by
  have h := nf_loop_from s pre post b size fuel hok hfuel
  unfold nf_get_free_block
  rw [if_neg hok.1, hcur]
  exact h

/-! ## Best fit -/

theorem bf_first_found (s : State) (size e : Nat) (he : e < W) (x : Nat × Nat)
    (post : List (Nat × Nat)) (hx : Fits size x) :
    ∀ (pre : List (Nat × Nat)) (p fuel : Nat), Layout s.mem p (pre ++ x :: post) e →
      (∀ c ∈ pre, ¬ Fits size c) → pre.length + 1 ≤ fuel →
      bf_first s size fuel p = some (p + span pre, x.1, p + span pre) := by
  intro pre
  induction pre with
  | nil =>
    intro p fuel hl _ hf
    obtain ⟨h1, h2, h3, h4, h5⟩ := Layout_head hl he
    obtain ⟨fuel, rfl⟩ : ∃ f, fuel = f + 1 := ⟨fuel - 1, by omega⟩
    have hx' : x.2 = FREE ∧ size ≤ x.1 := hx
    simp [bf_first, h1, h2, hx', span]
  | cons c cs ih =>
    intro p fuel hl hno hf
    have hl0 : Layout s.mem p (c :: (cs ++ x :: post)) e := hl
    obtain ⟨h1, h2, h3, h4, h5⟩ := Layout_head hl0 he
    have hl' : Layout s.mem (p + c.1) (cs ++ x :: post) e := hl0.2.2.2.2.2
    have hnext : GET_SIZE s.mem (p + c.1) ≠ 0 := by
      cases cs with
      | nil => have := Layout_head hl' he; omega
      | cons d ds =>
        have hl'' : Layout s.mem (p + c.1) (d :: (ds ++ x :: post)) e := hl'
        have := Layout_head hl'' he; omega
    obtain ⟨fuel, rfl⟩ : ∃ f, fuel = f + 1 := ⟨fuel - 1, by simp at hf; omega⟩
    have hc : ¬ (c.2 = FREE ∧ size ≤ c.1) := hno c (by simp)
    have ih' := ih (p + c.1) fuel hl' (fun d hd => hno d (List.mem_cons_of_mem _ hd))
      (by simp at hf; omega)
    have e1 : p + span (c :: cs) = p + c.1 + span cs := by simp [span]; omega
    rw [bf_first]
    simp only [h1, h2, h3, hc, if_false, hnext, ih', e1]

theorem bf_first_none (s : State) (size e : Nat) (he : e < W)
    (hs : GET s.mem e = PACK 0 ALLOC) :
    ∀ (bs : List (Nat × Nat)) (b : Nat × Nat) (p fuel : Nat), Layout s.mem p (b :: bs) e →
      (∀ c ∈ b :: bs, ¬ Fits size c) → (b :: bs).length ≤ fuel →
      bf_first s size fuel p = some (e, 0, 0) := by
  intro bs
  induction bs with
  | nil =>
    intro b p fuel hl hno hf
    obtain ⟨h1, h2, h3, h4, h5⟩ := Layout_head hl he
    have hend : p + b.1 = e := hl.2.2.2.2.2
    obtain ⟨fuel, rfl⟩ : ∃ f, fuel = f + 1 := ⟨fuel - 1, by simp at hf; omega⟩
    have hb : ¬ (b.2 = FREE ∧ size ≤ b.1) := hno b (by simp)
    rw [bf_first]
    simp only [h1, h2, h3, hb, if_false, hend, (sentinel_size hs).1, if_true]
  | cons d ds ih =>
    intro b p fuel hl hno hf
    obtain ⟨h1, h2, h3, h4, h5⟩ := Layout_head hl he
    have hl' : Layout s.mem (p + b.1) (d :: ds) e := hl.2.2.2.2.2
    obtain ⟨k1, k2, k3, k4, k5⟩ := Layout_head hl' he
    obtain ⟨fuel, rfl⟩ : ∃ f, fuel = f + 1 := ⟨fuel - 1, by simp at hf; omega⟩
    have hb : ¬ (b.2 = FREE ∧ size ≤ b.1) := hno b (by simp)
    have hk : ¬ (d.1 = 0) := by omega
    have ih' := ih d (p + b.1) fuel hl' (fun c hc => hno c (List.mem_cons_of_mem _ hc))
      (by simp at hf ⊢; omega)
    rw [bf_first]
    simp only [h1, h2, h3, hb, if_false, k1, hk, ih']

theorem bf_scan_spec (s : State) (size e : Nat) (he : e < W)
    (hs : GET s.mem e = PACK 0 ALLOC) :
    ∀ (bs : List (Nat × Nat)) (b : Nat × Nat) (p fuel ms mb : Nat),
      Layout s.mem p (b :: bs) e → (b :: bs).length ≤ fuel →
      bf_scan s size fuel p ms mb = some (bfScan size p (b :: bs) ms mb) := by
  intro bs
  induction bs with
  | nil =>
    intro b p fuel ms mb hl hf
    obtain ⟨h1, h2, h3, h4, h5⟩ := Layout_head hl he
    have hend : p + b.1 = e := hl.2.2.2.2.2
    obtain ⟨fuel, rfl⟩ : ∃ f, fuel = f + 1 := ⟨fuel - 1, by simp at hf; omega⟩
    rw [bf_scan]
    simp only [h1, h2, h3, hend, (sentinel_size hs).1, bfScan, Fits]
    by_cases hu : (b.2 = FREE ∧ size ≤ b.1) ∧ b.1 < ms
    · have hu' : b.2 = FREE ∧ b.1 ≥ size ∧ b.1 < ms := ⟨hu.1.1, hu.1.2, hu.2⟩
      simp [hu, hu']
    · have hu' : ¬ (b.2 = FREE ∧ b.1 ≥ size ∧ b.1 < ms) := fun h => hu ⟨⟨h.1, h.2.1⟩, h.2.2⟩
      simp [hu, hu']
  | cons d ds ih =>
    intro b p fuel ms mb hl hf
    obtain ⟨h1, h2, h3, h4, h5⟩ := Layout_head hl he
    have hl' : Layout s.mem (p + b.1) (d :: ds) e := hl.2.2.2.2.2
    obtain ⟨k1, k2, k3, k4, k5⟩ := Layout_head hl' he
    obtain ⟨fuel, rfl⟩ : ∃ f, fuel = f + 1 := ⟨fuel - 1, by simp at hf; omega⟩
    have hk : d.1 ≠ 0 := by omega
    have hf' : (d :: ds).length ≤ fuel := by simp at hf ⊢; omega
    rw [bf_scan]
    simp only [h1, h2, h3, k1, hk, ne_eq, not_false_eq_true, if_true]
    rw [bfScan]
    by_cases hu : (b.2 = FREE ∧ size ≤ b.1) ∧ b.1 < ms
    · have hu' : b.2 = FREE ∧ b.1 ≥ size ∧ b.1 < ms := ⟨hu.1.1, hu.1.2, hu.2⟩
      have hu2 : Fits size b ∧ b.1 < ms := hu
      rw [if_pos hu2, if_pos hu', if_pos hu']
      exact ih d (p + b.1) fuel _ _ hl' hf'
    · have hu' : ¬ (b.2 = FREE ∧ b.1 ≥ size ∧ b.1 < ms) := fun h => hu ⟨⟨h.1, h.2.1⟩, h.2.2⟩
      have hu2 : ¬ (Fits size b ∧ b.1 < ms) := hu
      rw [if_neg hu2, if_neg hu', if_neg hu']
      exact ih d (p + b.1) fuel _ _ hl' hf'

theorem Best_snoc (size hs : Nat) (done : List (Nat × Nat)) (b : Nat × Nat) (ms mb : Nat)
    (h : Best size hs done ms mb) :
    (Fits size b ∧ b.1 < ms → Best size hs (done ++ [b]) b.1 (hs + span done)) ∧
    (¬ (Fits size b ∧ b.1 < ms) → Best size hs (done ++ [b]) ms mb) := by
  obtain ⟨pre, x, post, h1, h2, h3, h4, h5, h6⟩ := h
  constructor
  · rintro ⟨hb, hlt⟩
    refine ⟨done, b, [], rfl, rfl, rfl, hb, ?_, by simp⟩
    intro c hc hfit
    rw [h1] at hc
    rcases List.mem_append.1 hc with hc | hc
    · have := h5 c hc hfit; omega
    · rcases List.mem_cons.1 hc with rfl | hc
      · omega
      · have := h6 c hc hfit; omega
  · intro hb
    refine ⟨pre, x, post ++ [b], by simp [h1], h2, h3, h4, h5, ?_⟩
    intro c hc hfit
    rcases List.mem_append.1 hc with hc | hc
    · exact h6 c hc hfit
    · have : c = b := by simpa using hc
      subst this
      by_contra hlt
      exact hb ⟨hfit, by omega⟩

theorem bfScan_best (size hs : Nat) : ∀ (todo done : List (Nat × Nat)) (ms mb : Nat),
    Best size hs done ms mb →
    ∃ ms', Best size hs (done ++ todo) ms' (bfScan size (hs + span done) todo ms mb)
  | [], done, ms, mb, h => ⟨ms, by simpa [bfScan] using h⟩
  | b :: todo, done, ms, mb, h => by
    obtain ⟨s1, s2⟩ := Best_snoc size hs done b ms mb h
    have e1 : hs + span done + b.1 = hs + span (done ++ [b]) := by
      rw [span_append]; simp [span]; omega
    have e2 : done ++ b :: todo = (done ++ [b]) ++ todo := by simp
    rw [bfScan, e1, e2]
    by_cases hu : Fits size b ∧ b.1 < ms
    · rw [if_pos hu]
      exact bfScan_best size hs todo (done ++ [b]) _ _ (s1 hu)
    · rw [if_neg hu]
      exact bfScan_best size hs todo (done ++ [b]) _ _ (s2 hu)

/-- The whole best-fit search on a well-formed heap. -/
theorem bf_top (s : State) (bs : List (Nat × Nat)) (size fuel : Nat)
    (hok : HeapOK s bs) (hfuel : bs.length + 1 ≤ fuel) :
    ((∀ x ∈ bs, ¬ Fits size x) → bf_get_free_block fuel size s = .ok 0 s) ∧
    ((∃ x ∈ bs, Fits size x) → ∃ r ms, bf_get_free_block fuel size s = .ok r s ∧
      Best size s.heap_start bs ms r) := by
  obtain ⟨cW, cF, cA, -, -⟩ := consts
  obtain ⟨h1, h2, h3, h4, h5, h6, h7⟩ := hok
  have he : s.heap_end < W := by omega
  have z := sentinel_size h6
  have w : wadd s.heap_end 0 = s.heap_end := wadd_eq (by omega)
  obtain ⟨fuel', hfuel'⟩ : ∃ f, fuel = f + 1 := ⟨fuel - 1, by omega⟩
  have hscan_end : bf_scan s size fuel s.heap_end 0 0 = some 0 := by
    rw [hfuel', bf_scan]
    simp [z.1, z.2, w]
  unfold bf_get_free_block
  rw [if_neg h1]
  constructor
  · intro hno
    have hfirst : bf_first s size fuel s.heap_start = some (s.heap_end, 0, 0) := by
      cases bs with
      | nil =>
        have e : s.heap_start = s.heap_end := h7
        rw [hfuel', bf_first]
        simp [e, z.1, z.2, w]
      | cons b bs =>
        exact bf_first_none s size s.heap_end he h6 bs b s.heap_start fuel h7 hno (by omega)
    simp only [hfirst, hscan_end]
  · intro hfit
    rcases firstFit_cases size bs s.heap_start with ⟨hno, _⟩ | ⟨pre, x, post, e1, _, hx, hpre⟩
    · obtain ⟨y, hy, hyf⟩ := hfit
      exact absurd hyf (hno y hy)
    · subst e1
      have hfirst := bf_first_found s size s.heap_end he x post hx pre s.heap_start fuel h7 hpre
        (by simp at hfuel; omega)
      have hsplit := (Layout_append s.mem pre (x :: post) s.heap_start s.heap_end).1 h7
      have hscan := bf_scan_spec s size s.heap_end he h6 post x (s.heap_start + span pre) fuel
        x.1 (s.heap_start + span pre) hsplit.2 (by simp at hfuel ⊢; omega)
      have hbest0 : Best size s.heap_start (pre ++ [x]) x.1 (s.heap_start + span pre) :=
        ⟨pre, x, [], rfl, rfl, rfl, hx, fun c hc hf => absurd hf (hpre c hc), by simp⟩
      obtain ⟨ms', hbest⟩ := bfScan_best size s.heap_start post (pre ++ [x]) x.1
        (s.heap_start + span pre) hbest0
      have e2 : bfScan size (s.heap_start + span pre) (x :: post) x.1 (s.heap_start + span pre)
          = bfScan size (s.heap_start + span (pre ++ [x])) post x.1 (s.heap_start + span pre) := by
        rw [bfScan, if_neg (by omega), span_append]
        simp [span]; congr 1; omega
      refine ⟨bfScan size (s.heap_start + span pre) (x :: post) x.1 (s.heap_start + span pre),
        ms', ?_, ?_⟩
      · simp only [hfirst, hscan]
      · rw [e2]
        simpa using hbest

/-! ## Coalescing -/

theorem GET_SIZE_PACK {m : Nat → Nat} {p x st : Nat} (h : GET m p = PACK x st) (h8 : x % 8 = 0)
    (hs : st < 8) (hw : x < W) : GET_SIZE m p = x := by
  unfold GET_SIZE; rw [h]; exact SIZE_PACK h8 hs hw

theorem GET_STATUS_PACK {m : Nat → Nat} {p x st : Nat} (h : GET m p = PACK x st) (h8 : x % 8 = 0)
    (hs : st < 8) : GET_STATUS m p = st := by
  unfold GET_STATUS; rw [h]; exact STATUS_PACK h8 hs

theorem PACK_lt {x st : Nat} (h8 : x % 8 = 0) (hs : st < 8) (hw : x + 8 ≤ W) : PACK x st < W := by
  rw [PACK_eq h8 hs]; unfold W at *; omega

/-- Two stores of one tag `PACK(x, FREE)`, at a header `h` and at a footer `f`. -/
theorem two_puts (m : Nat → Nat) (h f x : Nat) (hx : x % 8 = 0) (hw : x + 8 ≤ W)
    (hf : h + 8 ≤ f) :
    GET (PUT (PUT m h (PACK x FREE)) f (PACK x FREE)) h = PACK x FREE ∧
    GET (PUT (PUT m h (PACK x FREE)) f (PACK x FREE)) f = PACK x FREE ∧
    ∀ a, (a < h ∨ h + 8 ≤ a) → (a < f ∨ f + 8 ≤ a) →
      PUT (PUT m h (PACK x FREE)) f (PACK x FREE) a = m a := by
  have pk : PACK x FREE < W := PACK_lt hx (by decide) hw
  refine ⟨?_, GET_PUT_same _ _ _ pk, ?_⟩
  · rw [GET_PUT_other _ _ _ _ (Or.inl hf), GET_PUT_same _ _ _ pk]
  · intro a a1 a2
    rw [PUT_other _ _ _ _ a2, PUT_other _ _ _ _ a1]

/-- A word read outside the bytes that differ is unchanged. -/
theorem GET_of_frame {m m' : Nat → Nat} {q v : Nat} (h : GET m q = v)
    (hfr : ∀ a, q ≤ a → a < q + 8 → m' a = m a) : GET m' q = v := by
  rw [GET_congr hfr, h]

/-- The first half of `coalesce`: the values it computes and the memory after
its first conditional store, when the following block is FREE with size `nz`. -/
theorem coalesce_eq (s : State) (A : Nat) (hinit : s.mm_initialized ≠ 0)
    (hst : GET_STATUS s.mem A = FREE) (m1 : Nat → Nat) (size1 ftr : Nat)
    (hsize1 : size1 = if GET_STATUS s.mem (NEXT_BLOCK s.mem A) = FREE
      then wadd (GET_SIZE s.mem A) (GET_SIZE s.mem (NEXT_BLOCK s.mem A)) else GET_SIZE s.mem A)
    (hftr : ftr = if GET_STATUS s.mem (NEXT_BLOCK s.mem A) = FREE
      then wsub (wadd A size1) TYPE_SIZE else wsub (wadd A (GET_SIZE s.mem A)) TYPE_SIZE)
    (hm1 : m1 = if size1 > GET_SIZE s.mem A
      then PUT (PUT s.mem A (PACK size1 FREE)) ftr (PACK size1 FREE) else s.mem) :
    coalesce A s =
      .ok (if GET_STATUS m1 (wsub A TYPE_SIZE) = FREE then PREV_BLOCK m1 A else A)
        { s with mem :=
            (if (if GET_STATUS m1 (wsub A TYPE_SIZE) = FREE
                  then wadd size1 (GET_SIZE m1 (PREV_BLOCK m1 A)) else size1) > GET_SIZE m1 A
              then PUT (PUT m1 (if GET_STATUS m1 (wsub A TYPE_SIZE) = FREE then PREV_BLOCK m1 A else A)
                  (PACK (if GET_STATUS m1 (wsub A TYPE_SIZE) = FREE
                    then wadd size1 (GET_SIZE m1 (PREV_BLOCK m1 A)) else size1) FREE)) ftr
                  (PACK (if GET_STATUS m1 (wsub A TYPE_SIZE) = FREE
                    then wadd size1 (GET_SIZE m1 (PREV_BLOCK m1 A)) else size1) FREE)
              else m1) } := by
  subst hm1 hftr hsize1
  unfold coalesce
  rw [if_neg hinit, if_neg (by rw [hst]; exact fun h => h rfl)]

/-- The merge with the following block: `R` is the size gained. -/
theorem coalesce_next (m : Nat → Nat) (A z nz nst R : Nat) (hW : A + z + nz + 8 ≤ W)
    (hz : 32 ≤ z) (hz8 : z % 8 = 0)
    (hh : GET m A = PACK z FREE) (hf : GET m (A + z - 8) = PACK z FREE)
    (hn : GET m (A + z) = PACK nz nst) (hn8 : nz % 8 = 0)
    (hR : (nst = FREE ∧ 32 ≤ nz ∧ R = nz) ∨ (nst = ALLOC ∧ R = 0))
    (m1 : Nat → Nat) (size1 ftr : Nat)
    (hsize1 : size1 = if GET_STATUS m (NEXT_BLOCK m A) = FREE
      then wadd (GET_SIZE m A) (GET_SIZE m (NEXT_BLOCK m A)) else GET_SIZE m A)
    (hftr : ftr = if GET_STATUS m (NEXT_BLOCK m A) = FREE
      then wsub (wadd A size1) TYPE_SIZE else wsub (wadd A (GET_SIZE m A)) TYPE_SIZE)
    (hm1 : m1 = if size1 > GET_SIZE m A
      then PUT (PUT m A (PACK size1 FREE)) ftr (PACK size1 FREE) else m) :
    size1 = z + R ∧ ftr = A + z + R - 8 ∧ GET m1 A = PACK (z + R) FREE ∧
      GET m1 (A + z + R - 8) = PACK (z + R) FREE ∧
      (∀ a, (a < A ∨ A + 8 ≤ a) → (a < A + z + R - 8 ∨ A + z + R ≤ a) → m1 a = m a) ∧
      (R = 0 → m1 = m) := by
  obtain ⟨cW, cF, cA, cT, -⟩ := consts
  have e2 : GET_SIZE m A = z := GET_SIZE_PACK hh hz8 (by omega) (by omega)
  have w1 : wadd A z = A + z := wadd_eq (by omega)
  have hnst8 : nst < 8 := by omega
  have e4 : GET_STATUS m (A + z) = nst := GET_STATUS_PACK hn hn8 hnst8
  have e5 : GET_SIZE m (A + z) = nz := GET_SIZE_PACK hn hn8 hnst8 (by omega)
  simp only [NEXT_BLOCK, e2, w1, e4, e5] at hsize1 hftr
  rw [e2] at hm1
  rcases hR with ⟨hnf, hnz', rfl⟩ | ⟨hna, rfl⟩
  · rw [if_pos hnf, wadd_eq (by omega)] at hsize1
    subst hsize1
    rw [if_pos hnf, wadd_eq (by omega), wsub_eq (by omega) (by omega)] at hftr
    have e6 : A + (z + R) - TYPE_SIZE = A + z + R - 8 := by omega
    rw [e6] at hftr
    subst hftr
    rw [if_pos (by omega)] at hm1
    subst hm1
    obtain ⟨t1, t2, t3⟩ := two_puts m A (A + z + R - 8) (z + R) (by omega) (by omega) (by omega)
    exact ⟨rfl, rfl, t1, t2, fun a a1 a2 => t3 a a1 (by omega), fun h => by omega⟩
  · have hne : ¬ (nst = FREE) := by omega
    rw [if_neg hne] at hsize1
    subst hsize1
    rw [if_neg hne, wsub_eq (by omega) (by omega)] at hftr
    rw [if_neg (by omega)] at hm1
    subst hm1
    exact ⟨rfl, by rw [hftr]; rfl, hh, hf, fun a _ _ => rfl, fun _ => rfl⟩

/-- The merge with the preceding block: `L` is the size gained, `y` the size
of the block after the first half of `coalesce`, `ftr` its footer. -/
theorem coalesce_prev (m1 : Nat → Nat) (A y pz pst L ftr : Nat) (hA : pz + 8 ≤ A)
    (hW : ftr + 8 ≤ W) (hy : 32 ≤ y) (hy8 : y % 8 = 0) (hfy : ftr = A + y - 8)
    (hh : GET m1 A = PACK y FREE) (hf : GET m1 ftr = PACK y FREE)
    (hp : GET m1 (A - 8) = PACK pz pst) (hp8 : pz % 8 = 0)
    (hL : (pst = FREE ∧ 32 ≤ pz ∧ GET m1 (A - pz) = PACK pz FREE ∧ L = pz) ∨
      (pst = ALLOC ∧ L = 0))
    (hdr size2 : Nat) (m' : Nat → Nat)
    (hhdr : hdr = if GET_STATUS m1 (wsub A TYPE_SIZE) = FREE then PREV_BLOCK m1 A else A)
    (hsize2 : size2 = if GET_STATUS m1 (wsub A TYPE_SIZE) = FREE
      then wadd y (GET_SIZE m1 (PREV_BLOCK m1 A)) else y)
    (hm' : m' = if size2 > GET_SIZE m1 A
      then PUT (PUT m1 hdr (PACK size2 FREE)) ftr (PACK size2 FREE) else m1) :
    hdr = A - L ∧ GET m' (A - L) = PACK (L + y) FREE ∧ GET m' ftr = PACK (L + y) FREE ∧
      (∀ a, (a < A - L ∨ A - L + 8 ≤ a) → (a < ftr ∨ ftr + 8 ≤ a) → m' a = m1 a) ∧
      (L = 0 → m' = m1) := by
  obtain ⟨cW, cF, cA, cT, -⟩ := consts
  have hpst8 : pst < 8 := by omega
  have e2 : GET_SIZE m1 A = y := GET_SIZE_PACK hh hy8 (by omega) (by omega)
  have w6 : wsub A TYPE_SIZE = A - 8 := wsub_eq (by omega) (by omega)
  have e6 : GET_STATUS m1 (A - 8) = pst := GET_STATUS_PACK hp hp8 hpst8
  have e7 : GET_SIZE m1 (A - 8) = pz := GET_SIZE_PACK hp hp8 hpst8 (by omega)
  have w7 : wsub A pz = A - pz := wsub_eq (by omega) (by omega)
  simp only [w6, e6, PREV_BLOCK, e7, w7] at hhdr hsize2
  rw [e2] at hm'
  rcases hL with ⟨hpf, hpz', hph, rfl⟩ | ⟨hpa, rfl⟩
  · have g5 : GET_SIZE m1 (A - L) = L := GET_SIZE_PACK hph hp8 (by omega) (by omega)
    rw [if_pos hpf] at hhdr
    rw [if_pos hpf, g5, wadd_eq (by omega)] at hsize2
    have e8 : y + L = L + y := by omega
    rw [e8] at hsize2
    subst hhdr hsize2
    rw [if_pos (by omega)] at hm'
    subst hm'
    obtain ⟨t1, t2, t3⟩ := two_puts m1 (A - L) ftr (L + y) (by omega) (by omega) (by omega)
    exact ⟨rfl, t1, t2, t3, fun h => by omega⟩
  · have hne : ¬ (pst = FREE) := by omega
    rw [if_neg hne] at hhdr hsize2
    subst hhdr hsize2
    rw [if_neg (by omega)] at hm'
    subst hm'
    exact ⟨rfl, by simpa using hh, by simpa using hf, fun a _ _ => rfl, fun _ => rfl⟩

/-- What `coalesce` does to a FREE block at `A` of size `z` whose neighbours'
tags are known: `L` and `R` are the sizes gained on the left and on the right. -/
theorem coalesce_core (s : State) (A z pz pst nz nst L R : Nat)
    (hinit : s.mm_initialized ≠ 0) (hA : pz + 8 ≤ A) (hW : A + z + nz + 8 ≤ W)
    (hz : 32 ≤ z) (hz8 : z % 8 = 0)
    (hh : GET s.mem A = PACK z FREE) (hf : GET s.mem (A + z - 8) = PACK z FREE)
    (hn : GET s.mem (A + z) = PACK nz nst) (hn8 : nz % 8 = 0)
    (hR : (nst = FREE ∧ 32 ≤ nz ∧ R = nz) ∨ (nst = ALLOC ∧ R = 0))
    (hp : GET s.mem (A - 8) = PACK pz pst) (hp8 : pz % 8 = 0)
    (hL : (pst = FREE ∧ 32 ≤ pz ∧ GET s.mem (A - pz) = PACK pz FREE ∧ L = pz) ∨
      (pst = ALLOC ∧ L = 0)) :
    ∃ m', coalesce A s = .ok (A - L) { s with mem := m' } ∧
      GET m' (A - L) = PACK (L + z + R) FREE ∧
      GET m' (A + z + R - 8) = PACK (L + z + R) FREE ∧
      (∀ a, (a < A - L ∨ A - L + 8 ≤ a) → (a < A ∨ A + 8 ≤ a) →
        (a < A + z + R - 8 ∨ A + z + R ≤ a) → m' a = s.mem a) ∧
      (L = 0 → R = 0 → m' = s.mem) ∧
      (0 < L → GET m' A = PACK (z + R) FREE) := by
  obtain ⟨cW, cF, cA, cT, -⟩ := consts
  have e1 : GET_STATUS s.mem A = FREE := GET_STATUS_PACK hh hz8 (by omega)
  have hRle : R ≤ nz := by rcases hR with ⟨_, _, h⟩ | ⟨_, h⟩ <;> omega
  have hR8 : R % 8 = 0 := by rcases hR with ⟨_, _, h⟩ | ⟨_, h⟩ <;> omega
  have hLle : L ≤ pz := by rcases hL with ⟨_, _, _, h⟩ | ⟨_, h⟩ <;> omega
  have hL8 : L % 8 = 0 := by rcases hL with ⟨_, _, _, h⟩ | ⟨_, h⟩ <;> omega
  obtain ⟨size1, hsize1⟩ : ∃ x, x = if GET_STATUS s.mem (NEXT_BLOCK s.mem A) = FREE
      then wadd (GET_SIZE s.mem A) (GET_SIZE s.mem (NEXT_BLOCK s.mem A))
      else GET_SIZE s.mem A := ⟨_, rfl⟩
  obtain ⟨ftr, hftr⟩ : ∃ x, x = if GET_STATUS s.mem (NEXT_BLOCK s.mem A) = FREE
      then wsub (wadd A size1) TYPE_SIZE
      else wsub (wadd A (GET_SIZE s.mem A)) TYPE_SIZE := ⟨_, rfl⟩
  obtain ⟨m1, hm1⟩ : ∃ x, x = if size1 > GET_SIZE s.mem A
      then PUT (PUT s.mem A (PACK size1 FREE)) ftr (PACK size1 FREE) else s.mem := ⟨_, rfl⟩
  obtain ⟨n1, n2, n3, n4, n5, n6⟩ := coalesce_next s.mem A z nz nst R hW hz hz8 hh hf hn hn8 hR
    m1 size1 ftr hsize1 hftr hm1
  have heq := coalesce_eq s A hinit e1 m1 size1 ftr hsize1 hftr hm1
  clear hsize1 hftr hm1 hR
  subst n1 n2
  obtain ⟨hdr, hhdr⟩ : ∃ x, x = if GET_STATUS m1 (wsub A TYPE_SIZE) = FREE
      then PREV_BLOCK m1 A else A := ⟨_, rfl⟩
  obtain ⟨size2, hsize2⟩ : ∃ x, x = if GET_STATUS m1 (wsub A TYPE_SIZE) = FREE
      then wadd (z + R) (GET_SIZE m1 (PREV_BLOCK m1 A)) else z + R := ⟨_, rfl⟩
  obtain ⟨m', hm'⟩ : ∃ x, x = if size2 > GET_SIZE m1 A
      then PUT (PUT m1 hdr (PACK size2 FREE)) (A + z + R - 8) (PACK size2 FREE) else m1 := ⟨_, rfl⟩
  rw [← hhdr, ← hsize2, ← hm'] at heq
  have hp1 : GET m1 (A - 8) = PACK pz pst :=
    GET_of_frame hp (fun a ha hb => n5 a (by omega) (by omega))
  have hL1 : (pst = FREE ∧ 32 ≤ pz ∧ GET m1 (A - pz) = PACK pz FREE ∧ L = pz) ∨
      (pst = ALLOC ∧ L = 0) := by
    rcases hL with ⟨a, b, c, d⟩ | ⟨a, b⟩
    · exact Or.inl ⟨a, b, GET_of_frame c (fun a ha hb => n5 a (by omega) (by omega)), d⟩
    · exact Or.inr ⟨a, b⟩
  obtain ⟨q1, q2, q3, q4, q5⟩ := coalesce_prev m1 A (z + R) pz pst L (A + z + R - 8) hA
    (by omega) (by omega) (by omega) (by omega) n3 n4 hp1 hp8 hL1 hdr size2 m' hhdr hsize2 hm'
  clear hhdr hsize2 hm' hL hL1
  subst q1
  have e9 : L + (z + R) = L + z + R := by omega
  rw [e9] at q2 q3
  refine ⟨m', heq, q2, q3, ?_, ?_, ?_⟩
  · intro a a1 a2 a3
    exact (q4 a a1 (by omega)).trans (n5 a a2 a3)
  · intro h0 hR0
    rw [q5 h0, n6 hR0]
  · intro hpos
    exact GET_of_frame n3 (fun a ha hb => q4 a (by omega) (by omega))

/-! ## Release -/

theorem Layout_frame {m m' : Nat → Nat} : ∀ {bs : List (Nat × Nat)} {p e : Nat},
    Layout m p bs e → (∀ a, p ≤ a → a < e → m' a = m a) → Layout m' p bs e
  | [], p, e, h, _ => h
  | b :: bs, p, e, h, hfr => by
    obtain ⟨h1, h2, h3, h4, h5, h6⟩ := h
    have hend := Layout_end h6
    refine ⟨h1, h2, h3, ?_, ?_, Layout_frame h6 (fun a ha hb => hfr a (by omega) hb)⟩
    · rw [GET_congr (fun a ha hb => hfr a ha (by omega)), h4]
    · rw [GET_congr (fun a ha hb => hfr a (by omega) (by omega)), h5]

theorem right_neighbour {m : Nat → Nat} {B e : Nat} {post : List (Nat × Nat)}
    (hl : Layout m B post e) (hs : GET m e = PACK 0 ALLOC) :
    ∃ nz nst, GET m B = PACK nz nst ∧ nz % 32 = 0 ∧ B + nz ≤ e ∧
      ((nst = FREE ∧ 32 ≤ nz ∧ freeHead post = nz) ∨ (nst = ALLOC ∧ freeHead post = 0)) ∧
      Layout m (B + freeHead post) (dropFreeHead post) e := by
  obtain ⟨cW, cF, cA, -, -⟩ := consts
  cases post with
  | nil =>
    have hB : B = e := hl
    subst hB
    exact ⟨0, ALLOC, hs, by omega, by omega, Or.inr ⟨rfl, rfl⟩, by simpa [freeHead, dropFreeHead] using hl⟩
  | cons b r =>
    obtain ⟨h1, h2, h3, h4, h5, h6⟩ := hl
    have hend := Layout_end h6
    rcases h3 with h3 | h3
    · refine ⟨b.1, b.2, h4, h2, by omega, Or.inl ⟨h3, h1, by simp [freeHead, h3]⟩, ?_⟩
      simpa [freeHead, dropFreeHead, h3] using h6
    · have hne : ¬ (b.2 = FREE) := by omega
      refine ⟨b.1, b.2, h4, h2, by omega, Or.inr ⟨h3, by simp [freeHead, hne]⟩, ?_⟩
      simp only [freeHead, dropFreeHead, hne, if_false, Nat.add_zero]
      exact ⟨h1, h2, Or.inr h3, h4, h5, h6⟩

theorem left_neighbour_snoc {m : Nat → Nat} {hs A : Nat} {L : List (Nat × Nat)} {b : Nat × Nat}
    (hl : Layout m hs (L ++ [b]) A) (h8 : 8 ≤ hs) :
    ∃ pz pst, GET m (A - 8) = PACK pz pst ∧ pz % 32 = 0 ∧ pz + 8 ≤ A ∧ hs + pz ≤ A ∧
      ((pst = FREE ∧ 32 ≤ pz ∧ GET m (A - pz) = PACK pz FREE ∧ freeLast (L ++ [b]) = pz) ∨
        (pst = ALLOC ∧ freeLast (L ++ [b]) = 0)) ∧
      Layout m hs (dropFreeLast (L ++ [b])) (A - freeLast (L ++ [b])) ∧
      span (dropFreeLast (L ++ [b])) + freeLast (L ++ [b]) = span (L ++ [b]) := by
  obtain ⟨cW, cF, cA, -, -⟩ := consts
  obtain ⟨hL, hb⟩ := (Layout_append m L [b] hs A).1 hl
  obtain ⟨h1, h2, h3, h4, h5, h6⟩ := hb
  have hA : hs + span L + b.1 = A := h6
  have e1 : A - 8 = hs + span L + b.1 - 8 := by omega
  have hsp : span (L ++ [b]) = span L + b.1 := by rw [span_append]; simp [span]
  rcases h3 with h3 | h3
  · have e2 : A - b.1 = hs + span L := by omega
    refine ⟨b.1, b.2, by rw [e1, h5], h2, by omega, by omega,
      Or.inl ⟨h3, h1, by rw [e2, h4, h3], by simp [freeLast, freeHead, h3]⟩, ?_, ?_⟩
    · simp only [freeLast, dropFreeLast, List.reverse_append, List.reverse_cons, List.reverse_nil,
        List.nil_append, List.singleton_append, freeHead, dropFreeHead, h3, if_true,
        List.reverse_reverse, e2]
      exact hL
    · simp [freeLast, dropFreeLast, freeHead, dropFreeHead, h3, hsp]
  · have hne : ¬ (b.2 = FREE) := by omega
    refine ⟨b.1, b.2, by rw [e1, h5], h2, by omega, by omega,
      Or.inr ⟨h3, by simp [freeLast, freeHead, hne]⟩, ?_, ?_⟩
    · simp only [freeLast, dropFreeLast, List.reverse_append, List.reverse_cons, List.reverse_nil,
        List.nil_append, List.singleton_append, freeHead, dropFreeHead, hne, if_false,
        Nat.sub_zero]
      simpa using hl
    · simp [freeLast, dropFreeLast, freeHead, dropFreeHead, hne]


theorem left_neighbour {m : Nat → Nat} {hs A : Nat} {pre : List (Nat × Nat)}
    (hl : Layout m hs pre A) (hlo : GET m (hs - 8) = PACK 0 ALLOC) (h8 : 8 ≤ hs) :
    ∃ pz pst, GET m (A - 8) = PACK pz pst ∧ pz % 32 = 0 ∧ pz + 8 ≤ A ∧ hs + pz ≤ A ∧
      ((pst = FREE ∧ 32 ≤ pz ∧ GET m (A - pz) = PACK pz FREE ∧ freeLast pre = pz) ∨
        (pst = ALLOC ∧ freeLast pre = 0)) ∧
      Layout m hs (dropFreeLast pre) (A - freeLast pre) ∧
      span (dropFreeLast pre) + freeLast pre = span pre := by
  obtain ⟨cW, cF, cA, -, -⟩ := consts
  rcases List.eq_nil_or_concat pre with rfl | ⟨L, b, hcat⟩
  rotate_left
  · rw [List.concat_eq_append] at hcat
    subst hcat
    exact left_neighbour_snoc hl h8
  · have hA : hs = A := hl
    subst hA
    exact ⟨0, ALLOC, hlo, by omega, by omega, by omega, Or.inr ⟨rfl, rfl⟩,
      by simpa [freeLast, dropFreeLast, freeHead, dropFreeHead] using hl,
      by simp [freeLast, dropFreeLast, freeHead, dropFreeHead]⟩

/-- Releasing an ALLOCATED block at `A` of size `sz` whose neighbours' tags are
known: `L` and `R` are the sizes gained on the left and on the right. -/
theorem mm_free_core (s : State) (A sz pz pst nz nst L R : Nat)
    (hinit : s.mm_initialized ≠ 0) (hA : pz + 8 ≤ A) (hW : A + sz + nz + 8 ≤ W)
    (hz : 32 ≤ sz) (hz8 : sz % 8 = 0)
    (hh : GET s.mem A = PACK sz ALLOC)
    (hn : GET s.mem (A + sz) = PACK nz nst) (hn8 : nz % 8 = 0)
    (hR : (nst = FREE ∧ 32 ≤ nz ∧ R = nz) ∨ (nst = ALLOC ∧ R = 0))
    (hp : GET s.mem (A - 8) = PACK pz pst) (hp8 : pz % 8 = 0)
    (hL : (pst = FREE ∧ 32 ≤ pz ∧ GET s.mem (A - pz) = PACK pz FREE ∧ L = pz) ∨
      (pst = ALLOC ∧ L = 0)) :
    ∃ m', mm_free (A + 8) s = .ok () { s with mem := m' } ∧
      GET m' (A - L) = PACK (L + sz + R) FREE ∧
      GET m' (A + sz + R - 8) = PACK (L + sz + R) FREE ∧
      (∀ a, (a < A - L ∨ A - L + 8 ≤ a) → (a < A ∨ A + 8 ≤ a) →
        (a < A + sz - 8 ∨ A + sz ≤ a) → (a < A + sz + R - 8 ∨ A + sz + R ≤ a) →
        m' a = s.mem a) ∧
      (0 < L → GET m' A = PACK (sz + R) FREE) := by
  obtain ⟨cW, cF, cA, cT, -⟩ := consts
  have w1 : wsub (A + 8) TYPE_SIZE = A := by rw [wsub_eq (by omega) (by omega)]; omega
  have e1 : GET_STATUS s.mem A = ALLOC := GET_STATUS_PACK hh hz8 (by omega)
  have e2 : GET_SIZE s.mem A = sz := GET_SIZE_PACK hh hz8 (by omega) (by omega)
  have w2 : wsub (wadd A sz) TYPE_SIZE = A + sz - 8 := by
    rw [wadd_eq (by omega), wsub_eq (by omega) (by omega)]
  obtain ⟨m2, hm2def⟩ : ∃ m2, m2 = PUT (PUT s.mem A (PACK sz FREE)) (A + sz - 8) (PACK sz FREE) :=
    ⟨_, rfl⟩
  obtain ⟨c1, c2, hm2⟩ := two_puts s.mem A (A + sz - 8) sz hz8 (by omega) (by omega)
  rw [← hm2def] at c1 c2 hm2
  have c3 : GET m2 (A + sz) = PACK nz nst :=
    GET_of_frame hn (fun a ha hb => hm2 a (by omega) (by omega))
  have c4 : GET m2 (A - 8) = PACK pz pst :=
    GET_of_frame hp (fun a ha hb => hm2 a (by omega) (by omega))
  have c6 : (pst = FREE ∧ 32 ≤ pz ∧ GET m2 (A - pz) = PACK pz FREE ∧ L = pz) ∨
      (pst = ALLOC ∧ L = 0) := by
    rcases hL with ⟨a, b, c, d⟩ | ⟨a, b⟩
    · exact Or.inl ⟨a, b, GET_of_frame c (fun a ha hb => hm2 a (by omega) (by omega)), d⟩
    · exact Or.inr ⟨a, b⟩
  have hRle : R ≤ nz := by rcases hR with ⟨_, _, h⟩ | ⟨_, h⟩ <;> omega
  obtain ⟨m', k1, k2, k3, k4, -, k6⟩ := coalesce_core { s with mem := m2 } A sz pz pst nz nst L R
    hinit hA hW hz hz8 c1 c2 c3 hn8 hR c4 hp8 c6
  clear c6 hL hR
  refine ⟨m', ?_, k2, k3, ?_, k6⟩
  · have e1' : ¬ (GET_STATUS s.mem (wsub (A + 8) TYPE_SIZE) ≠ ALLOC) := by
      rw [w1, e1]; exact fun h => h rfl
    unfold mm_free
    rw [if_neg hinit, if_neg e1']
    dsimp only
    rw [w1, e2, w2, ← hm2def, k1]
  · intro a a1 a2 a3 a4
    exact (k4 a a1 a2 a4).trans (hm2 a a2 (by omega))

theorem mm_free_layout_aux (s : State) (pre post : List (Nat × Nat)) (sz A L R : Nat)
    (hA : s.heap_start + span pre = A) (hL : freeLast pre = L) (hR : freeHead post = R)
    (hok : HeapOK s (pre ++ (sz, ALLOC) :: post)) :
    ∃ m', mm_free (A + 8) s = .ok () { s with mem := m' } ∧
      HeapOK { s with mem := m' } (coalesced pre sz post) ∧
      (∀ a, (a < A - L ∨ A - L + 8 ≤ a) → (a < A ∨ A + 8 ≤ a) →
            (a < A + sz - 8 ∨ A + sz ≤ a) → (a < A + sz + R - 8 ∨ A + sz + R ≤ a) →
            m' a = s.mem a) ∧
      (0 < L → GET m' A = PACK (sz + R) FREE) := by
  obtain ⟨cW, cF, cA, cT, -⟩ := consts
  obtain ⟨h1, h2, h3, h4, h5, h6, h7⟩ := hok
  obtain ⟨hpre, hblk⟩ := (Layout_append s.mem pre ((sz, ALLOC) :: post) s.heap_start s.heap_end).1 h7
  rw [hA] at hpre hblk
  obtain ⟨b1, b2, -, b4, -, hpost⟩ := hblk
  simp only at b1 b2 b4 hpost
  have hend := Layout_end hpost
  obtain ⟨nz, nst, n1, n2, n3, n4, n5⟩ := right_neighbour hpost h6
  obtain ⟨pz, pst, p1, p2, p3, p4, p5, p6, p7⟩ := left_neighbour hpre h5 h2
  rw [hL] at p5 p6 p7
  rw [hR] at n4 n5
  have hRle : R ≤ nz := by rcases n4 with ⟨_, _, h⟩ | ⟨_, h⟩ <;> omega
  have hLle : L ≤ pz := by rcases p5 with ⟨_, _, _, h⟩ | ⟨_, h⟩ <;> omega
  have hL32 : L % 32 = 0 := by rcases p5 with ⟨_, _, _, h⟩ | ⟨_, h⟩ <;> omega
  have hR32 : R % 32 = 0 := by rcases n4 with ⟨_, _, h⟩ | ⟨_, h⟩ <;> omega
  obtain ⟨m', k1, k2, k3, k4, k6⟩ := mm_free_core s A sz pz pst nz nst L R h1 p3 (by omega) b1
    (by omega) b4 n1 (by omega) n4 p1 (by omega) p5
  clear n4 p5 n1 p1 b4 h7 hpre hpost
  have hfr : ∀ a, (a < A - L ∨ A + sz + R ≤ a) → m' a = s.mem a :=
    fun a ha => k4 a (by omega) (by omega) (by omega) (by omega)
  refine ⟨m', k1, ⟨h1, h2, h3, h4, ?_, ?_, ?_⟩, k4, k6⟩
  · show GET m' (s.heap_start - 8) = _
    exact GET_of_frame h5 (fun a ha hb => hfr a (by omega))
  · show GET m' s.heap_end = _
    exact GET_of_frame h6 (fun a ha hb => hfr a (by omega))
  · show Layout m' s.heap_start (coalesced pre sz post) s.heap_end
    unfold coalesced
    rw [hL, hR, Layout_append]
    have e3 : s.heap_start + span (dropFreeLast pre) = A - L := by omega
    have e4 : A - L + (L + sz + R) = A + sz + R := by omega
    have e5 : A - L + (L + sz + R) - 8 = A + sz + R - 8 := by omega
    rw [e3]
    refine ⟨Layout_frame p6 (fun a _ hb => hfr a (by omega)), ?_⟩
    refine ⟨by simp only; omega, by simp only; omega, Or.inl rfl, k2, ?_, ?_⟩
    · simp only [e5]; exact k3
    · simp only [e4]
      exact Layout_frame n5 (fun a ha _ => hfr a (by omega))

/-- Releasing the ALLOCATED block of size `sz` that follows the blocks `pre`:
the call returns, the heap stays well formed with the coalesced block list, and
only the tag words of the merged block are written. -/
theorem mm_free_layout (s : State) (pre post : List (Nat × Nat)) (sz : Nat)
    (hok : HeapOK s (pre ++ (sz, ALLOC) :: post)) :
    ∃ m', mm_free (s.heap_start + span pre + 8) s = .ok () { s with mem := m' } ∧
      HeapOK { s with mem := m' } (coalesced pre sz post) ∧
      (∀ a, (a < s.heap_start + span pre - freeLast pre ∨
              s.heap_start + span pre - freeLast pre + 8 ≤ a) →
            (a < s.heap_start + span pre ∨ s.heap_start + span pre + 8 ≤ a) →
            (a < s.heap_start + span pre + sz - 8 ∨ s.heap_start + span pre + sz ≤ a) →
            (a < s.heap_start + span pre + sz + freeHead post - 8 ∨
              s.heap_start + span pre + sz + freeHead post ≤ a) → m' a = s.mem a) ∧
      (0 < freeLast pre →
        GET m' (s.heap_start + span pre) = PACK (sz + freeHead post) FREE) :=
  mm_free_layout_aux s pre post sz _ _ _ rfl rfl rfl hok

/-! ## Block headers and cursors left behind by coalescing -/

theorem headers_append : ∀ (xs ys : List (Nat × Nat)) (p : Nat),
    headers p (xs ++ ys) = headers p xs ++ headers (p + span xs) ys
  | [], ys, p => by simp [headers, span]
  | x :: xs, ys, p => by
    have e : p + span (x :: xs) = p + x.1 + span xs := by simp [span]; omega
    simp [headers, headers_append xs ys (p + x.1), e]

theorem mem_headers_iff : ∀ (bs : List (Nat × Nat)) (p q : Nat),
    q ∈ headers p bs ↔ ∃ pre b post, bs = pre ++ b :: post ∧ q = p + span pre
  | [], p, q => by simp [headers]
  | x :: xs, p, q => by
    rw [headers, List.mem_cons, mem_headers_iff xs (p + x.1) q]
    constructor
    · rintro (rfl | ⟨pre, b, post, h1, h2⟩)
      · exact ⟨[], x, xs, rfl, by simp [span]⟩
      · exact ⟨x :: pre, b, post, by simp [h1], by simp [span, h2]; omega⟩
    · rintro ⟨pre, b, post, h1, h2⟩
      cases pre with
      | nil => left; simpa [span] using h2
      | cons c cs =>
        right
        simp only [List.cons_append, List.cons.injEq] at h1
        obtain ⟨rfl, h1⟩ := h1
        exact ⟨cs, b, post, h1, by simp [span] at h2; omega⟩

/-- Headers of a layout are 32-byte aligned and lie inside it. -/
theorem headers_bounds {m : Nat → Nat} : ∀ {bs : List (Nat × Nat)} {p e : Nat},
    Layout m p bs e → p % 32 = 0 → ∀ q ∈ headers p bs, q % 32 = 0 ∧ p ≤ q ∧ q + 32 ≤ e
  | [], p, e, _, _ => by simp [headers]
  | b :: bs, p, e, h, hp => by
    intro q hq
    obtain ⟨h1, h2, -, -, -, h6⟩ := h
    have hend := Layout_end h6
    rcases List.mem_cons.1 hq with rfl | hq
    · exact ⟨hp, le_refl _, by omega⟩
    · have := headers_bounds h6 (by omega) q hq
      exact ⟨this.1, by omega, this.2.2⟩

theorem span_mod {m : Nat → Nat} : ∀ {bs : List (Nat × Nat)} {p e : Nat},
    Layout m p bs e → span bs % 32 = 0
  | [], _, _, _ => by simp [span]
  | b :: bs, p, e, h => by
    have := span_mod h.2.2.2.2.2
    have h2 := h.2.1
    simp [span]; omega

theorem dropFreeHead_cases (post : List (Nat × Nat)) :
    (∃ z, post = (z, FREE) :: dropFreeHead post ∧ freeHead post = z) ∨
      (dropFreeHead post = post ∧ freeHead post = 0) := by
  cases post with
  | nil => right; simp [dropFreeHead, freeHead]
  | cons b r =>
    by_cases h : b.2 = FREE
    · left
      refine ⟨b.1, ?_, by simp [freeHead, h]⟩
      simp only [dropFreeHead, h, if_true, List.cons.injEq, and_true]
      exact Prod.ext rfl h
    · right; simp [dropFreeHead, freeHead, h]

theorem dropFreeLast_cases (pre : List (Nat × Nat)) :
    (∃ z, pre = dropFreeLast pre ++ [(z, FREE)] ∧ freeLast pre = z) ∨
      (dropFreeLast pre = pre ∧ freeLast pre = 0) := by
  rcases dropFreeHead_cases pre.reverse with ⟨z, h1, h2⟩ | ⟨h1, h2⟩
  · left
    refine ⟨z, ?_, h2⟩
    have := congrArg List.reverse h1
    simpa [dropFreeLast] using this
  · right
    refine ⟨?_, h2⟩
    have := congrArg List.reverse h1
    simpa [dropFreeLast] using this

theorem Chain_lt {m : Nat → Nat} {hs he : Nat} {bs : List (Nat × Nat)}
    (hl : Layout m hs bs he) (h32 : hs % 32 = 0) {k q : Nat} (h : Chain m hs he bs k q) :
    q % 32 = 0 ∧ hs ≤ q ∧ q + 32 ≤ he := by
  induction h with
  | real k q hq => exact headers_bounds hl h32 q hq
  | last k q z h1 h2 h3 h4 h5 h6 => exact ⟨h4, h5, by omega⟩
  | hop k q z h1 h2 h3 h4 h5 h6 ih => exact ⟨h4, h5, by omega⟩

theorem Chain_mono {m : Nat → Nat} {hs he : Nat} {bs : List (Nat × Nat)} {k q : Nat}
    (h : Chain m hs he bs k q) : Chain m hs he bs (k + 1) q := by
  induction h with
  | real k q hq => exact Chain.real _ q hq
  | last k q z h1 h2 h3 h4 h5 h6 => exact Chain.last _ q z h1 h2 h3 h4 h5 h6
  | hop k q z h1 h2 h3 h4 h5 h6 ih => exact Chain.hop _ q z h1 h2 h3 h4 h5 ih

theorem firstFit_ne_zero (size : Nat) (bs : List (Nat × Nat)) (p : Nat) (hp : 0 < p)
    (hfit : ∃ x ∈ bs, Fits size x) : firstFit size p bs ≠ 0 := by
  rcases firstFit_cases size bs p with ⟨hno, _⟩ | ⟨pre, b, post, _, h2, _, _⟩
  · obtain ⟨x, hx, hf⟩ := hfit
    exact absurd hf (hno x hx)
  · omega

theorem firstFit_lt {m : Nat → Nat} (size : Nat) {bs : List (Nat × Nat)} {p e : Nat}
    (hl : Layout m p bs e) (hfit : ∃ x ∈ bs, Fits size x) : firstFit size p bs < e := by
  rcases firstFit_cases size bs p with ⟨hno, _⟩ | ⟨pre, b, post, h1, h2, _, _⟩
  · obtain ⟨x, hx, hf⟩ := hfit
    exact absurd hf (hno x hx)
  · subst h1
    have h := ((Layout_append m pre (b :: post) p e).1 hl).2
    have h3 := Layout_end h.2.2.2.2.2
    have h4 := h.1
    omega

/-- The header of a block of a layout holds a size of at least 32. -/
theorem header_size {m : Nat → Nat} {hs he : Nat} {bs : List (Nat × Nat)}
    (hl : Layout m hs bs he) (he' : he < W) {q : Nat} (hq : q ∈ headers hs bs) :
    32 ≤ GET_SIZE m q := by
  obtain ⟨pre, b, post, rfl, rfl⟩ := (mem_headers_iff bs hs q).1 hq
  have h := ((Layout_append m pre (b :: post) hs he).1 hl).2
  obtain ⟨h1, -, -, h4, -⟩ := Layout_head h he'
  omega

theorem Chain_size {m : Nat → Nat} {hs he : Nat} {bs : List (Nat × Nat)}
    (hl : Layout m hs bs he) (h32 : hs % 32 = 0) (he' : he < W) {k q : Nat}
    (h : Chain m hs he bs k q) :
    32 ≤ GET_SIZE m q := by
  obtain ⟨cW, cF, cA, -, -⟩ := consts
  cases h with
  | real k q hq => exact header_size hl he' hq
  | last k q z h1 h2 h3 h4 h5 h6 =>
    rw [GET_SIZE_PACK h1 (by omega) (by omega) (by omega)]; exact h2
  | hop k q z h1 h2 h3 h4 h5 h6 =>
    have := Chain_lt hl h32 h6
    rw [GET_SIZE_PACK h1 (by omega) (by omega) (by omega)]; exact h2

/-- One iteration of the next-fit loop at an address holding a FREE tag of size `z`. -/
theorem nf_loop_step (s : State) (size fuel q z c : Nat) (h1 : GET s.mem q = PACK z FREE)
    (h3 : z % 8 = 0) (hw : q + z < W) :
    nf_loop s size (fuel + 1) q c =
      if size ≤ z then
        (if q + z < s.heap_end then .ok q { s with next_block := q + z }
          else .ok q { s with next_block := s.heap_start })
      else if (if GET_SIZE s.mem (q + z) = 0 then c + 1 else c) = 2 then .ok 0 s
      else nf_loop s size fuel (if q + z < s.heap_end then q + z else s.heap_start)
        (if GET_SIZE s.mem (q + z) = 0 then c + 1 else c) := by
  obtain ⟨cW, cF, cA, -, -⟩ := consts
  have e1 : GET_STATUS s.mem q = FREE := GET_STATUS_PACK h1 h3 (by omega)
  have e2 : GET_SIZE s.mem q = z := GET_SIZE_PACK h1 h3 (by omega) (by omega)
  have w1 : wadd q z = q + z := wadd_eq hw
  rw [nf_loop]
  simp only [NEXT_BLOCK, e1, e2, w1, true_and, ge_iff_le]

/-- Next fit finds a block from every cursor that reaches the block list over
left-behind headers, provided some block fits. -/
theorem nf_loop_chain (s : State) (bs : List (Nat × Nat)) (size : Nat) (hok : HeapOK s bs)
    (hfit : ∃ x ∈ bs, Fits size x) {k q : Nat}
    (hc : Chain s.mem s.heap_start s.heap_end bs k q) :
    ∀ fuel, k + 2 * bs.length ≤ fuel →
      ∃ r nb, nf_loop s size fuel q 0 = .ok r { s with next_block := nb } ∧ r ≠ 0 ∧
        r < s.heap_end := by
  obtain ⟨cW, cF, cA, -, -⟩ := consts
  obtain ⟨h1, h2, h3, h4, h5, h6, h7⟩ := hok
  have hok : HeapOK s bs := ⟨h1, h2, h3, h4, h5, h6, h7⟩
  induction hc with
  | real k q hq =>
    intro fuel hf
    obtain ⟨pre, b, post, rfl, rfl⟩ := (mem_headers_iff bs s.heap_start q).1 hq
    obtain ⟨a1, a2, -⟩ := nf_loop_from s pre post b size fuel hok (by omega)
    obtain ⟨l1, l2⟩ := (Layout_append s.mem pre (b :: post) s.heap_start s.heap_end).1 h7
    have hle := Layout_end l2
    by_cases hbp : ∃ x ∈ b :: post, Fits size x
    · obtain ⟨nb, hnb⟩ := a1 hbp
      exact ⟨_, nb, hnb, firstFit_ne_zero size _ _ (by omega) hbp, firstFit_lt size l2 hbp⟩
    · have hno : ∀ x ∈ b :: post, ¬ Fits size x := fun x hx hfx => hbp ⟨x, hx, hfx⟩
      have hpre : ∃ x ∈ pre, Fits size x := by
        obtain ⟨x, hx, hfx⟩ := hfit
        rcases List.mem_append.1 hx with hx | hx
        · exact ⟨x, hx, hfx⟩
        · exact absurd hfx (hno x hx)
      obtain ⟨nb, hnb⟩ := a2 hno hpre
      have := firstFit_lt size l1 hpre
      exact ⟨_, nb, hnb, firstFit_ne_zero size _ _ (by omega) hpre, by omega⟩
  | last k q z g1 g2 g3 g4 g5 g6 =>
    intro fuel hf
    obtain ⟨fuel, rfl⟩ : ∃ f, fuel = f + 1 := ⟨fuel - 1, by omega⟩
    rw [nf_loop_step s size fuel q z 0 g1 (by omega) (by omega), g6, (sentinel_size h6).1]
    by_cases hz : size ≤ z
    · rw [if_pos hz, if_neg (by omega)]
      exact ⟨q, _, rfl, by omega, by omega⟩
    · rw [if_neg hz]
      simp only [if_true, Nat.zero_add, Nat.reduceEqDiff, if_false, lt_irrefl]
      obtain ⟨c, cs, hcs⟩ : ∃ c cs, bs = c :: cs := by
        obtain ⟨x, hx, -⟩ := hfit
        cases bs with
        | nil => simp at hx
        | cons c cs => exact ⟨c, cs, rfl⟩
      subst hcs
      obtain ⟨q1, -⟩ := nf_loop_pass s size (by omega) h6 cs c s.heap_start 1 (by omega) h7
      obtain ⟨nb, hnb⟩ := q1 hfit fuel (by omega)
      exact ⟨_, nb, hnb, firstFit_ne_zero size _ _ (by omega) hfit, firstFit_lt size h7 hfit⟩
  | hop k q z g1 g2 g3 g4 g5 g6 ih =>
    intro fuel hf
    obtain ⟨fuel, rfl⟩ : ∃ f, fuel = f + 1 := ⟨fuel - 1, by omega⟩
    have hlt := Chain_lt h7 h3 g6
    have hsz := Chain_size h7 h3 (by omega) g6
    rw [nf_loop_step s size fuel q z 0 g1 (by omega) (by omega)]
    by_cases hz : size ≤ z
    · rw [if_pos hz, if_pos (by omega)]
      exact ⟨q, _, rfl, by omega, by omega⟩
    · have hne : ¬ (GET_SIZE s.mem (q + z) = 0) := by omega
      have hlt' : q + z < s.heap_end := by omega
      simp only [if_neg hz, hne, if_false, OfNat.zero_ne_ofNat, hlt', if_true]
      exact ih fuel (by omega)

theorem Layout_start {m : Nat → Nat} {p e : Nat} {bs : List (Nat × Nat)}
    (h : Layout m p bs e) : p = e ∨ p ∈ headers p bs := by
  cases bs with
  | nil => exact Or.inl h
  | cons b r => right; simp [headers]

/-- Numeric facts about the block released between `pre` and `post`. -/
theorem free_facts {m : Nat → Nat} {hs he : Nat} {pre post : List (Nat × Nat)}
    {sz A L R : Nat} (hA : hs + span pre = A) (hL : freeLast pre = L)
    (hR : freeHead post = R) (h32 : hs % 32 = 0)
    (hl : Layout m hs (pre ++ (sz, ALLOC) :: post) he) :
    32 ≤ sz ∧ sz % 32 = 0 ∧ A % 32 = 0 ∧ L % 32 = 0 ∧ R % 32 = 0 ∧ hs + L ≤ A ∧
      A + sz + R ≤ he ∧ (0 < L → 32 ≤ L) ∧
      (0 < R → 32 ≤ R ∧ GET m (A + sz) = PACK R FREE) ∧
      span (dropFreeLast pre) + L = span pre := by
  obtain ⟨hpre, hblk⟩ := (Layout_append m pre ((sz, ALLOC) :: post) hs he).1 hl
  rw [hA] at hpre hblk
  obtain ⟨b1, b2, -, -, -, hpost⟩ := hblk
  simp only at b1 b2 hpost
  have hA32 : A % 32 = 0 := by
    have := span_mod hpre; omega
  have hRf : R % 32 = 0 ∧ A + sz + R ≤ he ∧ (0 < R → 32 ≤ R ∧ GET m (A + sz) = PACK R FREE) := by
    rcases dropFreeHead_cases post with ⟨z, h1, h2⟩ | ⟨h1, h2⟩
    · rw [hR] at h2; subst h2
      rw [h1] at hpost
      obtain ⟨c1, c2, -, c4, -, c6⟩ := hpost
      have := Layout_end c6
      exact ⟨c2, by simp only at this ⊢; omega, fun _ => ⟨c1, c4⟩⟩
    · rw [hR] at h2; subst h2
      have := Layout_end hpost
      exact ⟨rfl, by omega, fun h => absurd h (by omega)⟩
  have hLf : L % 32 = 0 ∧ hs + L ≤ A ∧ (0 < L → 32 ≤ L) ∧ span (dropFreeLast pre) + L = span pre := by
    rcases dropFreeLast_cases pre with ⟨z, h1, h2⟩ | ⟨h1, h2⟩
    · rw [hL] at h2; subst h2
      have hsp : span pre = span (dropFreeLast pre) + L := by
        conv_lhs => rw [h1]
        rw [span_append]; simp [span]
      rw [h1] at hpre
      obtain ⟨-, c⟩ := (Layout_append m (dropFreeLast pre) [(L, FREE)] hs A).1 hpre
      obtain ⟨c1, c2, -⟩ := c
      exact ⟨c2, by simp only at c1; omega, fun _ => c1, by omega⟩
    · rw [hL] at h2; subst h2
      exact ⟨rfl, by omega, fun h => absurd h (by omega), by rw [h1]; rfl⟩
  exact ⟨b1, b2, hA32, hLf.1, hRf.1, hLf.2.1, hRf.2.1, hLf.2.2.1, hRf.2.2, hLf.2.2.2⟩

/-- Where the block headers go when a block is released. -/
theorem free_headers {m : Nat → Nat} {hs he : Nat} {pre post : List (Nat × Nat)}
    {sz A L R : Nat} (hA : hs + span pre = A) (hL : freeLast pre = L)
    (hR : freeHead post = R) (h32 : hs % 32 = 0)
    (hl : Layout m hs (pre ++ (sz, ALLOC) :: post) he) :
    (∀ q, q ∈ headers hs (pre ++ (sz, ALLOC) :: post) →
      q ∈ headers hs (coalesced pre sz post) ∨ (q = A ∧ 0 < L) ∨ (q = A + sz ∧ 0 < R)) ∧
    A - L ∈ headers hs (coalesced pre sz post) ∧
    (A + sz + R = he ∨ A + sz + R ∈ headers hs (coalesced pre sz post)) := by
  obtain ⟨f1, f2, f3, f4, f5, f6, f7, f8, f9, f10⟩ := free_facts hA hL hR h32 hl
  obtain ⟨hpre, hblk⟩ := (Layout_append m pre ((sz, ALLOC) :: post) hs he).1 hl
  rw [hA] at hpre hblk
  have hpost : Layout m (A + sz) post he := hblk.2.2.2.2.2
  have e1 : hs + span (dropFreeLast pre) = A - L := by omega
  have e2 : A - L + (L + sz + R) = A + sz + R := by omega
  have hnew : headers hs (coalesced pre sz post) =
      headers hs (dropFreeLast pre) ++ (A - L) :: headers (A + sz + R) (dropFreeHead post) := by
    unfold coalesced
    rw [headers_append, hL, hR, e1, headers]
    simp only [e2]
  have hold : headers hs (pre ++ (sz, ALLOC) :: post) =
      headers hs pre ++ A :: headers (A + sz) post := by
    rw [headers_append, hA, headers]
  have htail : Layout m (A + sz + R) (dropFreeHead post) he := by
    rcases dropFreeHead_cases post with ⟨z, h1, h2⟩ | ⟨h1, h2⟩
    · rw [hR] at h2; subst h2
      rw [h1] at hpost
      exact hpost.2.2.2.2.2
    · rw [hR] at h2; subst h2
      rw [h1]; exact hpost
  refine ⟨?_, by rw [hnew]; simp, ?_⟩
  · intro q hq
    rw [hold] at hq
    rw [hnew]
    rcases List.mem_append.1 hq with hq | hq
    · -- a header of `pre`
      rcases dropFreeLast_cases pre with ⟨z, h1, h2⟩ | ⟨h1, h2⟩
      · rw [h1, headers_append, e1] at hq
        left
        rcases List.mem_append.1 hq with hq | hq
        · exact List.mem_append_left _ hq
        · have : q = A - L := by simpa [headers] using hq
          rw [this]; simp
      · rw [h1]; left; exact List.mem_append_left _ hq
    · rcases List.mem_cons.1 hq with rfl | hq
      · by_cases hL0 : 0 < L
        · exact Or.inr (Or.inl ⟨rfl, hL0⟩)
        · left
          have : q - L = q := by omega
          rw [this]; simp
      · -- a header of `post`
        rcases dropFreeHead_cases post with ⟨z, h1, h2⟩ | ⟨h1, h2⟩
        · rw [hR] at h2; subst h2
          rw [h1, headers] at hq
          rcases List.mem_cons.1 hq with rfl | hq
          · have : 32 ≤ R := by
              rw [h1] at hpost; exact hpost.1
            exact Or.inr (Or.inr ⟨rfl, by omega⟩)
          · left; exact List.mem_append_right _ (List.mem_cons_of_mem _ hq)
        · rw [hR] at h2; subst h2
          left
          rw [h1]
          exact List.mem_append_right _ (List.mem_cons_of_mem _ hq)
  · rcases Layout_start htail with h | h
    · exact Or.inl h
    · right; rw [hnew]
      exact List.mem_append_right _ (List.mem_cons_of_mem _ h)

/-- A cursor that reaches the block list over left-behind headers still does
so after a block has been released, with at most one more hop. -/
theorem Chain_free (m m' : Nat → Nat) (hs he : Nat) {pre post : List (Nat × Nat)}
    {sz A L R : Nat} (hA : hs + span pre = A) (hL : freeLast pre = L)
    (hR : freeHead post = R) (h32 : hs % 32 = 0)
    (hl : Layout m hs (pre ++ (sz, ALLOC) :: post) he)
    (hfr : ∀ a, (a < A - L ∨ A - L + 8 ≤ a) → (a < A ∨ A + 8 ≤ a) →
      (a < A + sz - 8 ∨ A + sz ≤ a) → (a < A + sz + R - 8 ∨ A + sz + R ≤ a) → m' a = m a)
    (hst : 0 < L → GET m' A = PACK (sz + R) FREE) {k q : Nat}
    (hc : Chain m hs he (pre ++ (sz, ALLOC) :: post) k q) :
    Chain m' hs he (coalesced pre sz post) (k + 1) q := by
  obtain ⟨f1, f2, f3, f4, f5, f6, f7, f8, f9, -⟩ := free_facts hA hL hR h32 hl
  obtain ⟨g1, g2, g3⟩ := free_headers hA hL hR h32 hl
  clear hl hA hL hR
  have hAst : ∀ j, 0 < L → Chain m' hs he (coalesced pre sz post) (j + 1) A := by
    intro j hpos
    have e : A + (sz + R) = A + sz + R := by omega
    rcases g3 with g3 | g3
    · exact Chain.last j A (sz + R) (hst hpos) (by omega) (by omega) f3 (by omega) (by omega)
    · exact Chain.hop j A (sz + R) (hst hpos) (by omega) (by omega) f3 (by omega)
        (Chain.real j _ (by rw [e]; exact g3))
  have hBst : ∀ j, 0 < R → Chain m' hs he (coalesced pre sz post) (j + 1) (A + sz) := by
    intro j hpos
    obtain ⟨r1, r2⟩ := f9 hpos
    have hget : GET m' (A + sz) = PACK R FREE :=
      GET_of_frame r2 (fun a ha hb => hfr a (by omega) (by omega) (by omega) (by omega))
    rcases g3 with g3 | g3
    · exact Chain.last j (A + sz) R hget r1 f5 (by omega) (by omega) g3
    · exact Chain.hop j (A + sz) R hget r1 f5 (by omega) (by omega) (Chain.real j _ g3)
  have hkeep : ∀ q z, GET m q = PACK z FREE → q % 32 = 0 → q ≠ A - L → q ≠ A →
      GET m' q = PACK z FREE := by
    intro q z hq h0 hne1 hne2
    exact GET_of_frame hq (fun a ha hb => hfr a (by omega) (by omega) (by omega) (by omega))
  induction hc with
  | real k q hq =>
    rcases g1 q hq with h | ⟨rfl, h⟩ | ⟨rfl, h⟩
    · exact Chain.real _ q h
    · exact hAst k h
    · exact hBst k h
  | last k q z c1 c2 c3 c4 c5 c6 =>
    by_cases hq1 : q = A - L
    · rw [hq1]; exact Chain.real _ _ g2
    · by_cases hq2 : q = A
      · rw [hq2]; exact hAst _ (by omega)
      · exact Chain.last _ q z (hkeep q z c1 c4 hq1 hq2) c2 c3 c4 c5 c6
  | hop k q z c1 c2 c3 c4 c5 c6 ih =>
    by_cases hq1 : q = A - L
    · rw [hq1]; exact Chain.real _ _ g2
    · by_cases hq2 : q = A
      · rw [hq2]; exact hAst _ (by omega)
      · exact Chain.hop _ q z (hkeep q z c1 c4 hq1 hq2) c2 c3 c4 c5 ih

/-! ## Allocation -/

/-- Splitting and marking never move the heap bounds or the break. -/
theorem place_fields (block blocksize : Nat) (s : State) :
    ∃ m', place block blocksize s = .ok (wadd block TYPE_SIZE) { s with mem := m' } := by
  unfold place
  by_cases h : blocksize < GET_SIZE s.mem block
  · simp only [h, if_true]; exact ⟨_, rfl⟩
  · simp only [h, if_false]; exact ⟨_, rfl⟩

/-- When the locator finds a block, `mm_malloc` places the request there and
does not call `expand_heap`. -/
theorem mm_malloc_found (fuel size : Nat) (s s1 : State) (block : Nat)
    (hinit : s.mm_initialized ≠ 0)
    (hget : call_get_block fuel (ROUND_UP (wadd (wadd TYPE_SIZE size) TYPE_SIZE)) s = .ok block s1)
    (hb : block ≠ 0) :
    ∃ m', mm_malloc fuel size s = .ok (wadd block TYPE_SIZE) { s1 with mem := m' } := by
  obtain ⟨m', hm'⟩ := place_fields block (ROUND_UP (wadd (wadd TYPE_SIZE size) TYPE_SIZE)) s1
  refine ⟨m', ?_⟩
  unfold mm_malloc
  rw [if_neg hinit]
  simp only [hget, if_neg hb, hm']

theorem call_ff (fuel B : Nat) (s : State) (h : s.get_block = some .ff) :
    call_get_block fuel B s = ff_get_free_block fuel B s := by
  unfold call_get_block; rw [h]

theorem call_nf (fuel B : Nat) (s : State) (h : s.get_block = some .nf) :
    call_get_block fuel B s = nf_get_free_block fuel B s := by
  unfold call_get_block; rw [h]

theorem call_bf (fuel B : Nat) (s : State) (h : s.get_block = some .bf) :
    call_get_block fuel B s = bf_get_free_block fuel B s := by
  unfold call_get_block; rw [h]

/-- On a well-formed heap in which some block fits, each locator returns a
block (next fit even from a cursor that reaches the block list over
left-behind headers) and changes at most the cursor. -/
theorem locator_finds (s : State) (bs : List (Nat × Nat)) (B fuel k : Nat) (loc : Locator)
    (hok : HeapOK s bs) (hloc : s.get_block = some loc) (hfit : ∃ x ∈ bs, Fits B x)
    (hc : Chain s.mem s.heap_start s.heap_end bs k s.next_block)
    (hfuel : k + 2 * bs.length + 1 ≤ fuel) :
    ∃ r nb, call_get_block fuel B s = .ok r { s with next_block := nb } ∧ r ≠ 0 ∧
      r < s.heap_end := by
  cases loc with
  | ff =>
    rw [call_ff fuel B s hloc]
    refine ⟨firstFit B s.heap_start bs, s.next_block, ?_, ?_⟩
    · exact ff_top s bs B fuel hok (by omega)
    · exact ⟨firstFit_ne_zero B bs _ (by have := hok.2.1; omega) hfit,
        firstFit_lt B hok.2.2.2.2.2.2 hfit⟩
  | nf =>
    obtain ⟨r, nb, h1, h2⟩ := nf_loop_chain s bs B hok hfit hc fuel (by omega)
    refine ⟨r, nb, ?_, h2⟩
    rw [call_nf fuel B s hloc]
    unfold nf_get_free_block
    rw [if_neg hok.1, h1]
  | bf =>
    obtain ⟨r, ms, h1, pre, x, post, h2, h3, -⟩ := (bf_top s bs B fuel hok (by omega)).2 hfit
    rw [call_bf fuel B s hloc]
    refine ⟨r, s.next_block, h1, ?_, ?_⟩
    · have := hok.2.1; omega
    · subst h2
      have h := ((Layout_append s.mem pre (x :: post) s.heap_start s.heap_end).1
        hok.2.2.2.2.2.2).2
      have h4 := Layout_end h.2.2.2.2.2
      have h5 := h.1
      omega

/-- No growth on a hit: when some block fits the block size computed for the
request, `mm_malloc` returns a handle and leaves `heap_end` and the break alone. -/
theorem mm_malloc_no_growth (s : State) (bs : List (Nat × Nat)) (n fuel k : Nat) (loc : Locator)
    (hok : HeapOK s bs) (hloc : s.get_block = some loc)
    (hfit : ∃ x ∈ bs, Fits (ROUND_UP (wadd (wadd TYPE_SIZE n) TYPE_SIZE)) x)
    (hc : Chain s.mem s.heap_start s.heap_end bs k s.next_block)
    (hfuel : k + 2 * bs.length + 1 ≤ fuel) :
    ∃ h sf, mm_malloc fuel n s = .ok h sf ∧ h ≠ 0 ∧ sf.heap_end = s.heap_end ∧ sf.ds = s.ds ∧
      sf.ds_heap_brk = s.ds_heap_brk := by
  obtain ⟨r, nb, h1, h2, h3⟩ := locator_finds s bs _ fuel k loc hok hloc hfit hc hfuel
  obtain ⟨m', hm'⟩ := mm_malloc_found fuel n s _ r hok.1 h1 h2
  refine ⟨_, _, hm', ?_, rfl, rfl, rfl⟩
  have h4 := hok.2.2.2.1
  rw [wadd_eq (by unfold W TYPE_SIZE at *; omega)]
  omega

/-! ## Two releases of adjacent blocks -/

theorem freeLast_snoc (l : List (Nat × Nat)) (b : Nat × Nat) :
    freeLast (l ++ [b]) = if b.2 = FREE then b.1 else 0 := by
  simp [freeLast, freeHead]

theorem dropFreeLast_snoc (l : List (Nat × Nat)) (b : Nat × Nat) :
    dropFreeLast (l ++ [b]) = if b.2 = FREE then l else l ++ [b] := by
  by_cases h : b.2 = FREE <;> simp [dropFreeLast, dropFreeHead, h]

theorem length_dropFreeHead_le (l : List (Nat × Nat)) : (dropFreeHead l).length ≤ l.length := by
  cases l with
  | nil => simp [dropFreeHead]
  | cons b r => by_cases h : b.2 = FREE <;> simp [dropFreeHead, h]

theorem length_dropFreeLast_le (l : List (Nat × Nat)) : (dropFreeLast l).length ≤ l.length := by
  have := length_dropFreeHead_le l.reverse
  simpa [dropFreeLast] using this

theorem length_coalesced_le (pre post : List (Nat × Nat)) (z : Nat) (x : Nat × Nat) :
    (coalesced pre z post).length ≤ (pre ++ x :: post).length := by
  have h1 := length_dropFreeLast_le pre
  have h2 := length_dropFreeHead_le post
  simp only [coalesced, List.length_append, List.length_cons]
  omega

/-- The block size `mm_malloc` computes for a request of `z - 16` bytes, `z` a
multiple of 32. -/
theorem ROUND_UP_exact (z : Nat) (h32 : z % 32 = 0) (hz : 32 ≤ z) (hw : z + 32 ≤ W) :
    ROUND_UP (wadd (wadd TYPE_SIZE (z - 16)) TYPE_SIZE) = z := by
  unfold ROUND_UP wadd wsub wmul W TYPE_SIZE BS at *
  omega

theorem two_frees_ab (s : State) (pre post : List (Nat × Nat)) (s1 s2 k c : Nat)
    (hok : HeapOK s (pre ++ (s1, ALLOC) :: (s2, ALLOC) :: post))
    (hc : Chain s.mem s.heap_start s.heap_end (pre ++ (s1, ALLOC) :: (s2, ALLOC) :: post) k c) :
    ∃ ma mb bs, mm_free (s.heap_start + span pre + 8) s = .ok () { s with mem := ma } ∧
      mm_free (s.heap_start + span pre + s1 + 8) { s with mem := ma } =
        .ok () { s with mem := mb } ∧
      HeapOK { s with mem := mb } bs ∧ (∃ x ∈ bs, Fits (s1 + s2) x) ∧
      Chain mb s.heap_start s.heap_end bs (k + 2) c ∧
      bs.length ≤ (pre ++ (s1, ALLOC) :: (s2, ALLOC) :: post).length := by
  obtain ⟨cW, cF, cA, -, -⟩ := consts
  obtain ⟨ma, e1, ok1, fr1, st1⟩ := mm_free_layout s pre ((s2, ALLOC) :: post) s1 hok
  have c1 := Chain_free s.mem _ s.heap_start s.heap_end rfl rfl rfl hok.2.2.1
    hok.2.2.2.2.2.2 fr1 st1 hc
  have f := free_facts (m := s.mem) rfl rfl rfl hok.2.2.1 hok.2.2.2.2.2.2
  have hsp := f.2.2.2.2.2.2.2.2.2
  have hne : ¬ (ALLOC = FREE) := by omega
  have hlist : coalesced pre s1 ((s2, ALLOC) :: post) =
      (dropFreeLast pre ++ [(freeLast pre + s1 + 0, FREE)]) ++ (s2, ALLOC) :: post := by
    simp [coalesced, freeHead, dropFreeHead, hne]
  rw [hlist] at ok1 c1
  have hlen1 := length_coalesced_le pre ((s2, ALLOC) :: post) s1 (s1, ALLOC)
  rw [hlist] at hlen1
  have haddr : s.heap_start + span (dropFreeLast pre ++ [(freeLast pre + s1 + 0, FREE)]) + 8 =
      s.heap_start + span pre + s1 + 8 := by
    rw [span_append]; simp only [span]; omega
  obtain ⟨mb, e2, ok2, fr2, st2⟩ := mm_free_layout { s with mem := ma }
    (dropFreeLast pre ++ [(freeLast pre + s1 + 0, FREE)]) post s2 ok1
  have c2 := Chain_free ma _ s.heap_start s.heap_end rfl rfl rfl
    hok.2.2.1 ok1.2.2.2.2.2.2 fr2 st2 c1
  have hlen2 := length_coalesced_le (dropFreeLast pre ++ [(freeLast pre + s1 + 0, FREE)]) post s2
    (s2, ALLOC)
  rw [haddr] at e2
  refine ⟨ma, mb, _, e1, e2, ok2, ?_, c2, by omega⟩
  refine ⟨(freeLast (dropFreeLast pre ++ [(freeLast pre + s1 + 0, FREE)]) + s2 + freeHead post,
    FREE), by simp [coalesced], rfl, ?_⟩
  rw [freeLast_snoc]
  simp only [if_true]
  omega

theorem two_frees_ba (s : State) (pre post : List (Nat × Nat)) (s1 s2 k c : Nat)
    (hok : HeapOK s (pre ++ (s1, ALLOC) :: (s2, ALLOC) :: post))
    (hc : Chain s.mem s.heap_start s.heap_end (pre ++ (s1, ALLOC) :: (s2, ALLOC) :: post) k c) :
    ∃ mb ma bs, mm_free (s.heap_start + span pre + s1 + 8) s = .ok () { s with mem := mb } ∧
      mm_free (s.heap_start + span pre + 8) { s with mem := mb } =
        .ok () { s with mem := ma } ∧
      HeapOK { s with mem := ma } bs ∧ (∃ x ∈ bs, Fits (s1 + s2) x) ∧
      Chain ma s.heap_start s.heap_end bs (k + 2) c ∧
      bs.length ≤ (pre ++ (s1, ALLOC) :: (s2, ALLOC) :: post).length := by
  obtain ⟨cW, cF, cA, -, -⟩ := consts
  have hne : ¬ (ALLOC = FREE) := by omega
  have hsplit : pre ++ (s1, ALLOC) :: (s2, ALLOC) :: post =
      (pre ++ [(s1, ALLOC)]) ++ (s2, ALLOC) :: post := by simp
  have hlen0 : (pre ++ (s1, ALLOC) :: (s2, ALLOC) :: post).length =
      ((pre ++ [(s1, ALLOC)]) ++ (s2, ALLOC) :: post).length := by rw [hsplit]
  rw [hsplit] at hok hc
  obtain ⟨mb, e1, ok1, fr1, st1⟩ := mm_free_layout s (pre ++ [(s1, ALLOC)]) post s2 hok
  have c1 := Chain_free s.mem _ s.heap_start s.heap_end rfl rfl rfl hok.2.2.1
    hok.2.2.2.2.2.2 fr1 st1 hc
  have haddr : s.heap_start + span (pre ++ [(s1, ALLOC)]) + 8 =
      s.heap_start + span pre + s1 + 8 := by
    rw [span_append]; simp only [span]; omega
  rw [haddr] at e1
  have hlist : coalesced (pre ++ [(s1, ALLOC)]) s2 post =
      pre ++ (s1, ALLOC) :: ((0 + s2 + freeHead post, FREE) :: dropFreeHead post) := by
    simp [coalesced, freeLast_snoc, dropFreeLast_snoc, hne]
  have hlen1 := length_coalesced_le (pre ++ [(s1, ALLOC)]) post s2 (s2, ALLOC)
  rw [hlist] at ok1 c1 hlen1
  obtain ⟨ma, e2, ok2, fr2, st2⟩ := mm_free_layout { s with mem := mb } pre
    ((0 + s2 + freeHead post, FREE) :: dropFreeHead post) s1 ok1
  have c2 := Chain_free mb _ s.heap_start s.heap_end rfl rfl rfl
    hok.2.2.1 ok1.2.2.2.2.2.2 fr2 st2 c1
  have hlen2 := length_coalesced_le pre ((0 + s2 + freeHead post, FREE) :: dropFreeHead post) s1
    (s1, ALLOC)
  refine ⟨mb, ma, _, e1, e2, ok2, ?_, c2, by omega⟩
  refine ⟨(freeLast pre + s1 + freeHead ((0 + s2 + freeHead post, FREE) :: dropFreeHead post),
    FREE), by simp [coalesced], rfl, ?_⟩
  simp only [freeHead, if_true]
  omega

/-! ## Heap growth -/

theorem wmul_eq {a b : Nat} (h : a * b < W) : wmul a b = a * b := by
  unfold wmul; exact Nat.mod_eq_of_lt h

/-- Rounding `x` up to a multiple of the page size `ps`. -/
theorem round_page (x ps : Nat) (hx : 0 < x) (hps : 0 < ps) (h32 : ps % 32 = 0) :
    x ≤ (x + ps - 1) / ps * ps ∧ (x + ps - 1) / ps * ps < x + ps ∧
      (x + ps - 1) / ps * ps % 32 = 0 ∧ 32 ≤ (x + ps - 1) / ps * ps := by
  have h1 := Nat.div_add_mod (x + ps - 1) ps
  have h2 := Nat.mod_lt (x + ps - 1) hps
  have h3 : (x + ps - 1) / ps * ps = ps * ((x + ps - 1) / ps) := Nat.mul_comm _ _
  have h4 : (x + ps - 1) / ps * ps % 32 = 0 := by
    obtain ⟨k, hk⟩ : 32 ∣ ps := Nat.dvd_of_mod_eq_zero h32
    rw [hk, ← Nat.mul_assoc, Nat.mul_comm _ 32, Nat.mul_assoc]
    exact Nat.mul_mod_right 32 _
  refine ⟨by omega, by omega, h4, by omega⟩

/-- The page-rounded size `expand_heap` computes, free of wrap-around. -/
theorem expand_size (x ps : Nat) (hx : 0 < x) (hps : 0 < ps) (h32 : ps % 32 = 0)
    (hw : x + ps < W) :
    wmul (wsub (wadd x ps) 1 / ps) ps = (x + ps - 1) / ps * ps := by
  obtain ⟨r1, r2, -, -⟩ := round_page x ps hx hps h32
  have e1 : wadd x ps = x + ps := wadd_eq hw
  have e2 : wsub (x + ps) 1 = x + ps - 1 := wsub_eq (by omega) hw
  rw [e1, e2, wmul_eq (by omega)]

/-- The body of `grow_heap` once the provider has granted `size` more bytes. -/
theorem grow_heap_eq (s : State) (size : Nat) (hgrant : s.ds.brk + size ≤ s.ds.limit)
    (new_heap_end : Nat)
    (hnew : new_heap_end = wmul (wsub (s.ds.brk + size) TYPE_SIZE / BS) BS) :
    grow_heap size s = coalesce s.heap_end
      { s with
        ds := { s.ds with brk := s.ds.brk + size }
        mem := (PUT (PUT (PUT s.mem s.heap_end (PACK size FREE))
          (wsub new_heap_end TYPE_SIZE) (PACK size FREE)) new_heap_end (PACK 0 ALLOC))
        heap_end := new_heap_end
        ds_heap_brk := s.ds.brk + size } := by
  subst hnew
  have h1 : ds_sbrk s.ds size = (s.ds.brk, { s.ds with brk := s.ds.brk + size }) := by
    unfold ds_sbrk
    rw [if_pos hgrant]
  have h2 : ds_sbrk { s.ds with brk := s.ds.brk + size } 0 =
      (s.ds.brk + size, { s.ds with brk := s.ds.brk + size }) := by
    unfold ds_sbrk
    rw [if_pos (by simpa using hgrant)]
    rfl
  unfold grow_heap
  simp only [h1, h2]

/-- The three stores of `grow_heap`: a FREE block of size `E` at the old end of
the heap and a sentinel after it. -/
theorem three_puts (m : Nat → Nat) (he E : Nat) (hE : 32 ≤ E) (hE8 : E % 8 = 0)
    (hw : he + E + 8 ≤ W) :
    GET (PUT (PUT (PUT m he (PACK E FREE)) (he + E - 8) (PACK E FREE)) (he + E)
        (PACK 0 ALLOC)) he = PACK E FREE ∧
    GET (PUT (PUT (PUT m he (PACK E FREE)) (he + E - 8) (PACK E FREE)) (he + E)
        (PACK 0 ALLOC)) (he + E - 8) = PACK E FREE ∧
    GET (PUT (PUT (PUT m he (PACK E FREE)) (he + E - 8) (PACK E FREE)) (he + E)
        (PACK 0 ALLOC)) (he + E) = PACK 0 ALLOC ∧
    ∀ a, a < he → PUT (PUT (PUT m he (PACK E FREE)) (he + E - 8) (PACK E FREE)) (he + E)
        (PACK 0 ALLOC) a = m a := by
  have pk : PACK E FREE < W := PACK_lt hE8 (by decide) (by omega)
  have pk0 : PACK 0 ALLOC < W := by decide
  refine ⟨?_, ?_, GET_PUT_same _ _ _ pk0, ?_⟩
  · rw [GET_PUT_other _ _ _ _ (by omega), GET_PUT_other _ _ _ _ (by omega), GET_PUT_same _ _ _ pk]
  · rw [GET_PUT_other _ _ _ _ (by omega), GET_PUT_same _ _ _ pk]
  · intro a ha
    rw [PUT_other _ _ _ _ (by omega), PUT_other _ _ _ _ (by omega), PUT_other _ _ _ _ (by omega)]

/-- Growing a well-formed heap by `E` bytes, a positive multiple of 32 that the
provider grants: the new FREE block is merged with a FREE last block (of size
`freeLast bs`), and the merged block ends at the new `heap_end`. -/
theorem grow_heap_spec (s : State) (bs : List (Nat × Nat)) (E : Nat) (hok : HeapOK s bs)
    (hE32 : E % 32 = 0) (hE : 32 ≤ E) (hbrk : 8 ≤ s.ds.brk)
    (hhe : s.heap_end = (s.ds.brk - 8) / 32 * 32) (hgrant : s.ds.brk + E ≤ s.ds.limit)
    (hlim : s.ds.limit < W) :
    ∃ m', grow_heap E s = .ok (s.heap_end - freeLast bs)
        { s with
          ds := { s.ds with brk := s.ds.brk + E }
          mem := m'
          heap_end := s.heap_end + E
          ds_heap_brk := s.ds.brk + E } ∧
      GET m' (s.heap_end - freeLast bs) = PACK (freeLast bs + E) FREE ∧
      GET m' (s.heap_end + E - 8) = PACK (freeLast bs + E) FREE ∧
      GET m' (s.heap_end + E) = PACK 0 ALLOC ∧
      (∀ a, a < s.heap_end - freeLast bs → m' a = s.mem a) ∧
      s.heap_start + freeLast bs ≤ s.heap_end ∧ s.heap_end + E + 8 ≤ W := by
  obtain ⟨cW, cF, cA, cT, cB⟩ := consts
  obtain ⟨h1, h2, h3, h4, h5, h6, h7⟩ := hok
  have hnew : s.heap_end + E = wmul (wsub (s.ds.brk + E) 8 / 32) 32 := by
    rw [wsub_eq (by omega) (by omega), wmul_eq (by omega)]
    omega
  have heq := grow_heap_eq s E hgrant (s.heap_end + E) hnew
  have hw : wsub (s.heap_end + E) TYPE_SIZE = s.heap_end + E - 8 :=
    wsub_eq (by omega) (by omega)
  rw [hw] at heq
  have hbound : s.heap_end + E + 8 ≤ W := by omega
  obtain ⟨t1, t2, t3, t4⟩ := three_puts s.mem s.heap_end E hE (by omega) hbound
  obtain ⟨pz, pst, p1, p2, p3, p4, p5, -, -⟩ := left_neighbour h7 h5 h2
  obtain ⟨m3, hm3⟩ : ∃ m3, m3 = PUT (PUT (PUT s.mem s.heap_end (PACK E FREE))
      (s.heap_end + E - 8) (PACK E FREE)) (s.heap_end + E) (PACK 0 ALLOC) := ⟨_, rfl⟩
  rw [← hm3] at heq t1 t2 t3 t4
  have hLle : freeLast bs ≤ pz := by rcases p5 with ⟨_, _, _, h⟩ | ⟨_, h⟩ <;> omega
  have c4 : GET m3 (s.heap_end - 8) = PACK pz pst :=
    GET_of_frame p1 (fun a ha hb => t4 a (by omega))
  have c6 : (pst = FREE ∧ 32 ≤ pz ∧ GET m3 (s.heap_end - pz) = PACK pz FREE ∧
      freeLast bs = pz) ∨ (pst = ALLOC ∧ freeLast bs = 0) := by
    rcases p5 with ⟨a, b, c, d⟩ | ⟨a, b⟩
    · exact Or.inl ⟨a, b, GET_of_frame c (fun a ha hb => t4 a (by omega)), d⟩
    · exact Or.inr ⟨a, b⟩
  clear p5
  obtain ⟨m', k1, k2, k3, k4, -, -⟩ := coalesce_core
    { s with
      ds := { s.ds with brk := s.ds.brk + E }
      mem := m3
      heap_end := s.heap_end + E
      ds_heap_brk := s.ds.brk + E }
    s.heap_end E pz pst 0 ALLOC (freeLast bs) 0 h1 p3 (by omega) hE (by omega) t1 t2 t3 rfl
    (Or.inr ⟨rfl, rfl⟩) c4 (by omega) c6
  clear c6
  refine ⟨m', by rw [heq, k1], ?_, ?_, ?_, ?_, by omega, hbound⟩
  · simpa using k2
  · simpa using k3
  · exact GET_of_frame t3 (fun a ha hb => k4 a (by omega) (by omega) (by omega))
  · intro a ha
    exact (k4 a (by omega) (by omega) (by omega)).trans (t4 a (by omega))

/-- The block size computed for a request of at most `2 ^ 64 - 48` bytes. -/
theorem ROUND_UP_request (n : Nat) (hn : n ≤ 18446744073709551568) :
    ROUND_UP (wadd (wadd TYPE_SIZE n) TYPE_SIZE) = (n + 16 + 31) / 32 * 32 := by
  unfold ROUND_UP wadd wsub wmul W TYPE_SIZE BS
  omega

/-- Marking: after `place` the header and the footer of the block of size `B`
at `hdr` hold `PACK(B, ALLOC)`, and the handle is `hdr + 8`. -/
theorem place_words (hdr B : Nat) (s : State) (hB32 : B % 32 = 0) (hB : 32 ≤ B)
    (hw : hdr + B + 8 ≤ W) :
    ∃ m', place hdr B s = .ok (hdr + 8) { s with mem := m' } ∧
      GET m' hdr = PACK B ALLOC ∧ GET m' (hdr + B - 8) = PACK B ALLOC := by
  obtain ⟨cW, cF, cA, cT, -⟩ := consts
  have pk : PACK B ALLOC < W := PACK_lt (by omega) (by omega) (by omega)
  have w1 : wadd hdr TYPE_SIZE = hdr + 8 := wadd_eq (by omega)
  have w2 : wsub (wadd hdr B) TYPE_SIZE = hdr + B - 8 := by
    rw [wadd_eq (by omega), wsub_eq (by omega) (by omega)]
  unfold place
  by_cases h : B < GET_SIZE s.mem hdr
  · simp only [w1, w2, h, if_true]
    refine ⟨_, rfl, ?_, GET_PUT_same _ _ _ pk⟩
    rw [GET_PUT_other _ _ _ _ (by omega), GET_PUT_same _ _ _ pk]
  · simp only [w1, w2, h, if_false]
    refine ⟨_, rfl, ?_, GET_PUT_same _ _ _ pk⟩
    rw [GET_PUT_other _ _ _ _ (by omega), GET_PUT_same _ _ _ pk]

/-- What the active locator returns on a well-formed heap whose cursor is a
block header: not-found when nothing fits, the header of a fitting block otherwise. -/
theorem locator_result (s : State) (bs : List (Nat × Nat)) (B fuel : Nat) (loc : Locator)
    (hok : HeapOK s bs) (hloc : s.get_block = some loc)
    (hcur : s.next_block ∈ headers s.heap_start bs) (hfuel : 2 * bs.length + 1 ≤ fuel) :
    ∃ r nb, call_get_block fuel B s = .ok r { s with next_block := nb } ∧
      ((r = 0 ∧ nb = s.next_block ∧ ∀ x ∈ bs, ¬ Fits B x) ∨
        (∃ pre x post, bs = pre ++ x :: post ∧ r = s.heap_start + span pre ∧ Fits B x)) := by
  by_cases hfit : ∃ x ∈ bs, Fits B x
  · cases loc with
    | ff =>
      rw [call_ff fuel B s hloc]
      refine ⟨_, s.next_block, ff_top s bs B fuel hok (by omega), Or.inr ?_⟩
      rcases firstFit_cases B bs s.heap_start with ⟨hno, -⟩ | ⟨pre, x, post, p1, p2, p3, -⟩
      · obtain ⟨y, hy, hyf⟩ := hfit
        exact absurd hyf (hno y hy)
      · exact ⟨pre, x, post, p1, p2, p3⟩
    | bf =>
      rw [call_bf fuel B s hloc]
      obtain ⟨r, ms, e, pre, x, post, p1, p2, -, p4, -⟩ := (bf_top s bs B fuel hok (by omega)).2 hfit
      exact ⟨r, s.next_block, e, Or.inr ⟨pre, x, post, p1, p2, p4⟩⟩
    | nf =>
      rw [call_nf fuel B s hloc]
      obtain ⟨pre, b, post, hbs, hq⟩ := (mem_headers_iff bs s.heap_start s.next_block).1 hcur
      subst hbs
      obtain ⟨t1, t2, -⟩ := nf_top s pre post b B fuel hok hq (by omega)
      by_cases hpost : ∃ x ∈ b :: post, Fits B x
      · obtain ⟨nb, e⟩ := t1 hpost
        refine ⟨_, nb, e, Or.inr ?_⟩
        rcases firstFit_cases B (b :: post) (s.heap_start + span pre) with
          ⟨hno, -⟩ | ⟨l, x, t, p1, p2, p3, -⟩
        · obtain ⟨y, hy, hyf⟩ := hpost
          exact absurd hyf (hno y hy)
        · exact ⟨pre ++ l, x, t, by rw [p1]; simp, by rw [p2, span_append]; omega, p3⟩
      · have hno : ∀ x ∈ b :: post, ¬ Fits B x := fun x hx hf => hpost ⟨x, hx, hf⟩
        have hpre : ∃ x ∈ pre, Fits B x := by
          obtain ⟨x, hx, hfx⟩ := hfit
          rcases List.mem_append.1 hx with hx | hx
          · exact ⟨x, hx, hfx⟩
          · exact absurd hfx (hno x hx)
        obtain ⟨nb, e⟩ := t2 hno hpre
        refine ⟨_, nb, e, Or.inr ?_⟩
        rcases firstFit_cases B pre s.heap_start with ⟨hno', -⟩ | ⟨l, x, t, p1, p2, p3, -⟩
        · obtain ⟨y, hy, hyf⟩ := hpre
          exact absurd hyf (hno' y hy)
        · exact ⟨l, x, t ++ b :: post, by rw [p1]; simp, p2, p3⟩
  · have hno : ∀ x ∈ bs, ¬ Fits B x := fun x hx hf => hfit ⟨x, hx, hf⟩
    refine ⟨0, s.next_block, ?_, Or.inl ⟨rfl, rfl, hno⟩⟩
    cases loc with
    | ff =>
      rw [call_ff fuel B s hloc]
      have h := ff_top s bs B fuel hok (by omega)
      rcases firstFit_cases B bs s.heap_start with ⟨-, h0⟩ | ⟨pre, x, post, p1, -, p3, -⟩
      · rw [h0] at h; exact h
      · exact absurd p3 (hno x (by rw [p1]; simp))
    | bf =>
      rw [call_bf fuel B s hloc]
      exact (bf_top s bs B fuel hok (by omega)).1 hno
    | nf =>
      rw [call_nf fuel B s hloc]
      obtain ⟨pre, b, post, hbs, hq⟩ := (mem_headers_iff bs s.heap_start s.next_block).1 hcur
      subst hbs
      exact (nf_top s pre post b B fuel hok hq (by omega)).2.2 hno

/-! ## Initialization -/

/-- A granted `ds_sbrk`. -/
theorem ds_sbrk_grant (d : DataSeg) (n : Nat) (h : d.brk + n ≤ d.limit) :
    ds_sbrk d n = (d.brk, { d with brk := d.brk + n }) := by
  unfold ds_sbrk; rw [if_pos h]

/-- The state a successful `mm_init` leaves. -/
theorem mm_init_eq (s : State) (ap : AllocationPolicy) (d hs he : Nat)
    (hap : ap ≠ .ap_Other)
    (hd : d ≠ 0) (hstart : s.ds.start = d) (hbrk : s.ds.brk = d)
    (hps : s.ds.pagesize ≠ 0) (hgrant : d + 4096 ≤ s.ds.limit) (hw : d + 4096 < W)
    (hhs : hs = (d + 8 + 31) / 32 * 32) (hhe : he = (d + 4096 - 8) / 32 * 32) :
    ∃ loc, (ap = .ap_FirstFit → loc = Locator.ff) ∧ (ap = .ap_NextFit → loc = Locator.nf) ∧
      (ap = .ap_BestFit → loc = Locator.bf) ∧ mm_init ap s = .ok ()
      { s with
        get_block := some loc
        ds_heap_start := d
        ds_heap_brk := d + 4096
        PAGESIZE := s.ds.pagesize
        ds := { s.ds with brk := d + 4096 }
        heap_start := hs
        heap_end := he
        mem := PUT (PUT (PUT (PUT s.mem (hs - 8) (PACK 0 ALLOC)) he (PACK 0 ALLOC)) hs
          (PACK (he - hs) FREE)) (he - 8) (PACK (he - hs) FREE)
        next_block := hs
        mm_initialized := 1 } := by
  obtain ⟨cW, cF, cA, cT, cB⟩ := consts
  have a1 : wadd d 8 = d + 8 := wadd_eq (by omega)
  have a2 : wadd (d + 8) 32 = d + 8 + 32 := wadd_eq (by omega)
  have a3 : wsub (d + 8 + 32) 1 = d + 8 + 31 := by rw [wsub_eq (by omega) (by omega)]; omega
  have a4 : wmul ((d + 8 + 31) / 32) 32 = (d + 8 + 31) / 32 * 32 := wmul_eq (by omega)
  have e1 : wmul (wsub (wadd (wadd d TYPE_SIZE) BS) 1 / BS) BS = hs := by
    show wmul (wsub (wadd (wadd d 8) 32) 1 / 32) 32 = hs
    rw [a1, a2, a3, a4, hhs]
  have a5 : wsub (d + 4096) 8 = d + 4096 - 8 := wsub_eq (by omega) (by omega)
  have a6 : wmul ((d + 4096 - 8) / 32) 32 = (d + 4096 - 8) / 32 * 32 := wmul_eq (by omega)
  have e2 : wmul (wsub (d + 4096) TYPE_SIZE / BS) BS = he := by
    show wmul (wsub (d + 4096) 8 / 32) 32 = he
    rw [a5, a6, hhe]
  have e3 : wsub hs TYPE_SIZE = hs - 8 := wsub_eq (by omega) (by omega)
  have e4 : wsub he hs = he - hs := wsub_eq (by omega) (by omega)
  have e5 : wsub he TYPE_SIZE = he - 8 := wsub_eq (by omega) (by omega)
  have g1 : ds_sbrk s.ds CHUNKSIZE = (d, { s.ds with brk := d + 4096 }) := by
    show ds_sbrk s.ds 4096 = _
    rw [ds_sbrk_grant s.ds 4096 (by omega), hbrk]
  have g2 : ds_sbrk { s.ds with brk := d + 4096 } 0 =
      (d + 4096, { s.ds with brk := d + 4096 }) := by
    rw [ds_sbrk_grant _ 0 (by simpa using hgrant)]
  have n1 : ¬ (d = W - 1) := by omega
  cases ap with
  | ap_Other => exact absurd rfl hap
  | ap_FirstFit =>
    refine ⟨.ff, fun _ => rfl, by simp, by simp, ?_⟩
    unfold mm_init
    dsimp only [ds_heap_stat, ds_getpagesize]
    rw [if_neg (by rw [hstart]; exact hd), if_neg (by rw [hstart, hbrk]; simp), if_neg hps]
    rw [g1]
    dsimp only
    rw [if_neg n1, g2]
    dsimp only
    rw [hstart, e1, e2, e3, e4, e5]
  | ap_NextFit =>
    refine ⟨.nf, by simp, fun _ => rfl, by simp, ?_⟩
    unfold mm_init
    dsimp only [ds_heap_stat, ds_getpagesize]
    rw [if_neg (by rw [hstart]; exact hd), if_neg (by rw [hstart, hbrk]; simp), if_neg hps]
    rw [g1]
    dsimp only
    rw [if_neg n1, g2]
    dsimp only
    rw [hstart, e1, e2, e3, e4, e5]
  | ap_BestFit =>
    refine ⟨.bf, by simp, by simp, fun _ => rfl, ?_⟩
    unfold mm_init
    dsimp only [ds_heap_stat, ds_getpagesize]
    rw [if_neg (by rw [hstart]; exact hd), if_neg (by rw [hstart, hbrk]; simp), if_neg hps]
    rw [g1]
    dsimp only
    rw [if_neg n1, g2]
    dsimp only
    rw [hstart, e1, e2, e3, e4, e5]

/-- The four stores of `mm_init`: two sentinels and the tags of one FREE block. -/
theorem four_puts (m : Nat → Nat) (hs he : Nat) (h8 : 8 ≤ hs) (hlt : hs + 16 ≤ he)
    (hz : (he - hs) % 8 = 0) (hw : he + 8 ≤ W) :
    GET (PUT (PUT (PUT (PUT m (hs - 8) (PACK 0 ALLOC)) he (PACK 0 ALLOC)) hs
      (PACK (he - hs) FREE)) (he - 8) (PACK (he - hs) FREE)) (hs - 8) = PACK 0 ALLOC ∧
    GET (PUT (PUT (PUT (PUT m (hs - 8) (PACK 0 ALLOC)) he (PACK 0 ALLOC)) hs
      (PACK (he - hs) FREE)) (he - 8) (PACK (he - hs) FREE)) he = PACK 0 ALLOC ∧
    GET (PUT (PUT (PUT (PUT m (hs - 8) (PACK 0 ALLOC)) he (PACK 0 ALLOC)) hs
      (PACK (he - hs) FREE)) (he - 8) (PACK (he - hs) FREE)) hs = PACK (he - hs) FREE ∧
    GET (PUT (PUT (PUT (PUT m (hs - 8) (PACK 0 ALLOC)) he (PACK 0 ALLOC)) hs
      (PACK (he - hs) FREE)) (he - 8) (PACK (he - hs) FREE)) (he - 8) = PACK (he - hs) FREE := by
  obtain ⟨cW, cF, cA, cT, -⟩ := consts
  have pk : PACK (he - hs) FREE < W := PACK_lt hz (by decide) (by omega)
  have pk0 : PACK 0 ALLOC < W := by decide
  refine ⟨?_, ?_, ?_, GET_PUT_same _ _ _ pk⟩
  · rw [GET_PUT_other _ _ _ _ (by omega), GET_PUT_other _ _ _ _ (by omega),
      GET_PUT_other _ _ _ _ (by omega), GET_PUT_same _ _ _ pk0]
  · rw [GET_PUT_other _ _ _ _ (by omega), GET_PUT_other _ _ _ _ (by omega),
      GET_PUT_same _ _ _ pk0]
  · rw [GET_PUT_other _ _ _ _ (by omega), GET_PUT_same _ _ _ pk]

/-- After a successful `mm_init` the heap is one FREE block between the two
sentinels, and the cursor is `heap_start`. -/
theorem mm_init_spec (s : State) (ap : AllocationPolicy) (d : Nat)
    (hap : ap ≠ .ap_Other) (hd : d ≠ 0) (hstart : s.ds.start = d) (hbrk : s.ds.brk = d)
    (hps : s.ds.pagesize ≠ 0) (hgrant : d + 4096 ≤ s.ds.limit) (hw : d + 4096 < W) :
    ∃ s', mm_init ap s = .ok () s' ∧ s'.ds = { s.ds with brk := d + 4096 } ∧
      s'.heap_start = (d + 8 + 31) / 32 * 32 ∧ s'.heap_end = (d + 4096 - 8) / 32 * 32 ∧
      s'.next_block = s'.heap_start ∧ s'.mm_initialized = 1 ∧
      (∃ loc, s'.get_block = some loc ∧ (ap = .ap_FirstFit → loc = Locator.ff) ∧
        (ap = .ap_NextFit → loc = Locator.nf) ∧ (ap = .ap_BestFit → loc = Locator.bf)) ∧
      HeapOK s' [(s'.heap_end - s'.heap_start, FREE)] := by
  obtain ⟨cW, cF, cA, cT, -⟩ := consts
  obtain ⟨loc, l1, l2, l3, heq⟩ := mm_init_eq s ap d _ _ hap hd hstart hbrk hps hgrant hw rfl rfl
  obtain ⟨hs, hhs⟩ : ∃ hs, hs = (d + 8 + 31) / 32 * 32 := ⟨_, rfl⟩
  obtain ⟨he, hhe⟩ : ∃ he, he = (d + 4096 - 8) / 32 * 32 := ⟨_, rfl⟩
  rw [← hhs, ← hhe] at heq
  obtain ⟨p1, p2, p3, p4⟩ := four_puts s.mem hs he (by omega) (by omega) (by omega) (by omega)
  refine ⟨_, heq, rfl, hhs, hhe, rfl, rfl, ⟨loc, rfl, l1, l2, l3⟩, ?_⟩
  refine ⟨by simp, ?_, ?_, ?_, p1, p2, ?_⟩
  · show 8 ≤ hs
    omega
  · show hs % 32 = 0
    omega
  · show he + 8 ≤ W
    omega
  · show Layout _ hs [(he - hs, FREE)] he
    refine ⟨?_, ?_, Or.inl rfl, p3, ?_, ?_⟩
    · show 32 ≤ he - hs
      omega
    · show (he - hs) % 32 = 0
      omega
    · show GET _ (hs + (he - hs) - 8) = _
      rw [show hs + (he - hs) - 8 = he - 8 by omega]
      exact p4
    · show hs + (he - hs) = he
      omega

/-! ## Coalescing on a block list -/

/-- Coalescing the FREE block of size `z` that follows the blocks `pre`. -/
theorem coalesce_layout_aux (s : State) (pre post : List (Nat × Nat)) (z A L R : Nat)
    (hA : s.heap_start + span pre = A) (hL : freeLast pre = L) (hR : freeHead post = R)
    (hok : HeapOK s (pre ++ (z, FREE) :: post)) :
    ∃ m', coalesce A s = .ok (A - L) { s with mem := m' } ∧
      GET m' (A - L) = PACK (L + z + R) FREE ∧
      GET m' (A + z + R - 8) = PACK (L + z + R) FREE ∧
      (L = 0 → R = 0 → m' = s.mem) ∧
      HeapOK { s with mem := m' } (coalesced pre z post) ∧
      (∀ a, (a < A - L ∨ A - L + 8 ≤ a) → (a < A ∨ A + 8 ≤ a) →
        (a < A + z + R - 8 ∨ A + z + R ≤ a) → m' a = s.mem a) ∧
      L ≤ span pre ∧ A + z + R ≤ s.heap_end := by
  obtain ⟨cW, cF, cA, cT, -⟩ := consts
  obtain ⟨h1, h2, h3, h4, h5, h6, h7⟩ := hok
  obtain ⟨hpre, hblk⟩ := (Layout_append s.mem pre ((z, FREE) :: post) s.heap_start s.heap_end).1 h7
  rw [hA] at hpre hblk
  obtain ⟨b1, b2, -, b4, b5, hpost⟩ := hblk
  simp only at b1 b2 b4 b5 hpost
  have hend := Layout_end hpost
  obtain ⟨nz, nst, n1, n2, n3, n4, n5⟩ := right_neighbour hpost h6
  obtain ⟨pz, pst, p1, p2, p3, p4, p5, p6, p7⟩ := left_neighbour hpre h5 h2
  rw [hL] at p5 p6 p7
  rw [hR] at n4 n5
  have hRle : R ≤ nz := by rcases n4 with ⟨_, _, h⟩ | ⟨_, h⟩ <;> omega
  have hLle : L ≤ pz := by rcases p5 with ⟨_, _, _, h⟩ | ⟨_, h⟩ <;> omega
  have hL32 : L % 32 = 0 := by rcases p5 with ⟨_, _, _, h⟩ | ⟨_, h⟩ <;> omega
  have hR32 : R % 32 = 0 := by rcases n4 with ⟨_, _, h⟩ | ⟨_, h⟩ <;> omega
  obtain ⟨m', k1, k2, k3, k4, k5, k6⟩ := coalesce_core s A z pz pst nz nst L R h1 p3 (by omega) b1
    (by omega) b4 b5 n1 (by omega) n4 p1 (by omega) p5
  clear n4 p5 n1 p1 b4 b5 h7 hpre hpost
  have hfr : ∀ a, (a < A - L ∨ A + z + R ≤ a) → m' a = s.mem a :=
    fun a ha => k4 a (by omega) (by omega) (by omega)
  refine ⟨m', k1, k2, k3, k5, ⟨h1, h2, h3, h4, ?_, ?_, ?_⟩, k4, by omega, by omega⟩
  · show GET m' (s.heap_start - 8) = _
    exact GET_of_frame h5 (fun a ha hb => hfr a (by omega))
  · show GET m' s.heap_end = _
    exact GET_of_frame h6 (fun a ha hb => hfr a (by omega))
  · show Layout m' s.heap_start (coalesced pre z post) s.heap_end
    unfold coalesced
    rw [hL, hR, Layout_append]
    have e3 : s.heap_start + span (dropFreeLast pre) = A - L := by omega
    have e4 : A - L + (L + z + R) = A + z + R := by omega
    have e5 : A - L + (L + z + R) - 8 = A + z + R - 8 := by omega
    rw [e3]
    refine ⟨Layout_frame p6 (fun a _ hb => hfr a (by omega)), ?_⟩
    refine ⟨by simp only; omega, by simp only; omega, Or.inl rfl, k2, ?_, ?_⟩
    · simp only [e5]; exact k3
    · simp only [e4]
      exact Layout_frame n5 (fun a ha _ => hfr a (by omega))

/-! ## The consistency check -/

/-- On a tiled range the walk visits exactly the headers of the blocks, and no
visited block has tags that differ. -/
theorem Walk_of_Layout {m : Nat → Nat} {he : Nat} (hw : he < W) :
    ∀ {bs : List (Nat × Nat)} {p : Nat}, Layout m p bs he →
      Walk m he p (headers p bs) he ∧ ∀ q ∈ headers p bs, ¬ TagsDiffer m q
  | [], p, h => by
    have hp : p = he := h
    subst hp
    exact ⟨Walk.done _ (by omega), by simp [headers]⟩
  | b :: bs, p, h => by
    obtain ⟨cW, cF, cA, cT, -⟩ := consts
    obtain ⟨k1, k2, k3, k4, k5⟩ := Layout_head h hw
    obtain ⟨h1, h2, h3, h4, h5, h6⟩ := h
    have hend := Layout_end h6
    obtain ⟨ih1, ih2⟩ := Walk_of_Layout hw h6
    have hs : SIZE (GET m p) = b.1 := k1
    constructor
    · rw [headers]
      refine Walk.step p _ he (by omega) (by rw [k1]; omega) ?_
      rw [k1, k3]
      exact ih1
    · intro q hq
      rw [headers, List.mem_cons] at hq
      rcases hq with rfl | hq
      · unfold TagsDiffer
        rw [hs, wadd_eq (by omega), wsub_eq (by omega) (by omega), h5]
        rw [h4] at hs ⊢
        simp [hs]
      · exact ih2 q hq

/-- The memory `place` leaves when it is given a block of size `z` at `A`. -/
theorem place_eq (A B z : Nat) (s : State) (hsz : GET_SIZE s.mem A = z) (hBz : B ≤ z)
    (hB : 8 ≤ B) (hw : A + z + 8 ≤ W) :
    place A B s = .ok (A + 8)
      { s with
        mem := if B < z then
            PUT (PUT (PUT (PUT s.mem (A + B) (PACK (z - B) FREE)) (A + z - 8) (PACK (z - B) FREE))
              A (PACK B ALLOC)) (A + B - 8) (PACK B ALLOC)
          else PUT (PUT s.mem A (PACK B ALLOC)) (A + B - 8) (PACK B ALLOC) } := by
  obtain ⟨cW, cF, cA, cT, -⟩ := consts
  have w1 : wadd A TYPE_SIZE = A + 8 := wadd_eq (by omega)
  have w2 : wsub (wadd A B) TYPE_SIZE = A + B - 8 := by
    rw [wadd_eq (by omega), wsub_eq (by omega) (by omega)]
  have w3 : wadd A B = A + B := wadd_eq (by omega)
  have w4 : wsub z B = z - B := wsub_eq hBz (by omega)
  have w6 : A + B + (z - B) = A + z := by omega
  have w5 : wsub (wadd (A + B) (z - B)) TYPE_SIZE = A + z - 8 := by
    rw [wadd_eq (by omega), w6, wsub_eq (by omega) (by omega)]
  have w7 : wsub (A + B) TYPE_SIZE = A + B - 8 := wsub_eq (by omega) (by omega)
  unfold place
  by_cases h : B < z
  · simp only [hsz, w1, w3, w4, w5, w7, h, if_true]
  · simp only [hsz, w1, w3, w4, w5, w7, h, if_false]

/-- The four stores of `place` when it splits. -/
theorem place_split_words (m : Nat → Nat) (A B z : Nat) (hB : 32 ≤ B) (hB8 : B % 8 = 0)
    (hz8 : z % 8 = 0) (hBz : B + 32 ≤ z) (hw : A + z + 8 ≤ W) :
    GET (PUT (PUT (PUT (PUT m (A + B) (PACK (z - B) FREE)) (A + z - 8) (PACK (z - B) FREE))
      A (PACK B ALLOC)) (A + B - 8) (PACK B ALLOC)) A = PACK B ALLOC ∧
    GET (PUT (PUT (PUT (PUT m (A + B) (PACK (z - B) FREE)) (A + z - 8) (PACK (z - B) FREE))
      A (PACK B ALLOC)) (A + B - 8) (PACK B ALLOC)) (A + B - 8) = PACK B ALLOC ∧
    GET (PUT (PUT (PUT (PUT m (A + B) (PACK (z - B) FREE)) (A + z - 8) (PACK (z - B) FREE))
      A (PACK B ALLOC)) (A + B - 8) (PACK B ALLOC)) (A + B) = PACK (z - B) FREE ∧
    GET (PUT (PUT (PUT (PUT m (A + B) (PACK (z - B) FREE)) (A + z - 8) (PACK (z - B) FREE))
      A (PACK B ALLOC)) (A + B - 8) (PACK B ALLOC)) (A + z - 8) = PACK (z - B) FREE ∧
    ∀ a, (a < A ∨ A + 8 ≤ a) → (a < A + B - 8 ∨ A + B + 8 ≤ a) → (a < A + z - 8 ∨ A + z ≤ a) →
      PUT (PUT (PUT (PUT m (A + B) (PACK (z - B) FREE)) (A + z - 8) (PACK (z - B) FREE))
        A (PACK B ALLOC)) (A + B - 8) (PACK B ALLOC) a = m a := by
  obtain ⟨cW, cF, cA, cT, -⟩ := consts
  have pk : PACK B ALLOC < W := PACK_lt hB8 (by omega) (by omega)
  have pk2 : PACK (z - B) FREE < W := PACK_lt (by omega) (by omega) (by omega)
  refine ⟨?_, GET_PUT_same _ _ _ pk, ?_, ?_, ?_⟩
  · rw [GET_PUT_other _ _ _ _ (by omega), GET_PUT_same _ _ _ pk]
  · rw [GET_PUT_other _ _ _ _ (by omega), GET_PUT_other _ _ _ _ (by omega),
      GET_PUT_other _ _ _ _ (by omega), GET_PUT_same _ _ _ pk2]
  · rw [GET_PUT_other _ _ _ _ (by omega), GET_PUT_other _ _ _ _ (by omega),
      GET_PUT_same _ _ _ pk2]
  · intro a h1 h2 h3
    rw [PUT_other _ _ _ _ (by omega), PUT_other _ _ _ _ (by omega),
      PUT_other _ _ _ _ (by omega), PUT_other _ _ _ _ (by omega)]

/-- The two stores of `place` when it takes the whole block. -/
theorem place_whole_words (m : Nat → Nat) (A B : Nat) (hB : 32 ≤ B) (hB8 : B % 8 = 0)
    (hw : A + B + 8 ≤ W) :
    GET (PUT (PUT m A (PACK B ALLOC)) (A + B - 8) (PACK B ALLOC)) A = PACK B ALLOC ∧
    GET (PUT (PUT m A (PACK B ALLOC)) (A + B - 8) (PACK B ALLOC)) (A + B - 8) = PACK B ALLOC ∧
    ∀ a, (a < A ∨ A + 8 ≤ a) → (a < A + B - 8 ∨ A + B ≤ a) →
      PUT (PUT m A (PACK B ALLOC)) (A + B - 8) (PACK B ALLOC) a = m a := by
  obtain ⟨cW, cF, cA, cT, -⟩ := consts
  have pk : PACK B ALLOC < W := PACK_lt hB8 (by omega) (by omega)
  refine ⟨?_, GET_PUT_same _ _ _ pk, ?_⟩
  · rw [GET_PUT_other _ _ _ _ (by omega), GET_PUT_same _ _ _ pk]
  · intro a h1 h2
    rw [PUT_other _ _ _ _ (by omega), PUT_other _ _ _ _ (by omega)]

/-- Placing a request of block size `B` into the FREE block of size `z` that
follows the blocks `pre`: the heap stays well formed, the block is replaced by
`placed B z`, and only tag words inside the chosen block are written. -/
theorem place_layout (s : State) (pre post : List (Nat × Nat)) (z B A : Nat)
    (hA : s.heap_start + span pre = A) (hok : HeapOK s (pre ++ (z, FREE) :: post))
    (hB : 32 ≤ B) (hB32 : B % 32 = 0) (hBz : B ≤ z) :
    ∃ m', place A B s = .ok (A + 8) { s with mem := m' } ∧
      HeapOK { s with mem := m' } (pre ++ (placed B z ++ post)) ∧
      GET m' A = PACK B ALLOC ∧ GET m' (A + B - 8) = PACK B ALLOC ∧
      (∀ a, (a < A ∨ A + 8 ≤ a) → (a < A + B - 8 ∨ A + B + 8 ≤ a) →
        (a < A + z - 8 ∨ A + z ≤ a) → m' a = s.mem a) ∧
      A + z ≤ s.heap_end := by
  obtain ⟨cW, cF, cA, cT, -⟩ := consts
  obtain ⟨h1, h2, h3, h4, h5, h6, h7⟩ := hok
  obtain ⟨hpre, hblk⟩ := (Layout_append s.mem pre ((z, FREE) :: post) s.heap_start s.heap_end).1 h7
  rw [hA] at hpre hblk
  obtain ⟨b1, b2, -, b4, b5, hpost⟩ := hblk
  simp only at b1 b2 b4 b5 hpost
  have hend := Layout_end hpost
  have hsz : GET_SIZE s.mem A = z := GET_SIZE_PACK b4 (by omega) (by omega) (by omega)
  have heq := place_eq A B z s hsz hBz (by omega) (by omega)
  clear h7 b4 b5
  by_cases hlt : B < z
  · rw [if_pos hlt] at heq
    obtain ⟨q1, q2, q3, q4, q5⟩ := place_split_words s.mem A B z hB (by omega) (by omega)
      (by omega) (by omega)
    refine ⟨_, heq, ⟨h1, h2, h3, h4, ?_, ?_, ?_⟩, q1, q2, q5, by omega⟩
    · show GET _ (s.heap_start - 8) = _
      exact GET_of_frame h5 (fun a ha hb => q5 a (by omega) (by omega) (by omega))
    · show GET _ s.heap_end = _
      exact GET_of_frame h6 (fun a ha hb => q5 a (by omega) (by omega) (by omega))
    · show Layout _ s.heap_start (pre ++ (placed B z ++ post)) s.heap_end
      rw [Layout_append, hA]
      refine ⟨Layout_frame hpre (fun a _ hb => q5 a (by omega) (by omega) (by omega)), ?_⟩
      unfold placed
      rw [if_pos hlt]
      refine ⟨hB, hB32, Or.inr rfl, q1, q2, ?_⟩
      refine ⟨by simp only; omega, by simp only; omega, Or.inl rfl, q3, ?_, ?_⟩
      · have e : A + B + (z - B) - 8 = A + z - 8 := by omega
        simp only [e]
        exact q4
      · have e : A + B + (z - B) = A + z := by omega
        simp only [e]
        exact Layout_frame hpost (fun a ha _ => q5 a (by omega) (by omega) (by omega))
  · rw [if_neg hlt] at heq
    have hzB : z = B := by omega
    subst hzB
    obtain ⟨q1, q2, q5⟩ := place_whole_words s.mem A z hB (by omega) (by omega)
    refine ⟨_, heq, ⟨h1, h2, h3, h4, ?_, ?_, ?_⟩, q1, q2,
      fun a x1 x2 x3 => q5 a x1 (by omega), by omega⟩
    · show GET _ (s.heap_start - 8) = _
      exact GET_of_frame h5 (fun a ha hb => q5 a (by omega) (by omega))
    · show GET _ s.heap_end = _
      exact GET_of_frame h6 (fun a ha hb => q5 a (by omega) (by omega))
    · show Layout _ s.heap_start (pre ++ (placed z z ++ post)) s.heap_end
      rw [Layout_append, hA]
      refine ⟨Layout_frame hpre (fun a _ hb => q5 a (by omega) (by omega)), ?_⟩
      unfold placed
      rw [if_neg hlt]
      refine ⟨hB, hB32, Or.inr rfl, q1, q2, ?_⟩
      exact Layout_frame hpost (fun a ha _ => q5 a (by omega) (by omega))

/-! ## The block list after allocation -/

/-- A hit: `mm_malloc` places the request in the FREE block the locator returned. -/
theorem mm_malloc_hit (s : State) (pre post : List (Nat × Nat)) (z n B fuel nb : Nat)
    (hok : HeapOK s (pre ++ (z, FREE) :: post))
    (hB : ROUND_UP (wadd (wadd TYPE_SIZE n) TYPE_SIZE) = B) (hB32 : B % 32 = 0) (hBge : 32 ≤ B)
    (hBz : B ≤ z)
    (hget : call_get_block fuel B s = .ok (s.heap_start + span pre) { s with next_block := nb }) :
    ∃ m', mm_malloc fuel n s =
        .ok (s.heap_start + span pre + 8) { s with next_block := nb, mem := m' } ∧
      HeapOK { s with next_block := nb, mem := m' } (pre ++ (placed B z ++ post)) ∧
      GET m' (s.heap_start + span pre) = PACK B ALLOC ∧
      GET m' (s.heap_start + span pre + B - 8) = PACK B ALLOC ∧
      (∀ a, (a < s.heap_start + span pre ∨ s.heap_start + span pre + 8 ≤ a) →
        (a < s.heap_start + span pre + B - 8 ∨ s.heap_start + span pre + B + 8 ≤ a) →
        (a < s.heap_start + span pre + z - 8 ∨ s.heap_start + span pre + z ≤ a) →
        m' a = s.mem a) ∧
      s.heap_start + span pre + z ≤ s.heap_end := by
  have hok' : HeapOK { s with next_block := nb } (pre ++ (z, FREE) :: post) := hok
  obtain ⟨m', q1, q2, q3, q4, q5, q6⟩ :=
    place_layout { s with next_block := nb } pre post z B _ rfl hok' hBge hB32 hBz
  have hr : s.heap_start + span pre ≠ 0 := by have := hok.2.1; omega
  refine ⟨m', ?_, q2, q3, q4, q5, q6⟩
  unfold mm_malloc
  rw [if_neg hok.1, hB]
  simp only [hget, if_neg hr]
  exact q1

/-- What the active locator returns on a well-formed heap (under next fit: with
the cursor on a block header): not-found when nothing fits, the header of a
FREE block that is large enough otherwise. -/
theorem locator_outcome (s : State) (bs : List (Nat × Nat)) (B fuel : Nat) (loc : Locator)
    (hok : HeapOK s bs) (hloc : s.get_block = some loc)
    (hcur : loc = .nf → s.next_block ∈ headers s.heap_start bs)
    (hfuel : 2 * bs.length + 1 ≤ fuel) :
    ∃ r nb, call_get_block fuel B s = .ok r { s with next_block := nb } ∧
      ((r = 0 ∧ nb = s.next_block ∧ ∀ x ∈ bs, ¬ Fits B x) ∨
        (∃ pre z post, bs = pre ++ (z, FREE) :: post ∧ r = s.heap_start + span pre ∧ B ≤ z)) := by
  have key : (∃ r nb, call_get_block fuel B s = .ok r { s with next_block := nb } ∧
      ((r = 0 ∧ nb = s.next_block ∧ ∀ x ∈ bs, ¬ Fits B x) ∨
        (∃ pre x post, bs = pre ++ x :: post ∧ r = s.heap_start + span pre ∧ Fits B x))) := by
    cases loc with
    | nf => exact locator_result s bs B fuel .nf hok hloc (hcur rfl) hfuel
    | ff =>
      rw [call_ff fuel B s hloc]
      have h := ff_top s bs B fuel hok (by omega)
      rcases firstFit_cases B bs s.heap_start with ⟨hno, h0⟩ | ⟨pre, x, post, p1, p2, p3, -⟩
      · rw [h0] at h
        exact ⟨0, s.next_block, h, Or.inl ⟨rfl, rfl, hno⟩⟩
      · exact ⟨_, s.next_block, h, Or.inr ⟨pre, x, post, p1, p2, p3⟩⟩
    | bf =>
      rw [call_bf fuel B s hloc]
      by_cases hfit : ∃ x ∈ bs, Fits B x
      · obtain ⟨r, ms, e, pre, x, post, p1, p2, -, p4, -⟩ :=
          (bf_top s bs B fuel hok (by omega)).2 hfit
        exact ⟨r, s.next_block, e, Or.inr ⟨pre, x, post, p1, p2, p4⟩⟩
      · have hno : ∀ x ∈ bs, ¬ Fits B x := fun x hx hf => hfit ⟨x, hx, hf⟩
        exact ⟨0, s.next_block, (bf_top s bs B fuel hok (by omega)).1 hno,
          Or.inl ⟨rfl, rfl, hno⟩⟩
  obtain ⟨r, nb, h1, h2⟩ := key
  refine ⟨r, nb, h1, ?_⟩
  rcases h2 with h2 | ⟨pre, x, post, p1, p2, p3⟩
  · exact Or.inl h2
  · obtain ⟨z, st⟩ := x
    obtain ⟨f1, f2⟩ := p3
    simp only at f1 f2
    subst f1
    exact Or.inr ⟨pre, z, post, p1, p2, f2⟩

/-! ## Payload bytes -/

/-- A tiling survives every change of bytes that lie strictly between the
header word and the footer word of one of its blocks. -/
theorem Layout_payload_frame {m m' : Nat → Nat} {hs he : Nat} {pre post : List (Nat × Nat)}
    {b : Nat × Nat} (hl : Layout m hs (pre ++ b :: post) he)
    (hfr : ∀ a, (a < hs + span pre + 8 ∨ hs + span pre + b.1 - 8 ≤ a) → m' a = m a) :
    Layout m' hs (pre ++ b :: post) he := by
  obtain ⟨hpre, hblk⟩ := (Layout_append m pre (b :: post) hs he).1 hl
  obtain ⟨b1, b2, b3, b4, b5, hpost⟩ := hblk
  rw [Layout_append]
  refine ⟨Layout_frame hpre (fun a _ hb => hfr a (by omega)), b1, b2, b3, ?_, ?_, ?_⟩
  · exact GET_of_frame b4 (fun a ha hb => hfr a (by omega))
  · exact GET_of_frame b5 (fun a ha hb => hfr a (by omega))
  · exact Layout_frame hpost (fun a ha _ => hfr a (by omega))

/-- Well-formedness survives every change of bytes strictly inside one payload. -/
theorem HeapOK_payload_frame (s : State) (m' : Nat → Nat) (pre post : List (Nat × Nat))
    (b : Nat × Nat) (hok : HeapOK s (pre ++ b :: post))
    (hfr : ∀ a, (a < s.heap_start + span pre + 8 ∨ s.heap_start + span pre + b.1 - 8 ≤ a) →
      m' a = s.mem a) :
    HeapOK { s with mem := m' } (pre ++ b :: post) := by
  obtain ⟨h1, h2, h3, h4, h5, h6, h7⟩ := hok
  obtain ⟨hpre, hblk⟩ := (Layout_append s.mem pre (b :: post) s.heap_start s.heap_end).1 h7
  have hend := Layout_end hblk.2.2.2.2.2
  have hb := hblk.1
  refine ⟨h1, h2, h3, h4, ?_, ?_, Layout_payload_frame h7 hfr⟩
  · show GET m' (s.heap_start - 8) = _
    exact GET_of_frame h5 (fun a ha hb => hfr a (by omega))
  · show GET m' s.heap_end = _
    exact GET_of_frame h6 (fun a ha hb => hfr a (by omega))

/-! ## The cursor -/

/-- The cursor after the next-fit loop: left alone on a miss; after a hit on
the block `r`, the address after `r` when that is below `heap_end`, and
`heap_start` otherwise. -/
theorem nf_loop_cursor (s : State) (size : Nat) :
    ∀ (fuel block cnt r : Nat) (s' : State), nf_loop s size fuel block cnt = .ok r s' →
      (r = 0 ∧ s' = s) ∨
        (GET_STATUS s.mem r = FREE ∧ size ≤ GET_SIZE s.mem r ∧
          s' = { s with
            next_block := if wadd r (GET_SIZE s.mem r) < s.heap_end
              then wadd r (GET_SIZE s.mem r) else s.heap_start })
  | 0, block, cnt, r, s', h => by simp [nf_loop] at h
  | fuel + 1, block, cnt, r, s', h => by
    unfold nf_loop at h
    dsimp only at h
    by_cases hfit : GET_STATUS s.mem block = FREE ∧ GET_SIZE s.mem block ≥ size
    · rw [if_pos hfit] at h
      by_cases hlt : wadd block (GET_SIZE s.mem block) < s.heap_end
      · rw [if_pos hlt] at h
        injection h with h1 h2
        subst h1
        right
        exact ⟨hfit.1, hfit.2, by rw [if_pos hlt]; exact h2.symm⟩
      · rw [if_neg hlt] at h
        injection h with h1 h2
        subst h1
        right
        exact ⟨hfit.1, hfit.2, by rw [if_neg hlt]; exact h2.symm⟩
    · rw [if_neg hfit] at h
      by_cases hc : (if GET_SIZE s.mem (NEXT_BLOCK s.mem block) = 0 then cnt + 1 else cnt) = 2
      · rw [if_pos hc] at h
        injection h with h1 h2
        exact Or.inl ⟨h1.symm, h2.symm⟩
      · rw [if_neg hc] at h
        exact nf_loop_cursor s size fuel _ _ r s' h

/-- A returning `coalesce` changes heap bytes only. -/
theorem coalesce_globals (A : Nat) (s s' : State) (r : Nat) (h : coalesce A s = .ok r s') :
    ∃ m', s' = { s with mem := m' } := by
  unfold coalesce at h
  by_cases h1 : s.mm_initialized = 0
  · rw [if_pos h1] at h; cases h
  · rw [if_neg h1] at h
    by_cases h2 : GET_STATUS s.mem A ≠ FREE
    · rw [if_pos h2] at h; cases h
    · rw [if_neg h2] at h
      dsimp only at h
      injection h with _ h'
      exact ⟨_, h'.symm⟩

/-- A returning `mm_free` changes heap bytes only: the cursor, the heap bounds
and the provider are as before. -/
theorem mm_free_globals (ptr : Nat) (s s' : State) (h : mm_free ptr s = .ok () s') :
    ∃ m', s' = { s with mem := m' } := by
  unfold mm_free at h
  by_cases h1 : s.mm_initialized = 0
  · rw [if_pos h1] at h; cases h
  · rw [if_neg h1] at h
    by_cases h2 : GET_STATUS s.mem (wsub ptr TYPE_SIZE) ≠ ALLOC
    · rw [if_pos h2] at h
      injection h with _ h'
      exact ⟨s.mem, h'.symm⟩
    · rw [if_neg h2] at h
      dsimp only at h
      split at h
      · cases h
      · rename_i r t hc
        injection h with _ h'
        obtain ⟨m', hm'⟩ := coalesce_globals _ _ _ _ hc
        exact ⟨m', by rw [← h', hm']⟩

/-- The first-fit loop returns the state it was given. -/
theorem ff_loop_state (s : State) (size : Nat) :
    ∀ (fuel p r : Nat) (s' : State), ff_loop s size fuel p = .ok r s' → s' = s
  | 0, p, r, s', h => by simp [ff_loop] at h
  | fuel + 1, p, r, s', h => by
    unfold ff_loop at h
    dsimp only at h
    split at h
    · injection h with _ h'; exact h'.symm
    · split at h
      · exact ff_loop_state s size fuel _ r s' h
      · injection h with _ h'; exact h'.symm

/-- Under first fit and best fit a returning locator returns the state it was given. -/
theorem call_get_block_state (fuel B : Nat) (s s' : State) (r : Nat) (loc : Locator)
    (hloc : s.get_block = some loc) (hpol : loc ≠ .nf)
    (h : call_get_block fuel B s = .ok r s') : s' = s := by
  cases loc with
  | nf => exact absurd rfl hpol
  | ff =>
    rw [call_ff fuel B s hloc] at h
    unfold ff_get_free_block at h
    split at h
    · cases h
    · exact ff_loop_state s B fuel _ r s' h
  | bf =>
    rw [call_bf fuel B s hloc] at h
    unfold bf_get_free_block at h
    split at h
    · cases h
    · split at h
      · cases h
      · split at h
        · cases h
        · injection h with _ h'; exact h'.symm

/-- A returning `place` changes heap bytes only. -/
theorem place_globals (block B : Nat) (s s' : State) (r : Nat) (h : place block B s = .ok r s') :
    ∃ m', s' = { s with mem := m' } := by
  obtain ⟨m', hm'⟩ := place_fields block B s
  rw [hm'] at h
  injection h with _ h'
  exact ⟨m', h'.symm⟩

/-- A returning `expand_heap` leaves the cursor and `heap_start` alone. -/
theorem expand_heap_globals (B : Nat) (s s' : State) (r : Nat) (h : expand_heap B s = .ok r s') :
    s'.next_block = s.next_block ∧ s'.heap_start = s.heap_start ∧
      s'.get_block = s.get_block ∧ s'.mm_initialized = s.mm_initialized := by
  unfold expand_heap at h
  dsimp only at h
  split at h
  · cases h
  · unfold grow_heap at h
    dsimp only at h
    obtain ⟨m', hm'⟩ := coalesce_globals _ _ _ _ h
    rw [hm']
    exact ⟨rfl, rfl, rfl, rfl⟩

/-- Under first fit and best fit `mm_malloc` and `mm_free` never move the
cursor: it stays where `mm_init` put it, at `heap_start`. -/
theorem cursor_fixed_ff_bf (s : State) (loc : Locator) (hloc : s.get_block = some loc)
    (hpol : loc ≠ .nf) :
    (∀ fuel n h s', mm_malloc fuel n s = .ok h s' →
      s'.next_block = s.next_block ∧ s'.heap_start = s.heap_start ∧
        s'.get_block = s.get_block) ∧
    (∀ ptr s', mm_free ptr s = .ok () s' →
      s'.next_block = s.next_block ∧ s'.heap_start = s.heap_start ∧
        s'.heap_end = s.heap_end ∧ s'.get_block = s.get_block) := by
  constructor
  · intro fuel n h s' hm
    unfold mm_malloc at hm
    split at hm
    · cases hm
    · dsimp only at hm
      split at hm
      · cases hm
      · rename_i block s1 hget
        have e1 := call_get_block_state _ _ _ _ _ loc hloc hpol hget
        subst e1
        split at hm
        · split at hm
          · cases hm
          · rename_i b2 s2 he
            obtain ⟨g1, g2, g3, -⟩ := expand_heap_globals _ _ _ _ he
            obtain ⟨m', hm'⟩ := place_globals _ _ _ _ _ hm
            rw [hm']
            exact ⟨g1, g2, g3⟩
        · obtain ⟨m', hm'⟩ := place_globals _ _ _ _ _ hm
          rw [hm']
          exact ⟨rfl, rfl, rfl⟩
  · intro ptr s' hf
    obtain ⟨m', hm'⟩ := mm_free_globals ptr s s' hf
    rw [hm']
    exact ⟨rfl, rfl, rfl, rfl⟩

/-- The state after `ds_sbrk(size); ds_sbrk(0)`: the break is as before or
higher, never above the limit. -/
theorem grow_heap_end (size : Nat) (s s' : State) (r : Nat) (h : grow_heap size s = .ok r s')
    (hbrk : 8 ≤ s.ds.brk) (hle : s.ds.brk ≤ s.ds.limit) (hlim : s.ds.limit < W) :
    s.ds.brk ≤ s'.ds.brk ∧ s'.ds.brk ≤ s'.ds.limit ∧ s'.ds.limit = s.ds.limit ∧
      s'.heap_end = (s'.ds.brk - 8) / 32 * 32 := by
  obtain ⟨cW, cF, cA, cT, cB⟩ := consts
  unfold grow_heap at h
  dsimp only at h
  obtain ⟨m', hm'⟩ := coalesce_globals _ _ _ _ h
  rw [hm']
  clear h hm'
  by_cases hg : s.ds.brk + size ≤ s.ds.limit
  · have e1 : ds_sbrk s.ds size = (s.ds.brk, { s.ds with brk := s.ds.brk + size }) :=
      ds_sbrk_grant s.ds size hg
    have e2 : ds_sbrk { s.ds with brk := s.ds.brk + size } 0 =
        (s.ds.brk + size, { s.ds with brk := s.ds.brk + size }) :=
      ds_sbrk_grant _ 0 (by simpa using hg)
    simp only [e1, e2]
    refine ⟨by omega, hg, trivial, ?_⟩
    show wmul (wsub (s.ds.brk + size) 8 / 32) 32 = (s.ds.brk + size - 8) / 32 * 32
    rw [wsub_eq (by omega) (by omega), wmul_eq (by omega)]
  · have e1 : ds_sbrk s.ds size = (W - 1, s.ds) := by
      unfold ds_sbrk; rw [if_neg hg]
    have e2 : ds_sbrk s.ds 0 = (s.ds.brk, { s.ds with brk := s.ds.brk + 0 }) :=
      ds_sbrk_grant s.ds 0 (by omega)
    simp only [e1, e2]
    refine ⟨by omega, by omega, trivial, ?_⟩
    show wmul (wsub s.ds.brk 8 / 32) 32 = (s.ds.brk + 0 - 8) / 32 * 32
    rw [wsub_eq (by omega) (by omega), wmul_eq (by omega)]
    rfl

/-- Under first fit and best fit the cursor stays inside the heap: `mm_init`
puts it there, and every returning `mm_malloc` and `mm_free`, whatever their
arguments, keep it there. -/
theorem cursor_in_range_ff_bf :
    (∀ (s : State) (ap : AllocationPolicy), ap ≠ .ap_Other → s.ds.start ≠ 0 →
      s.ds.start = s.ds.brk → s.ds.pagesize ≠ 0 → s.ds.brk + 4096 ≤ s.ds.limit →
      s.ds.limit < W → CursorOK (mm_init ap s).state) ∧
    (∀ (s : State) (loc : Locator), s.get_block = some loc → loc ≠ .nf → CursorOK s →
      (∀ fuel n h s', mm_malloc fuel n s = .ok h s' → CursorOK s' ∧ s'.get_block = some loc) ∧
      (∀ ptr s', mm_free ptr s = .ok () s' → CursorOK s' ∧ s'.get_block = some loc)) := by
  obtain ⟨cW, cF, cA, cT, cB⟩ := consts
  constructor
  · intro s ap hap hd hclean hps hgrant hlim
    obtain ⟨s', h1, h2, h3, h4, h5, -, -, -⟩ :=
      mm_init_spec s ap s.ds.start hap hd rfl hclean.symm hps (by omega) (by omega)
    rw [h1]
    show CursorOK s'
    refine ⟨by rw [h5], by rw [h5, h3, h4]; omega, ?_, ?_, ?_, ?_⟩
    · rw [h4, h2]
    · rw [h2]; show 8 ≤ s.ds.start + 4096; omega
    · rw [h2]; show s.ds.start + 4096 ≤ s.ds.limit; omega
    · rw [h2]; exact hlim
  · intro s loc hloc hpol hinv
    obtain ⟨i1, i2, i3, i4, i5, i6⟩ := hinv
    constructor
    · intro fuel n h s' hm
      obtain ⟨c1, c2, c3⟩ := (cursor_fixed_ff_bf s loc hloc hpol).1 fuel n h s' hm
      refine ⟨?_, by rw [c3, hloc]⟩
      unfold mm_malloc at hm
      split at hm
      · cases hm
      · dsimp only at hm
        split at hm
        · cases hm
        · rename_i block s1 hget
          have e1 := call_get_block_state _ _ _ _ _ loc hloc hpol hget
          subst e1
          split at hm
          · split at hm
            · cases hm
            · rename_i b2 s2 he
              obtain ⟨m', hm'⟩ := place_globals _ _ _ _ _ hm
              unfold expand_heap at he
              dsimp only at he
              split at he
              · cases he
              · obtain ⟨g1, g2, g3, g4⟩ := grow_heap_end _ _ _ _ he i4 i5 i6
                have q1 : s'.ds = s2.ds := by rw [hm']
                have q2 : s'.heap_end = s2.heap_end := by rw [hm']
                refine ⟨by omega, ?_, by rw [q1, q2, g4], by rw [q1]; omega, by rw [q1]; omega,
                  by rw [q1, g3]; exact i6⟩
                rw [q2, g4]
                omega
          · obtain ⟨m', hm'⟩ := place_globals _ _ _ _ _ hm
            rw [hm']
            exact ⟨i1, i2, i3, i4, i5, i6⟩
    · intro ptr s' hf
      obtain ⟨m', hm'⟩ := mm_free_globals ptr s s' hf
      rw [hm']
      exact ⟨⟨i1, i2, i3, i4, i5, i6⟩, hloc⟩
/-- The page-rounded size `expand_heap` computes when the sum stays inside 64 bits. -/
theorem expand_size_le (x ps : Nat) (hx : 0 < x) (hps : 0 < ps) (h32 : ps % 32 = 0)
    (hw : x + ps ≤ W) :
    wmul (wsub (wadd x ps) 1 / ps) ps = (x + ps - 1) / ps * ps := by
  obtain ⟨cW, -⟩ := consts
  by_cases hlt : x + ps < W
  · exact expand_size x ps hx hps h32 hlt
  · have he : x + ps = W := by omega
    have e1 : wadd x ps = 0 := by unfold wadd; rw [he]; exact Nat.mod_self W
    have e2 : wsub 0 1 = W - 1 := by decide
    have e3 : x + ps - 1 = W - 1 := by omega
    have e4 : (W - 1) / ps * ps ≤ W - 1 := Nat.div_mul_le_self _ _
    rw [e1, e2, e3, wmul_eq (by omega)]

/-- When the sum wraps, `expand_heap` asks the provider for 0 bytes. -/
theorem expand_wrap (x ps : Nat) (hx : x < W) (hps : ps < W) (hw : W < x + ps) :
    wmul (wsub (wadd x ps) 1 / ps) ps = 0 := by
  obtain ⟨cW, -⟩ := consts
  have e1 : wadd x ps = x + ps - W := by
    unfold wadd
    rw [Nat.mod_eq_sub_mod (by omega), Nat.mod_eq_of_lt (by omega)]
  have e2 : wsub (x + ps - W) 1 = x + ps - W - 1 := wsub_eq (by omega) (by omega)
  have e3 : (x + ps - W - 1) / ps = 0 := Nat.div_eq_of_lt (by omega)
  rw [e1, e2, e3]
  unfold wmul
  simp

/-- When the break does not move, `grow_heap` writes the end sentinel last and
stops at the assertion of `coalesce`. -/
theorem grow_heap_stuck (s : State) (size : Nat) (hinit : s.mm_initialized ≠ 0)
    (hsame : ¬ (s.ds.brk + size ≤ s.ds.limit) ∨ size = 0)
    (hbrk : 8 ≤ s.ds.brk) (hhe : s.heap_end = (s.ds.brk - 8) / 32 * 32)
    (hle : s.ds.brk ≤ s.ds.limit) (hlim : s.ds.limit < W) :
    ∃ s', grow_heap size s = .fail .assertion s' := by
  obtain ⟨cW, cF, cA, cT, cB⟩ := consts
  have hnew : wmul (wsub s.ds.brk 8 / 32) 32 = s.heap_end := by
    rw [wsub_eq (by omega) (by omega), wmul_eq (by omega), hhe]
  have hnew0 : wmul (wsub (s.ds.brk + 0) 8 / 32) 32 = s.heap_end := hnew
  have pk0 : PACK 0 ALLOC < W := by decide
  have hst : ∀ m : Nat → Nat, GET_STATUS (PUT m s.heap_end (PACK 0 ALLOC)) s.heap_end ≠ FREE := by
    intro m
    unfold GET_STATUS
    rw [GET_PUT_same _ _ _ pk0]
    decide
  have e0 : ds_sbrk s.ds 0 = (s.ds.brk, { s.ds with brk := s.ds.brk + 0 }) :=
    ds_sbrk_grant s.ds 0 (by omega)
  have e00 : ds_sbrk { s.ds with brk := s.ds.brk + 0 } 0 =
      (s.ds.brk + 0, { s.ds with brk := s.ds.brk + 0 + 0 }) :=
    ds_sbrk_grant _ 0 (by show s.ds.brk + 0 + 0 ≤ s.ds.limit; omega)
  unfold grow_heap
  rcases hsame with hr | hz
  · have e1 : ds_sbrk s.ds size = (W - 1, s.ds) := by unfold ds_sbrk; rw [if_neg hr]
    simp only [e1, e0]
    show ∃ s', coalesce s.heap_end _ = _
    rw [show wmul (wsub s.ds.brk TYPE_SIZE / BS) BS = s.heap_end from hnew]
    unfold coalesce
    rw [if_neg hinit, if_pos (hst _)]
    exact ⟨_, rfl⟩
  · subst hz
    simp only [e0, e00]
    show ∃ s', coalesce s.heap_end _ = _
    rw [show wmul (wsub (s.ds.brk + 0) TYPE_SIZE / BS) BS = s.heap_end from hnew0]
    unfold coalesce
    rw [if_neg hinit, if_pos (hst _)]
    exact ⟨_, rfl⟩

/-- The size `expand_heap` starts from, for any positive block size. -/
theorem expand_base_pos (s : State) (bs : List (Nat × Nat)) (B : Nat) (hok : HeapOK s bs)
    (hno : ∀ x ∈ bs, ¬ Fits B x) (hB : 0 < B) (hBw : B < W) :
    (if GET_STATUS s.mem (wsub s.heap_end TYPE_SIZE) = FREE
      then wsub B (GET_SIZE s.mem (wsub s.heap_end TYPE_SIZE)) else B) = B - freeLast bs ∧
      freeLast bs < B := by
  obtain ⟨cW, cF, cA, cT, -⟩ := consts
  obtain ⟨h1, h2, h3, h4, h5, h6, h7⟩ := hok
  obtain ⟨pz, pst, p1, p2, p3, p4, p5, -, -⟩ := left_neighbour h7 h5 h2
  have w : wsub s.heap_end TYPE_SIZE = s.heap_end - 8 := wsub_eq (by omega) (by omega)
  have hlast : 0 < freeLast bs → (freeLast bs, FREE) ∈ bs := by
    intro hpos
    rcases dropFreeLast_cases bs with ⟨z, e1, e2⟩ | ⟨-, e2⟩
    · rw [e2]
      have : (z, FREE) ∈ dropFreeLast bs ++ [(z, FREE)] := by simp
      rw [← e1] at this
      exact this
    · omega
  have hlt : freeLast bs < B := by
    by_cases hpos : 0 < freeLast bs
    · have := hno _ (hlast hpos)
      have hnf : ¬ (FREE = FREE ∧ B ≤ freeLast bs) := this
      by_contra hge
      exact hnf ⟨rfl, by omega⟩
    · omega
  refine ⟨?_, hlt⟩
  rw [w]
  rcases p5 with ⟨a, b, c, d⟩ | ⟨a, b⟩
  · have e1 : GET_STATUS s.mem (s.heap_end - 8) = FREE := by
      rw [GET_STATUS_PACK p1 (by omega) (by omega)]; exact a
    have e2 : GET_SIZE s.mem (s.heap_end - 8) = pz :=
      GET_SIZE_PACK p1 (by omega) (by omega) (by omega)
    rw [if_pos e1, e2, wsub_eq (by omega) hBw, d]
  · have e1 : ¬ (GET_STATUS s.mem (s.heap_end - 8) = FREE) := by
      rw [GET_STATUS_PACK p1 (by omega) (by omega)]; omega
    rw [if_neg e1, b]; rfl

/-- Heap growth on a miss, granted: `expand_heap` moves the break and
`heap_end` by the page-rounded size, returns the header of a FREE block that
ends at the new `heap_end`, and the heap stays well formed. -/
theorem expand_heap_granted (s : State) (bs : List (Nat × Nat)) (B : Nat) (hok : HeapOK s bs)
    (hno : ∀ x ∈ bs, ¬ Fits B x) (hB : 0 < B) (hBw : B < W) (hp : ProvOK s)
    (hg : Granted s bs B) :
    ∃ E m', E % 32 = 0 ∧ 32 ≤ E ∧ B ≤ freeLast bs + E ∧
      E = (B - freeLast bs + s.ds.pagesize - 1) / s.ds.pagesize * s.ds.pagesize ∧
      expand_heap B s = .ok (s.heap_end - freeLast bs)
        { s with
          ds := { s.ds with brk := s.ds.brk + E }
          mem := m'
          heap_end := s.heap_end + E
          ds_heap_brk := s.ds.brk + E } ∧
      HeapOK { s with
          ds := { s.ds with brk := s.ds.brk + E }
          mem := m'
          heap_end := s.heap_end + E
          ds_heap_brk := s.ds.brk + E } (dropFreeLast bs ++ (freeLast bs + E, FREE) :: []) ∧
      s.heap_start + span (dropFreeLast bs) = s.heap_end - freeLast bs ∧
      (∀ a, a < s.heap_end - freeLast bs → m' a = s.mem a) ∧
      s.heap_start + freeLast bs ≤ s.heap_end ∧
      GET m' (s.heap_end - freeLast bs) = PACK (freeLast bs + E) FREE ∧
      GET m' (s.heap_end + E - 8) = PACK (freeLast bs + E) FREE ∧
      GET m' (s.heap_end + E) = PACK 0 ALLOC := by
  obtain ⟨cW, cF, cA, cT, -⟩ := consts
  obtain ⟨g1, g2, g3, g4, g5, g6, g7⟩ := hp
  obtain ⟨q1, q2⟩ := hg
  obtain ⟨b1, b2⟩ := expand_base_pos s bs B hok hno hB hBw
  obtain ⟨r1, r2, r3, r4⟩ := round_page (B - freeLast bs) s.ds.pagesize (by omega) g1 g2
  have hsz := expand_size_le (B - freeLast bs) s.ds.pagesize (by omega) g1 g2 q1
  obtain ⟨E, hE⟩ : ∃ E, E = (B - freeLast bs + s.ds.pagesize - 1) / s.ds.pagesize *
      s.ds.pagesize := ⟨_, rfl⟩
  rw [← hE] at r1 r2 r3 r4 hsz q2
  obtain ⟨m', k1, k2, k3, k4, k5, k6, k7⟩ := grow_heap_spec s bs E hok r3 r4 g4 g5 q2 g7
  have heq : expand_heap B s = .ok (s.heap_end - freeLast bs)
        { s with
          ds := { s.ds with brk := s.ds.brk + E }
          mem := m'
          heap_end := s.heap_end + E
          ds_heap_brk := s.ds.brk + E } := by
    unfold expand_heap
    have hps : ¬ (ds_getpagesize s.ds = 0) := by unfold ds_getpagesize; omega
    rw [if_neg hps]
    dsimp only
    rw [b1]
    unfold ds_getpagesize
    rw [hsz, k1]
  obtain ⟨h1, h2, h3, h4, h5, h6, h7⟩ := hok
  obtain ⟨pz, pst, -, p2, -, -, p5, p6, p7⟩ := left_neighbour h7 h5 h2
  have hsp := Layout_end h7
  have hL32 : freeLast bs % 32 = 0 := by rcases p5 with ⟨_, _, _, h⟩ | ⟨_, h⟩ <;> omega
  clear p5
  have hA : s.heap_start + span (dropFreeLast bs) = s.heap_end - freeLast bs := by omega
  refine ⟨E, m', r3, r4, by omega, hE, heq, ⟨h1, h2, h3, ?_, ?_, ?_, ?_⟩, hA, k5, k6, k2, k3, k4⟩
  · show s.heap_end + E + 8 ≤ W
    exact k7
  · show GET m' (s.heap_start - 8) = _
    exact GET_of_frame h5 (fun a ha hb => k5 a (by omega))
  · show GET m' (s.heap_end + E) = _
    exact k4
  · show Layout m' s.heap_start (dropFreeLast bs ++ (freeLast bs + E, FREE) :: [])
      (s.heap_end + E)
    rw [Layout_append, hA]
    refine ⟨Layout_frame p6 (fun a _ hb => k5 a hb), ?_⟩
    refine ⟨by simp only; omega, by simp only; omega, Or.inl rfl, k2, ?_, ?_⟩
    · have e : s.heap_end - freeLast bs + (freeLast bs + E) - 8 = s.heap_end + E - 8 := by omega
      simp only [e]
      exact k3
    · show s.heap_end - freeLast bs + (freeLast bs + E) = s.heap_end + E
      omega

/-- Heap growth on a miss, not granted: `expand_heap` stops at the assertion of
`coalesce`. -/
theorem expand_heap_refused (s : State) (bs : List (Nat × Nat)) (B : Nat) (hok : HeapOK s bs)
    (hno : ∀ x ∈ bs, ¬ Fits B x) (hB : 0 < B) (hBw : B < W) (hp : ProvOK s)
    (hg : ¬ Granted s bs B) :
    ∃ s', expand_heap B s = .fail .assertion s' := by
  obtain ⟨cW, cF, cA, cT, -⟩ := consts
  obtain ⟨g1, g2, g3, g4, g5, g6, g7⟩ := hp
  obtain ⟨b1, b2⟩ := expand_base_pos s bs B hok hno hB hBw
  have hps : ¬ (ds_getpagesize s.ds = 0) := by unfold ds_getpagesize; omega
  unfold expand_heap
  rw [if_neg hps]
  try dsimp only
  rw [b1]
  unfold ds_getpagesize
  by_cases hw : B - freeLast bs + s.ds.pagesize ≤ W
  · have hsz := expand_size_le (B - freeLast bs) s.ds.pagesize (by omega) g1 g2 hw
    rw [hsz]
    have hr : ¬ (s.ds.brk + (B - freeLast bs + s.ds.pagesize - 1) / s.ds.pagesize *
        s.ds.pagesize ≤ s.ds.limit) := fun h => hg ⟨hw, h⟩
    exact grow_heap_stuck s _ hok.1 (Or.inl hr) g4 g5 g6 g7
  · have hsz := expand_wrap (B - freeLast bs) s.ds.pagesize (by omega) (by omega) (by omega)
    rw [hsz]
    exact grow_heap_stuck s 0 hok.1 (Or.inr rfl) g4 g5 g6 g7
/-! ## A larger budget does not change a call that returned -/

theorem ff_loop_mono (s : State) (size k : Nat) :
    ∀ (fuel block r : Nat) (s' : State), ff_loop s size fuel block = .ok r s' →
      ff_loop s size (fuel + k) block = .ok r s' := by
  intro fuel
  induction fuel with
  | zero => intro block r s' h; simp [ff_loop] at h
  | succ f ih =>
    intro block r s' h
    rw [Nat.add_right_comm]
    unfold ff_loop at h ⊢
    dsimp only at h ⊢
    by_cases c1 : GET_STATUS s.mem block = FREE ∧ GET_SIZE s.mem block ≥ size
    · rw [if_pos c1] at h ⊢; exact h
    · rw [if_neg c1] at h ⊢
      by_cases c2 : GET_SIZE s.mem (wadd block (GET_SIZE s.mem block)) > 0
      · rw [if_pos c2] at h ⊢; exact ih _ _ _ h
      · rw [if_neg c2] at h ⊢; exact h

theorem nf_loop_mono (s : State) (size k : Nat) :
    ∀ (fuel block cnt r : Nat) (s' : State), nf_loop s size fuel block cnt = .ok r s' →
      nf_loop s size (fuel + k) block cnt = .ok r s' := by
  intro fuel
  induction fuel with
  | zero => intro block cnt r s' h; simp [nf_loop] at h
  | succ f ih =>
    intro block cnt r s' h
    rw [Nat.add_right_comm]
    unfold nf_loop at h ⊢
    dsimp only at h ⊢
    by_cases c1 : GET_STATUS s.mem block = FREE ∧ GET_SIZE s.mem block ≥ size
    · rw [if_pos c1] at h ⊢; exact h
    · rw [if_neg c1] at h ⊢
      by_cases c2 : (if GET_SIZE s.mem (NEXT_BLOCK s.mem block) = 0 then cnt + 1 else cnt) = 2
      · rw [if_pos c2] at h ⊢; exact h
      · rw [if_neg c2] at h ⊢; exact ih _ _ _ _ h

theorem bf_first_mono (s : State) (size k : Nat) :
    ∀ (fuel block : Nat) (x : Nat × Nat × Nat), bf_first s size fuel block = some x →
      bf_first s size (fuel + k) block = some x := by
  intro fuel
  induction fuel with
  | zero => intro block x h; simp [bf_first] at h
  | succ f ih =>
    intro block x h
    rw [Nat.add_right_comm]
    unfold bf_first at h ⊢
    by_cases c1 : GET_STATUS s.mem block = FREE ∧ GET_SIZE s.mem block ≥ size
    · rw [if_pos c1] at h ⊢; exact h
    · rw [if_neg c1] at h ⊢
      dsimp only at h ⊢
      by_cases c2 : GET_SIZE s.mem (wadd block (GET_SIZE s.mem block)) = 0
      · rw [if_pos c2] at h ⊢; exact h
      · rw [if_neg c2] at h ⊢; exact ih _ _ h

theorem bf_scan_mono (s : State) (size k : Nat) :
    ∀ (fuel block ms mb x : Nat), bf_scan s size fuel block ms mb = some x →
      bf_scan s size (fuel + k) block ms mb = some x := by
  intro fuel
  induction fuel with
  | zero => intro block ms mb x h; simp [bf_scan] at h
  | succ f ih =>
    intro block ms mb x h
    rw [Nat.add_right_comm]
    unfold bf_scan at h ⊢
    dsimp only at h ⊢
    by_cases c2 : GET_SIZE s.mem (wadd block (GET_SIZE s.mem block)) ≠ 0
    · rw [if_pos c2] at h ⊢; exact ih _ _ _ _ h
    · rw [if_neg c2] at h ⊢; exact h

theorem call_get_block_mono (s : State) (size fuel k r : Nat) (s' : State)
    (h : call_get_block fuel size s = .ok r s') :
    call_get_block (fuel + k) size s = .ok r s' := by
  unfold call_get_block at h ⊢
  cases hg : s.get_block with
  | none => rw [hg] at h; simp at h
  | some loc =>
    rw [hg] at h
    cases loc with
    | ff =>
      simp only at h ⊢
      unfold ff_get_free_block at h ⊢
      by_cases c : s.mm_initialized = 0
      · rw [if_pos c] at h; simp at h
      · rw [if_neg c] at h ⊢; exact ff_loop_mono s size k _ _ _ _ h
    | nf =>
      simp only at h ⊢
      unfold nf_get_free_block at h ⊢
      by_cases c : s.mm_initialized = 0
      · rw [if_pos c] at h; simp at h
      · rw [if_neg c] at h ⊢; exact nf_loop_mono s size k _ _ _ _ _ h
    | bf =>
      simp only at h ⊢
      unfold bf_get_free_block at h ⊢
      by_cases c : s.mm_initialized = 0
      · rw [if_pos c] at h; simp at h
      · rw [if_neg c] at h ⊢
        cases h1 : bf_first s size fuel s.heap_start with
        | none => rw [h1] at h; simp at h
        | some x =>
          obtain ⟨b, ms, mb⟩ := x
          rw [h1] at h
          rw [bf_first_mono s size k _ _ _ h1]
          simp only at h ⊢
          cases h2 : bf_scan s size fuel b ms mb with
          | none => rw [h2] at h; simp at h
          | some y =>
            rw [h2] at h
            rw [bf_scan_mono s size k _ _ _ _ _ h2]
            exact h

/-- A call of `mm_malloc` that returned returns the same with a larger budget. -/
theorem mm_malloc_mono (s : State) (n fuel k h : Nat) (s' : State)
    (hm : mm_malloc fuel n s = .ok h s') : mm_malloc (fuel + k) n s = .ok h s' := by
  unfold mm_malloc at hm ⊢
  by_cases c : s.mm_initialized = 0
  · rw [if_pos c] at hm; simp at hm
  · rw [if_neg c] at hm ⊢
    dsimp only at hm ⊢
    cases hg : call_get_block fuel (ROUND_UP (wadd (wadd TYPE_SIZE n) TYPE_SIZE)) s with
    | fail f s1 => rw [hg] at hm; simp at hm
    | ok b s1 =>
      rw [hg] at hm
      rw [call_get_block_mono s _ fuel k b s1 hg]
      exact hm
/-! ## Lists without adjacent FREE blocks -/

theorem NoAdjFree_reverse (l : List (Nat × Nat)) : NoAdjFree l.reverse ↔ NoAdjFree l := by
  unfold NoAdjFree
  rw [List.chain'_reverse]
  have : (flip fun a b : Nat × Nat => ¬ (a.2 = FREE ∧ b.2 = FREE)) =
      fun a b : Nat × Nat => ¬ (a.2 = FREE ∧ b.2 = FREE) := by
    funext a b
    simp only [flip]
    exact propext ⟨fun h ⟨x, y⟩ => h ⟨y, x⟩, fun h ⟨x, y⟩ => h ⟨y, x⟩⟩
  rw [this]

theorem NoAdjFree_cons_alloc (z : Nat) (l : List (Nat × Nat)) (h : NoAdjFree l) :
    NoAdjFree ((z, ALLOC) :: l) := by
  obtain ⟨-, cF, cA, -, -⟩ := consts
  unfold NoAdjFree at h ⊢
  cases l with
  | nil => exact List.chain'_singleton _
  | cons b t =>
    rw [List.chain'_cons]
    refine ⟨?_, h⟩
    rintro ⟨x, -⟩
    simp only at x
    omega

theorem NoAdjFree_tail (b : Nat × Nat) (l : List (Nat × Nat)) (h : NoAdjFree (b :: l)) :
    NoAdjFree l :=
  List.Chain'.tail h

/-- Only the status of the first block matters. -/
theorem NoAdjFree_head_size (z z' st : Nat) (l : List (Nat × Nat))
    (h : NoAdjFree ((z, st) :: l)) : NoAdjFree ((z', st) :: l) := by
  unfold NoAdjFree at h ⊢
  cases l with
  | nil => exact List.chain'_singleton _
  | cons b t =>
    rw [List.chain'_cons] at h ⊢
    exact h

theorem NoAdjFree_cons_dropFreeHead (z : Nat) (l : List (Nat × Nat)) (h : NoAdjFree l) :
    NoAdjFree ((z, FREE) :: dropFreeHead l) := by
  cases l with
  | nil => exact List.chain'_singleton _
  | cons b t =>
    by_cases hb : b.2 = FREE
    · have e : dropFreeHead (b :: t) = t := by simp [dropFreeHead, hb]
      rw [e]
      obtain ⟨b1, b2⟩ := b
      simp only at hb
      subst hb
      exact NoAdjFree_head_size b1 z FREE t h
    · have e : dropFreeHead (b :: t) = b :: t := by simp [dropFreeHead, hb]
      rw [e]
      unfold NoAdjFree at h ⊢
      rw [List.chain'_cons]
      exact ⟨fun x => hb x.2, h⟩

theorem NoAdjFree_dropFreeLast_snoc (z : Nat) (l : List (Nat × Nat)) (h : NoAdjFree l) :
    NoAdjFree (dropFreeLast l ++ [(z, FREE)]) := by
  rw [← NoAdjFree_reverse]
  have e : (dropFreeLast l ++ [(z, FREE)]).reverse = (z, FREE) :: dropFreeHead l.reverse := by
    simp [dropFreeLast]
  rw [e]
  exact NoAdjFree_cons_dropFreeHead z _ ((NoAdjFree_reverse l).2 h)

theorem NoAdjFree_snoc_alloc (z : Nat) (l : List (Nat × Nat)) (h : NoAdjFree l) :
    NoAdjFree (l ++ [(z, ALLOC)]) := by
  rw [← NoAdjFree_reverse]
  have e : (l ++ [(z, ALLOC)]).reverse = (z, ALLOC) :: l.reverse := by simp
  rw [e]
  exact NoAdjFree_cons_alloc z _ ((NoAdjFree_reverse l).2 h)

theorem NoAdjFree_split (a : List (Nat × Nat)) (b : Nat × Nat) (c : List (Nat × Nat)) :
    NoAdjFree (a ++ b :: c) ↔ NoAdjFree (a ++ [b]) ∧ NoAdjFree (b :: c) :=
  List.chain'_split

theorem NoAdjFree_left (a c : List (Nat × Nat)) (h : NoAdjFree (a ++ c)) : NoAdjFree a :=
  List.Chain'.left_of_append h

theorem NoAdjFree_dropFreeLast (l : List (Nat × Nat)) (h : NoAdjFree l) :
    NoAdjFree (dropFreeLast l) :=
  NoAdjFree_left _ _ (NoAdjFree_dropFreeLast_snoc 0 l h)

theorem NoAdjFree_dropFreeHead (l : List (Nat × Nat)) (h : NoAdjFree l) :
    NoAdjFree (dropFreeHead l) :=
  NoAdjFree_tail _ _ (NoAdjFree_cons_dropFreeHead 0 l h)

/-- Placing a request in a FREE block keeps the list free of adjacent FREE blocks. -/
theorem NoAdjFree_placed (pre post : List (Nat × Nat)) (B z : Nat)
    (h : NoAdjFree (pre ++ (z, FREE) :: post)) : NoAdjFree (pre ++ (placed B z ++ post)) := by
  obtain ⟨h1, h2⟩ := (NoAdjFree_split pre _ post).1 h
  have hpre : NoAdjFree pre := NoAdjFree_left _ _ h1
  unfold placed
  by_cases c : B < z
  · rw [if_pos c]
    show NoAdjFree (pre ++ (B, ALLOC) :: ((z - B, FREE) :: post))
    rw [NoAdjFree_split]
    exact ⟨NoAdjFree_snoc_alloc B pre hpre,
      NoAdjFree_cons_alloc B _ (NoAdjFree_head_size z (z - B) FREE post h2)⟩
  · rw [if_neg c]
    show NoAdjFree (pre ++ (B, ALLOC) :: post)
    rw [NoAdjFree_split]
    exact ⟨NoAdjFree_snoc_alloc B pre hpre, NoAdjFree_cons_alloc B _ (NoAdjFree_tail _ _ h2)⟩

/-- Growing the heap and placing the request in the new last block keeps the
list free of adjacent FREE blocks. -/
theorem NoAdjFree_grown (bs : List (Nat × Nat)) (B z : Nat) (h : NoAdjFree bs) :
    NoAdjFree (dropFreeLast bs ++ (placed B z ++ [])) :=
  NoAdjFree_placed (dropFreeLast bs) [] B z (NoAdjFree_dropFreeLast_snoc z bs h)

/-- Releasing a block and merging it with its FREE neighbours keeps the list
free of adjacent FREE blocks. -/
theorem NoAdjFree_coalesced (pre post : List (Nat × Nat)) (B st : Nat)
    (h : NoAdjFree (pre ++ (B, st) :: post)) : NoAdjFree (coalesced pre B post) := by
  obtain ⟨h1, h2⟩ := (NoAdjFree_split pre _ post).1 h
  unfold coalesced
  rw [NoAdjFree_split]
  exact ⟨NoAdjFree_dropFreeLast_snoc _ pre (NoAdjFree_left _ _ h1),
    NoAdjFree_cons_dropFreeHead _ post (NoAdjFree_tail _ _ h2)⟩

/-- Next to a FREE block of such a list there is no FREE block. -/
theorem NoAdjFree_around (pre post : List (Nat × Nat)) (z : Nat)
    (h : NoAdjFree (pre ++ (z, FREE) :: post)) :
    freeLast pre = 0 ∧ dropFreeLast pre = pre ∧ freeHead post = 0 ∧ dropFreeHead post = post := by
  obtain ⟨h1, h2⟩ := (NoAdjFree_split pre _ post).1 h
  have head : ∀ l : List (Nat × Nat), NoAdjFree ((z, FREE) :: l) →
      freeHead l = 0 ∧ dropFreeHead l = l := by
    intro l hl
    cases l with
    | nil => simp [freeHead, dropFreeHead]
    | cons b t =>
      unfold NoAdjFree at hl
      rw [List.chain'_cons] at hl
      have hb : ¬ b.2 = FREE := fun x => hl.1 ⟨rfl, x⟩
      simp [freeHead, dropFreeHead, hb]
  have h1' : NoAdjFree ((z, FREE) :: pre.reverse) := by
    have := (NoAdjFree_reverse (pre ++ [(z, FREE)])).2 h1
    simpa using this
  obtain ⟨a1, a2⟩ := head _ h1'
  obtain ⟨a3, a4⟩ := head _ h2
  refine ⟨a1, ?_, a3, a4⟩
  unfold dropFreeLast
  rw [a2, List.reverse_reverse]

/-! ## The blocks of a list with their addresses -/

theorem blocksAt_append : ∀ (a b : List (Nat × Nat)) (p : Nat),
    blocksAt p (a ++ b) = blocksAt p a ++ blocksAt (p + span a) b
  | [], b, p => by simp [blocksAt, span]
  | x :: a, b, p => by
    have ih := blocksAt_append a b (p + x.1)
    have e : p + span (x :: a) = p + x.1 + span a := by simp [span]; omega
    rw [e]
    simp [blocksAt, ih]

theorem blocksAt_ge : ∀ (bs : List (Nat × Nat)) (p q : Nat) (x : Nat × Nat),
    (q, x) ∈ blocksAt p bs → p ≤ q ∧ q + x.1 ≤ p + span bs
  | [], p, q, x, h => by simp [blocksAt] at h
  | b :: bs, p, q, x, h => by
    rw [blocksAt, List.mem_cons] at h
    rcases h with h | h
    · have e1 : q = p := congrArg Prod.fst h
      have e2 : x = (b.1, b.2) := congrArg Prod.snd h
      subst e1 e2
      simp [span]
    · have := blocksAt_ge bs (p + b.1) q x h
      simp only [span]
      omega

theorem mem_blocksAt_iff (bs : List (Nat × Nat)) (p q sz st : Nat) :
    (q, sz, st) ∈ blocksAt p bs ↔ ∃ pre post, bs = pre ++ (sz, st) :: post ∧ q = p + span pre := by
  induction bs generalizing p with
  | nil => simp [blocksAt]
  | cons b bs ih =>
    rw [blocksAt, List.mem_cons, ih]
    constructor
    · rintro (h | ⟨pre, post, h1, h2⟩)
      · have e1 : q = p := congrArg Prod.fst h
        have e2 : (sz, st) = (b.1, b.2) := congrArg Prod.snd h
        refine ⟨[], bs, ?_, by simp [span, e1]⟩
        rw [e2]; rfl
      · exact ⟨b :: pre, post, by rw [h1]; rfl, by rw [h2]; simp [span]; omega⟩
    · rintro ⟨pre, post, h1, h2⟩
      cases pre with
      | nil =>
        left
        simp only [List.nil_append, List.cons.injEq] at h1
        have e := h1.1
        simp [span] at h2
        rw [h2, e]
      | cons c pre =>
        right
        simp only [List.cons_append, List.cons.injEq] at h1
        refine ⟨pre, post, h1.2, ?_⟩
        rw [h2, h1.1]; simp [span]; omega

/-- Two blocks of a list of blocks of positive size are the same block or do
not overlap. -/
theorem blocksAt_sep : ∀ (bs : List (Nat × Nat)) (p : Nat) (x y : Nat × Nat × Nat),
    (∀ b ∈ bs, 0 < b.1) → x ∈ blocksAt p bs → y ∈ blocksAt p bs →
      x = y ∨ x.1 + x.2.1 ≤ y.1 ∨ y.1 + y.2.1 ≤ x.1
  | [], p, x, y, _, h, _ => by simp [blocksAt] at h
  | b :: bs, p, x, y, hpos, hx, hy => by
    rw [blocksAt, List.mem_cons] at hx hy
    rcases hx with hx | hx <;> rcases hy with hy | hy
    · left; rw [hx, hy]
    · right; left
      obtain ⟨q, w⟩ := y
      have := (blocksAt_ge bs (p + b.1) q w hy).1
      rw [hx]
      simpa using this
    · right; right
      obtain ⟨q, w⟩ := x
      have := (blocksAt_ge bs (p + b.1) q w hx).1
      rw [hy]
      simpa using this
    · exact blocksAt_sep bs (p + b.1) x y (fun c hc => hpos c (List.mem_cons_of_mem _ hc)) hx hy

/-- Every block of a layout has a size that is a positive multiple of 32. -/
theorem Layout_sizes {m : Nat → Nat} : ∀ {bs : List (Nat × Nat)} {p e : Nat},
    Layout m p bs e → ∀ b ∈ bs, 32 ≤ b.1 ∧ b.1 % 32 = 0
  | [], _, _, _, b, hb => by simp at hb
  | c :: bs, p, e, h, b, hb => by
    rw [List.mem_cons] at hb
    rcases hb with hb | hb
    · rw [hb]; exact ⟨h.1, h.2.1⟩
    · exact Layout_sizes h.2.2.2.2.2 b hb

/-- What the memory holds for a block of a layout. -/
theorem Layout_block {m : Nat → Nat} {bs : List (Nat × Nat)} {p e q sz st : Nat}
    (h : Layout m p bs e) (hm : (q, sz, st) ∈ blocksAt p bs) :
    GET m q = PACK sz st ∧ GET m (q + sz - 8) = PACK sz st ∧ 32 ≤ sz ∧ sz % 32 = 0 ∧
      p ≤ q ∧ q + sz ≤ e := by
  obtain ⟨pre, post, h1, h2⟩ := (mem_blocksAt_iff bs p q sz st).1 hm
  subst h1
  obtain ⟨-, hb⟩ := (Layout_append m pre _ p e).1 h
  rw [← h2] at hb
  obtain ⟨b1, b2, -, b4, b5, b6⟩ := hb
  have := Layout_end b6
  simp only at b1 b2 b4 b5 this
  exact ⟨b4, b5, b1, b2, by omega, by omega⟩

/-- The ALLOCATED blocks stay where they are when the heap grows and the
request is placed in the new last block. -/
theorem blocksAt_grown (bs : List (Nat × Nat)) (p B z q sz : Nat)
    (h : (q, sz, ALLOC) ∈ blocksAt p bs) :
    (q, sz, ALLOC) ∈ blocksAt p (dropFreeLast bs ++ (placed B z ++ [])) := by
  obtain ⟨-, cF, cA, -, -⟩ := consts
  rw [blocksAt_append, List.mem_append]
  left
  rcases dropFreeLast_cases bs with ⟨w, e1, -⟩ | ⟨e1, -⟩
  · rw [e1, blocksAt_append, List.mem_append] at h
    rcases h with h | h
    · exact h
    · simp only [blocksAt, List.mem_singleton, Prod.mk.injEq] at h
      omega
  · rw [e1]; exact h

/-- The ALLOCATED blocks stay where they are when a request is placed in a
FREE block. -/
theorem blocksAt_placed (pre post : List (Nat × Nat)) (p B z q sz : Nat) (hBz : B ≤ z)
    (h : (q, sz, ALLOC) ∈ blocksAt p (pre ++ (z, FREE) :: post)) :
    (q, sz, ALLOC) ∈ blocksAt p (pre ++ (placed B z ++ post)) := by
  obtain ⟨-, cF, cA, -, -⟩ := consts
  have hsp : span (placed B z) = z := by
    unfold placed
    by_cases c : B < z
    · rw [if_pos c]; simp [span]; omega
    · rw [if_neg c]; simp [span]; omega
  rw [blocksAt_append, List.mem_append] at h ⊢
  rcases h with h | h
  · exact Or.inl h
  · right
    rw [blocksAt_append, List.mem_append, hsp]
    rw [blocksAt, List.mem_cons] at h
    rcases h with h | h
    · simp only [Prod.mk.injEq] at h
      omega
    · exact Or.inr h

/-- The placed block is a block of the list. -/
theorem blocksAt_new (pre post : List (Nat × Nat)) (p B z : Nat) :
    (p + span pre, B, ALLOC) ∈ blocksAt p (pre ++ (placed B z ++ post)) := by
  rw [blocksAt_append, List.mem_append]
  right
  unfold placed
  simp [blocksAt]

/-- The other ALLOCATED blocks stay where they are when a block is released. -/
theorem blocksAt_coalesced (pre post : List (Nat × Nat)) (p B q sz : Nat)
    (h : (q, sz, ALLOC) ∈ blocksAt p (pre ++ (B, ALLOC) :: post)) (hq : q ≠ p + span pre) :
    (q, sz, ALLOC) ∈ blocksAt p (coalesced pre B post) := by
  obtain ⟨-, cF, cA, -, -⟩ := consts
  unfold coalesced
  rw [blocksAt_append, List.mem_append] at h ⊢
  rcases h with h | h
  · left
    rcases dropFreeLast_cases pre with ⟨w, e1, -⟩ | ⟨e1, -⟩
    · rw [e1, blocksAt_append, List.mem_append] at h
      rcases h with h | h
      · exact h
      · simp only [blocksAt, List.mem_singleton, Prod.mk.injEq] at h
        omega
    · rw [e1]; exact h
  · right
    rw [blocksAt, List.mem_cons] at h ⊢
    rcases h with h | h
    · simp only [Prod.mk.injEq] at h
      omega
    · right
      have hsp : span (dropFreeLast pre) + freeLast pre = span pre := by
        rcases dropFreeLast_cases pre with ⟨w, e1, e2⟩ | ⟨e1, e2⟩
        · rw [e2]
          have := congrArg span e1
          rw [span_append] at this
          simp only [span] at this
          omega
        · rw [e1, e2]; rfl
      rcases dropFreeHead_cases post with ⟨w, e1, e2⟩ | ⟨e1, e2⟩
      · rw [e1, blocksAt, List.mem_cons] at h
        rcases h with h | h
        · simp only [Prod.mk.injEq] at h
          omega
        · rw [e2]
          have ea : p + span (dropFreeLast pre) + (freeLast pre + B + w, FREE).1 =
              p + span pre + ((B, ALLOC) : Nat × Nat).1 + ((w, FREE) : Nat × Nat).1 := by
            simp only; omega
          rw [ea]
          exact h
      · rw [e1, e2]
        have ea : p + span (dropFreeLast pre) + (freeLast pre + B + 0, FREE).1 =
            p + span pre + ((B, ALLOC) : Nat × Nat).1 := by
          simp only; omega
        rw [ea]
        exact h

theorem blockSize_ge (n : Nat) : 32 ≤ blockSize n ∧ blockSize n % 32 = 0 := by
  unfold blockSize; omega

/-- An ALLOCATED block and a FREE block of a list do not start at the same address. -/
theorem blocksAt_alloc_ne_free (bs : List (Nat × Nat)) (p q sz q' z : Nat)
    (h1 : (q, sz, ALLOC) ∈ blocksAt p bs) (h2 : (q', z, FREE) ∈ blocksAt p bs) (hz : 0 < z)
    (hsz : 0 < sz) (hpos : ∀ b ∈ bs, 0 < b.1) : q ≠ q' := by
  obtain ⟨-, cF, cA, -, -⟩ := consts
  rcases blocksAt_sep bs p _ _ hpos h1 h2 with h | h | h
  · simp only [Prod.mk.injEq] at h
    omega
  · simp only at h; omega
  · simp only at h; omega
/-! ## The three outcomes of `mm_malloc` under first fit and best fit -/

/-- A miss that the provider grants: `mm_malloc` grows the heap by the
page-rounded size and places the request in the block `expand_heap` returned. -/
theorem mm_malloc_miss_granted (s : State) (bs : List (Nat × Nat)) (n B fuel : Nat)
    (hok : HeapOK s bs)
    (hB : ROUND_UP (wadd (wadd TYPE_SIZE n) TYPE_SIZE) = B) (hB32 : B % 32 = 0) (hBge : 32 ≤ B)
    (hBw : B < W) (hno : ∀ x ∈ bs, ¬ Fits B x) (hp : ProvOK s) (hg : Granted s bs B)
    (hget : call_get_block fuel B s = .ok 0 s) :
    ∃ E m', E % 32 = 0 ∧ 32 ≤ E ∧ B ≤ freeLast bs + E ∧
      E = (B - freeLast bs + s.ds.pagesize - 1) / s.ds.pagesize * s.ds.pagesize ∧
      mm_malloc fuel n s = .ok (s.heap_start + span (dropFreeLast bs) + 8)
        { s with
          ds := { s.ds with brk := s.ds.brk + E }
          mem := m'
          heap_end := s.heap_end + E
          ds_heap_brk := s.ds.brk + E } ∧
      HeapOK { s with
          ds := { s.ds with brk := s.ds.brk + E }
          mem := m'
          heap_end := s.heap_end + E
          ds_heap_brk := s.ds.brk + E }
        (dropFreeLast bs ++ (placed B (freeLast bs + E) ++ [])) ∧
      (∀ a, a < s.heap_start + span (dropFreeLast bs) → m' a = s.mem a) := by
  obtain ⟨E, m1, e1, e2, e3, e4, e5, e6, e7, e8, e9, -, -, -⟩ :=
    expand_heap_granted s bs B hok hno (by omega) hBw hp hg
  obtain ⟨m', q1, q2, q3, q4, q5, q6⟩ :=
    place_layout { s with
          ds := { s.ds with brk := s.ds.brk + E }
          mem := m1
          heap_end := s.heap_end + E
          ds_heap_brk := s.ds.brk + E } (dropFreeLast bs) [] (freeLast bs + E) B
      (s.heap_end - freeLast bs) e7 e6 hBge hB32 e3
  refine ⟨E, m', e1, e2, e3, e4, ?_, q2, ?_⟩
  · unfold mm_malloc
    rw [if_neg hok.1, hB]
    simp only [hget, if_true, e5]
    rw [e7]
    exact q1
  · intro a ha
    rw [e7] at ha
    exact (q5 a (by omega) (by omega) (by omega)).trans (e8 a ha)

/-- A miss that the provider does not grant: `mm_malloc` stops at the
assertion of `coalesce`. -/
theorem mm_malloc_miss_refused (s : State) (bs : List (Nat × Nat)) (n B fuel : Nat)
    (hok : HeapOK s bs)
    (hB : ROUND_UP (wadd (wadd TYPE_SIZE n) TYPE_SIZE) = B) (hBge : 0 < B)
    (hBw : B < W) (hno : ∀ x ∈ bs, ¬ Fits B x) (hp : ProvOK s) (hg : ¬ Granted s bs B)
    (hget : call_get_block fuel B s = .ok 0 s) :
    ∃ s', mm_malloc fuel n s = .fail .assertion s' := by
  obtain ⟨s', hs'⟩ := expand_heap_refused s bs B hok hno hBge hBw hp hg
  refine ⟨s', ?_⟩
  unfold mm_malloc
  rw [if_neg hok.1, hB]
  simp only [hget, if_true, hs']

/-- The outcomes of `mm_malloc` under first fit and best fit on a well-formed
heap, for a request of at most `2 ^ 64 - 48` bytes: a hit places the request
in a FREE block of the list; a miss grows the heap when the provider grants
the extension and stops the process when it does not. -/
theorem mm_malloc_step (s : State) (bs : List (Nat × Nat)) (n fuel : Nat) (loc : Locator)
    (hok : HeapOK s bs) (hloc : s.get_block = some loc) (hpol : loc ≠ .nf)
    (hn : n ≤ 18446744073709551568) (hfuel : 2 * bs.length + 1 ≤ fuel) (hp : ProvOK s) :
    (∃ pre z post m', bs = pre ++ (z, FREE) :: post ∧ blockSize n ≤ z ∧
        mm_malloc fuel n s = .ok (s.heap_start + span pre + 8) { s with mem := m' } ∧
        HeapOK { s with mem := m' } (pre ++ (placed (blockSize n) z ++ post)) ∧
        (∀ a, a < s.heap_start + span pre → m' a = s.mem a)) ∨
      ((∀ x ∈ bs, ¬ Fits (blockSize n) x) ∧ Granted s bs (blockSize n) ∧
        ∃ E m', E % 32 = 0 ∧ 32 ≤ E ∧ blockSize n ≤ freeLast bs + E ∧
          E = (blockSize n - freeLast bs + s.ds.pagesize - 1) / s.ds.pagesize * s.ds.pagesize ∧
          mm_malloc fuel n s = .ok (s.heap_start + span (dropFreeLast bs) + 8)
            { s with
              ds := { s.ds with brk := s.ds.brk + E }
              mem := m'
              heap_end := s.heap_end + E
              ds_heap_brk := s.ds.brk + E } ∧
          HeapOK { s with
              ds := { s.ds with brk := s.ds.brk + E }
              mem := m'
              heap_end := s.heap_end + E
              ds_heap_brk := s.ds.brk + E }
            (dropFreeLast bs ++ (placed (blockSize n) (freeLast bs + E) ++ [])) ∧
          (∀ a, a < s.heap_start + span (dropFreeLast bs) → m' a = s.mem a)) ∨
      ((∀ x ∈ bs, ¬ Fits (blockSize n) x) ∧ ¬ Granted s bs (blockSize n) ∧
        ∃ s', mm_malloc fuel n s = .fail .assertion s') := by
  obtain ⟨cW, cF, cA, cT, -⟩ := consts
  have hB := ROUND_UP_request n hn
  obtain ⟨B, hBdef⟩ : ∃ B, B = blockSize n := ⟨_, rfl⟩
  have hBv : B = (n + 16 + 31) / 32 * 32 := hBdef
  rw [← hBv] at hB
  rw [← hBdef]
  have hB32 : B % 32 = 0 := by omega
  have hBge : 32 ≤ B := by omega
  have hBw : B < W := by omega
  obtain ⟨r, nb, hget, hres⟩ :=
    locator_outcome s bs B fuel loc hok hloc (fun h => absurd h hpol) hfuel
  have hst := call_get_block_state fuel B s _ r loc hloc hpol hget
  rw [hst] at hget
  rcases hres with ⟨hr0, -, hno⟩ | ⟨pre, z, post, p1, p2, p3⟩
  · subst hr0
    by_cases hg : Granted s bs B
    · exact Or.inr (Or.inl ⟨hno, hg,
        mm_malloc_miss_granted s bs n B fuel hok hB hB32 hBge hBw hno hp hg hget⟩)
    · exact Or.inr (Or.inr ⟨hno, hg,
        mm_malloc_miss_refused s bs n B fuel hok hB (by omega) hBw hno hp hg hget⟩)
  · subst p1
    subst p2
    have hget' : call_get_block fuel B s =
        .ok (s.heap_start + span pre) { s with next_block := s.next_block } := hget
    obtain ⟨m', q1, q2, q3, q4, q5, q6⟩ :=
      mm_malloc_hit s pre post z n B fuel s.next_block hok hB hB32 hBge p3 hget'
    refine Or.inl ⟨pre, z, post, m', rfl, p3, q1, q2, ?_⟩
    intro a ha
    exact q5 a (by omega) (by omega) (by omega)
/-! ## What holds in every reachable state -/

/-- A call of `mm_init` that returned: the policy is valid, the data segment
was clean and the provider granted the first chunk. -/
theorem mm_init_ok_inv (ap : AllocationPolicy) (s0 s : State) (h : mm_init ap s0 = .ok () s) :
    ap ≠ .ap_Other ∧ s0.ds.start ≠ 0 ∧ s0.ds.start = s0.ds.brk ∧ s0.ds.pagesize ≠ 0 ∧
      s0.ds.brk + 4096 ≤ s0.ds.limit := by
  have hap : ap ≠ .ap_Other := by
    rintro rfl
    simp [mm_init] at h
  refine ⟨hap, ?_⟩
  unfold mm_init at h
  cases ap with
  | ap_Other => exact absurd rfl hap
  | ap_FirstFit =>
    dsimp only [ds_heap_stat, ds_getpagesize] at h
    by_cases c1 : s0.ds.start = 0
    · rw [if_pos c1] at h; cases h
    · rw [if_neg c1] at h
      by_cases c2 : s0.ds.start ≠ s0.ds.brk
      · rw [if_pos c2] at h; cases h
      · rw [if_neg c2] at h
        by_cases c3 : s0.ds.pagesize = 0
        · rw [if_pos c3] at h; cases h
        · rw [if_neg c3] at h
          by_cases c4 : s0.ds.brk + 4096 ≤ s0.ds.limit
          · exact ⟨c1, not_not.1 c2, c3, c4⟩
          · have e : (ds_sbrk s0.ds CHUNKSIZE).1 = W - 1 := by
              unfold ds_sbrk CHUNKSIZE
              rw [if_neg c4]
            rw [if_pos e] at h
            cases h
  | ap_NextFit =>
    dsimp only [ds_heap_stat, ds_getpagesize] at h
    by_cases c1 : s0.ds.start = 0
    · rw [if_pos c1] at h; cases h
    · rw [if_neg c1] at h
      by_cases c2 : s0.ds.start ≠ s0.ds.brk
      · rw [if_pos c2] at h; cases h
      · rw [if_neg c2] at h
        by_cases c3 : s0.ds.pagesize = 0
        · rw [if_pos c3] at h; cases h
        · rw [if_neg c3] at h
          by_cases c4 : s0.ds.brk + 4096 ≤ s0.ds.limit
          · exact ⟨c1, not_not.1 c2, c3, c4⟩
          · have e : (ds_sbrk s0.ds CHUNKSIZE).1 = W - 1 := by
              unfold ds_sbrk CHUNKSIZE
              rw [if_neg c4]
            rw [if_pos e] at h
            cases h
  | ap_BestFit =>
    dsimp only [ds_heap_stat, ds_getpagesize] at h
    by_cases c1 : s0.ds.start = 0
    · rw [if_pos c1] at h; cases h
    · rw [if_neg c1] at h
      by_cases c2 : s0.ds.start ≠ s0.ds.brk
      · rw [if_pos c2] at h; cases h
      · rw [if_neg c2] at h
        by_cases c3 : s0.ds.pagesize = 0
        · rw [if_pos c3] at h; cases h
        · rw [if_neg c3] at h
          by_cases c4 : s0.ds.brk + 4096 ≤ s0.ds.limit
          · exact ⟨c1, not_not.1 c2, c3, c4⟩
          · have e : (ds_sbrk s0.ds CHUNKSIZE).1 = W - 1 := by
              unfold ds_sbrk CHUNKSIZE
              rw [if_neg c4]
            rw [if_pos e] at h
            cases h

/-- The invariant holds right after `mm_init`. -/
theorem Inv_init (ap : AllocationPolicy) (s0 s : State)
    (hap : ap = .ap_FirstFit ∨ ap = .ap_BestFit) (hps : s0.ds.pagesize % 32 = 0)
    (hpi : s0.ds.pagesize < 2147483648) (hlim : s0.ds.limit < W)
    (h : mm_init ap s0 = .ok () s) : Inv s [] := by
  obtain ⟨cW, cF, cA, cT, -⟩ := consts
  obtain ⟨i1, i2, i3, i4, i5⟩ := mm_init_ok_inv ap s0 s h
  obtain ⟨s', k1, k2, k3, k4, -, -, ⟨loc, l0, l1, l2, l3⟩, k8⟩ :=
    mm_init_spec s0 ap s0.ds.brk i1 (by omega) i3 rfl i4 i5 (by omega)
  rw [k1] at h
  have hs : s' = s := by injection h
  subst hs
  refine ⟨_, k8, ?_, ?_, ⟨loc, l0, ?_⟩, by simp, by simp⟩
  · exact List.chain'_singleton _
  · refine ⟨?_, ?_, ?_, ?_, ?_, ?_, ?_⟩ <;> rw [k2] <;> simp only
    · omega
    · exact hps
    · exact hpi
    · omega
    · rw [k4]
    · omega
    · exact hlim
  · rcases hap with hap | hap
    · rw [l1 hap]; simp
    · rw [l3 hap]; simp

/-- The invariant survives a call of `mm_malloc` that returns. -/
theorem Inv_malloc (s s' : State) (live : List (Nat × Nat)) (fuel n h : Nat)
    (hinv : Inv s live) (hn : n ≤ 18446744073709551568)
    (hm : mm_malloc fuel n s = .ok h s') : Inv s' ((h, n) :: live) := by
  obtain ⟨cW, cF, cA, cT, -⟩ := consts
  obtain ⟨bs, hok, hna, hp, ⟨loc, hloc, hpol⟩, hnd, hlive⟩ := hinv
  have hm' := mm_malloc_mono s n fuel (2 * bs.length + 1) h s' hm
  have hsz := Layout_sizes hok.2.2.2.2.2.2
  have hpos : ∀ b ∈ bs, 0 < b.1 := fun b hb => by have := (hsz b hb).1; omega
  have h8 := hok.2.1
  rcases mm_malloc_step s bs n (fuel + (2 * bs.length + 1)) loc hok hloc hpol hn (by omega) hp
    with ⟨pre, z, post, m', e1, e2, e3, e4, -⟩ | ⟨hno, hg, E, m', e1, e2, e3, e4, e5, e6, -⟩ |
      ⟨-, -, sf, e1⟩
  · rw [e3] at hm'
    injection hm' with hh hs
    subst hh hs e1
    refine ⟨_, e4, NoAdjFree_placed pre post _ z hna, hp, ⟨loc, hloc, hpol⟩, ?_, ?_⟩
    · rw [List.map_cons, List.nodup_cons]
      refine ⟨?_, hnd⟩
      intro hmem
      obtain ⟨x, hx, hxe⟩ := List.mem_map.1 hmem
      obtain ⟨x8, xb⟩ := hlive x hx
      have hfree : (s.heap_start + span pre, z, FREE) ∈
          blocksAt s.heap_start (pre ++ (z, FREE) :: post) :=
        (mem_blocksAt_iff _ _ _ _ _).2 ⟨pre, post, rfl, rfl⟩
      have hz := (hsz (z, FREE) (by simp)).1
      simp only at hz hxe
      have := blocksAt_alloc_ne_free _ _ _ _ _ _ xb hfree (by omega)
        (by have := (blockSize_ge x.2).1; omega) hpos
      omega
    · intro x hx
      rw [List.mem_cons] at hx
      rcases hx with hx | hx
      · subst hx
        refine ⟨by simp only; omega, ?_⟩
        have : s.heap_start + span pre + 8 - 8 = s.heap_start + span pre := by omega
        simp only [this]
        exact blocksAt_new pre post s.heap_start (blockSize n) z
      · obtain ⟨x8, xb⟩ := hlive x hx
        exact ⟨x8, blocksAt_placed pre post s.heap_start _ z _ _ e2 xb⟩
  · rw [e5] at hm'
    injection hm' with hh hs
    subst hh hs
    obtain ⟨g1, g2, g3, g4, g5, g6, g7⟩ := hp
    refine ⟨_, e6, NoAdjFree_grown bs _ _ hna, ?_, ⟨loc, hloc, hpol⟩, ?_, ?_⟩
    · refine ⟨g1, g2, g3, ?_, ?_, ?_, g7⟩
      · show 8 ≤ s.ds.brk + E
        omega
      · show s.heap_end + E = (s.ds.brk + E - 8) / 32 * 32
        omega
      · show s.ds.brk + E ≤ s.ds.limit
        rw [e4]
        exact hg.2
    · rw [List.map_cons, List.nodup_cons]
      refine ⟨?_, hnd⟩
      intro hmem
      obtain ⟨x, hx, hxe⟩ := List.mem_map.1 hmem
      obtain ⟨x8, xb⟩ := hlive x hx
      simp only at hxe
      have hxq : x.1 - 8 = s.heap_start + span (dropFreeLast bs) := by omega
      rcases dropFreeLast_cases bs with ⟨w, c1, c2⟩ | ⟨c1, c2⟩
      · have hfree : (s.heap_start + span (dropFreeLast bs), w, FREE) ∈
            blocksAt s.heap_start bs :=
          (mem_blocksAt_iff _ _ _ _ _).2 ⟨dropFreeLast bs, [], c1, rfl⟩
        have hw : (w, FREE) ∈ bs := by rw [c1]; simp
        have hz := (hsz (w, FREE) hw).1
        simp only at hz
        have := blocksAt_alloc_ne_free _ _ _ _ _ _ xb hfree (by omega)
          (by have := (blockSize_ge x.2).1; omega) hpos
        omega
      · have := (blocksAt_ge bs _ _ _ xb).2
        rw [c1] at hxq
        simp only at this
        have hB := (blockSize_ge x.2).1
        omega
    · intro x hx
      rw [List.mem_cons] at hx
      rcases hx with hx | hx
      · subst hx
        refine ⟨by simp only; omega, ?_⟩
        have : s.heap_start + span (dropFreeLast bs) + 8 - 8 =
            s.heap_start + span (dropFreeLast bs) := by omega
        simp only [this]
        exact blocksAt_new (dropFreeLast bs) [] s.heap_start (blockSize n) _
      · obtain ⟨x8, xb⟩ := hlive x hx
        exact ⟨x8, blocksAt_grown bs s.heap_start _ _ _ _ xb⟩
  · rw [e1] at hm'
    cases hm'

/-- The invariant survives a call of `mm_free` on a live handle. -/
theorem Inv_free (s s' : State) (live : List (Nat × Nat)) (h n : Nat)
    (hinv : Inv s live) (hl : (h, n) ∈ live)
    (hm : mm_free h s = .ok () s') : Inv s' (live.erase (h, n)) := by
  obtain ⟨cW, cF, cA, cT, -⟩ := consts
  obtain ⟨bs, hok, hna, hp, ⟨loc, hloc, hpol⟩, hnd, hlive⟩ := hinv
  obtain ⟨x8, xb⟩ := hlive _ hl
  simp only at x8 xb
  obtain ⟨pre, post, e1, e2⟩ := (mem_blocksAt_iff _ _ _ _ _).1 xb
  subst e1
  obtain ⟨m', f1, f2, -, -⟩ := mm_free_layout s pre post (blockSize n) hok
  have hh : s.heap_start + span pre + 8 = h := by omega
  rw [hh, hm] at f1
  injection f1 with _ hs
  subst hs
  have hnd' : live.Nodup := List.Nodup.of_map _ hnd
  refine ⟨_, f2, NoAdjFree_coalesced pre post _ _ hna, hp, ⟨loc, hloc, hpol⟩, ?_, ?_⟩
  · exact List.Nodup.sublist (List.Sublist.map _ (List.erase_sublist _ _)) hnd
  · intro x hx
    obtain ⟨hne, hxl⟩ := (List.Nodup.mem_erase_iff hnd').1 hx
    obtain ⟨y8, yb⟩ := hlive x hxl
    refine ⟨y8, blocksAt_coalesced pre post s.heap_start _ _ _ yb ?_⟩
    intro hq
    apply hne
    have hfst : x.1 = (h, n).1 := by simp only; omega
    exact List.inj_on_of_nodup_map hnd hxl hl hfst

/-- The invariant holds in every reachable state under first fit and best fit
when the page size of the provider is a multiple of 32 that fits an `int` and
the limit of the break lies inside the address space. -/
theorem Reach_Inv (ap : AllocationPolicy) (s0 s : State) (live : List (Nat × Nat))
    (hap : ap = .ap_FirstFit ∨ ap = .ap_BestFit) (hps : s0.ds.pagesize % 32 = 0)
    (hpi : s0.ds.pagesize < 2147483648) (hlim : s0.ds.limit < W)
    (hr : Reach ap s0 s live) : Inv s live := by
  induction hr with
  | init s h => exact Inv_init ap s0 s hap hps hpi hlim h
  | malloc s live fuel n h s' _ hn hm ih => exact Inv_malloc s s' live fuel n h ih hn hm
  | free s live h n s' _ hl hm ih => exact Inv_free s s' live h n ih hl hm
/-! ## A hit under first fit and best fit -/

/-- When some FREE block fits, `mm_malloc` under first fit or best fit places
the request in a FREE block of the list and leaves the provider alone. -/
theorem mm_malloc_fit (s : State) (bs : List (Nat × Nat)) (n fuel : Nat) (loc : Locator)
    (hok : HeapOK s bs) (hloc : s.get_block = some loc) (hpol : loc ≠ .nf)
    (hn : n ≤ 18446744073709551568) (hfuel : 2 * bs.length + 1 ≤ fuel)
    (hfit : ∃ x ∈ bs, Fits (blockSize n) x) :
    ∃ pre z post m', bs = pre ++ (z, FREE) :: post ∧ blockSize n ≤ z ∧
      mm_malloc fuel n s = .ok (s.heap_start + span pre + 8) { s with mem := m' } ∧
      HeapOK { s with mem := m' } (pre ++ (placed (blockSize n) z ++ post)) := by
  obtain ⟨cW, cF, cA, cT, -⟩ := consts
  have hB := ROUND_UP_request n hn
  obtain ⟨B, hBdef⟩ : ∃ B, B = blockSize n := ⟨_, rfl⟩
  have hBv : B = (n + 16 + 31) / 32 * 32 := hBdef
  rw [← hBv] at hB
  rw [← hBdef] at hfit ⊢
  have hB32 : B % 32 = 0 := by omega
  have hBge : 32 ≤ B := by omega
  obtain ⟨r, nb, hget, hres⟩ :=
    locator_outcome s bs B fuel loc hok hloc (fun h => absurd h hpol) hfuel
  have hst := call_get_block_state fuel B s _ r loc hloc hpol hget
  rw [hst] at hget
  rcases hres with ⟨-, -, hno⟩ | ⟨pre, z, post, p1, p2, p3⟩
  · obtain ⟨x, hx, hxf⟩ := hfit
    exact absurd hxf (hno x hx)
  · subst p1
    subst p2
    have hget' : call_get_block fuel B s =
        .ok (s.heap_start + span pre) { s with next_block := s.next_block } := hget
    obtain ⟨m', q1, q2, -⟩ :=
      mm_malloc_hit s pre post z n B fuel s.next_block hok hB hB32 hBge p3 hget'
    exact ⟨pre, z, post, m', rfl, p3, q1, q2⟩

/-- Releasing the block that was just placed in a FREE block without FREE
neighbours gives the block list back. -/
theorem coalesced_placed (pre post : List (Nat × Nat)) (B z : Nat) (hBz : B ≤ z)
    (hna : NoAdjFree (pre ++ (z, FREE) :: post)) :
    ∃ rest, pre ++ (placed B z ++ post) = pre ++ (B, ALLOC) :: rest ∧
      coalesced pre B rest = pre ++ (z, FREE) :: post := by
  obtain ⟨a1, a2, a3, a4⟩ := NoAdjFree_around pre post z hna
  unfold placed
  by_cases c : B < z
  · rw [if_pos c]
    refine ⟨(z - B, FREE) :: post, rfl, ?_⟩
    unfold coalesced
    rw [a1, a2]
    have e1 : freeHead ((z - B, FREE) :: post) = z - B := by simp [freeHead]
    have e2 : dropFreeHead ((z - B, FREE) :: post) = post := by simp [dropFreeHead]
    rw [e1, e2]
    have e3 : 0 + B + (z - B) = z := by omega
    rw [e3]
  · rw [if_neg c]
    refine ⟨post, rfl, ?_⟩
    unfold coalesced
    rw [a1, a2, a3, a4]
    have e3 : 0 + B + 0 = z := by omega
    rw [e3]
/-! ## Next fit from a cursor that reaches the block list -/

/-- The next-fit search from a cursor that reaches the block list over
left-behind headers: it returns not-found with the state unchanged when no
block of the list fits, and otherwise an address inside the heap at which a
FREE tag of at least the requested size starts a range that ends inside the
heap. -/
theorem nf_chain_outcome (s : State) (bs : List (Nat × Nat)) (size : Nat) (hok : HeapOK s bs)
    {k q : Nat} (hc : Chain s.mem s.heap_start s.heap_end bs k q) :
    ∀ fuel, k + 2 * bs.length + 1 ≤ fuel →
      ∃ r nb, nf_loop s size fuel q 0 = .ok r { s with next_block := nb } ∧
        ((r = 0 ∧ nb = s.next_block ∧ ∀ x ∈ bs, ¬ Fits size x) ∨
          (s.heap_start ≤ r ∧ r + size ≤ s.heap_end)) := by
  obtain ⟨cW, cF, cA, -, -⟩ := consts
  obtain ⟨h1, h2, h3, h4, h5, h6, h7⟩ := hok
  have hok : HeapOK s bs := ⟨h1, h2, h3, h4, h5, h6, h7⟩
  have hff : ∀ (l : List (Nat × Nat)) (p e : Nat), Layout s.mem p l e →
      (∃ x ∈ l, Fits size x) → p ≤ firstFit size p l ∧ firstFit size p l + size ≤ e := by
    intro l p e hl hfit
    rcases firstFit_cases size l p with ⟨hno, -⟩ | ⟨pre, b, post, e1, e2, e3, -⟩
    · obtain ⟨x, hx, hf⟩ := hfit
      exact absurd hf (hno x hx)
    · subst e1
      have h := ((Layout_append s.mem pre (b :: post) p e).1 hl).2
      have h3 := Layout_end h.2.2.2.2.2
      have hb : size ≤ b.1 := e3.2
      omega
  induction hc with
  | real k q hq =>
    intro fuel hf
    obtain ⟨pre, b, post, rfl, rfl⟩ := (mem_headers_iff bs s.heap_start q).1 hq
    obtain ⟨a1, a2, a3⟩ := nf_loop_from s pre post b size fuel hok (by omega)
    obtain ⟨l1, l2⟩ := (Layout_append s.mem pre (b :: post) s.heap_start s.heap_end).1 h7
    have hle := Layout_end l2
    by_cases hbp : ∃ x ∈ b :: post, Fits size x
    · obtain ⟨nb, hnb⟩ := a1 hbp
      have := hff _ _ _ l2 hbp
      exact ⟨_, nb, hnb, Or.inr ⟨by omega, this.2⟩⟩
    · have hno : ∀ x ∈ b :: post, ¬ Fits size x := fun x hx hfx => hbp ⟨x, hx, hfx⟩
      by_cases hpre : ∃ x ∈ pre, Fits size x
      · obtain ⟨nb, hnb⟩ := a2 hno hpre
        have := hff _ _ _ l1 hpre
        exact ⟨_, nb, hnb, Or.inr ⟨this.1, by omega⟩⟩
      · have hall : ∀ x ∈ pre ++ b :: post, ¬ Fits size x := by
          intro x hx hfx
          rcases List.mem_append.1 hx with hx | hx
          · exact hpre ⟨x, hx, hfx⟩
          · exact hno x hx hfx
        exact ⟨0, s.next_block, a3 hall, Or.inl ⟨rfl, rfl, hall⟩⟩
  | last k q z g1 g2 g3 g4 g5 g6 =>
    intro fuel hf
    obtain ⟨fuel, rfl⟩ : ∃ f, fuel = f + 1 := ⟨fuel - 1, by omega⟩
    rw [nf_loop_step s size fuel q z 0 g1 (by omega) (by omega), g6, (sentinel_size h6).1]
    by_cases hz : size ≤ z
    · rw [if_pos hz, if_neg (by omega)]
      exact ⟨q, _, rfl, Or.inr ⟨g5, by omega⟩⟩
    · rw [if_neg hz]
      simp only [if_true, Nat.zero_add, Nat.reduceEqDiff, if_false, lt_irrefl]
      obtain ⟨c, cs, hcs⟩ : ∃ c cs, bs = c :: cs := by
        cases bs with
        | nil =>
          have : s.heap_start = s.heap_end := h7
          omega
        | cons c cs => exact ⟨c, cs, rfl⟩
      subst hcs
      obtain ⟨q1, q2⟩ := nf_loop_pass s size (by omega) h6 cs c s.heap_start 1 (by omega) h7
      by_cases hfit : ∃ x ∈ c :: cs, Fits size x
      · obtain ⟨nb, hnb⟩ := q1 hfit fuel (by omega)
        exact ⟨_, nb, hnb, Or.inr (hff _ _ _ h7 hfit)⟩
      · have hno : ∀ x ∈ c :: cs, ¬ Fits size x := fun x hx hfx => hfit ⟨x, hx, hfx⟩
        have e : fuel = (fuel - (c :: cs).length) + (c :: cs).length := by omega
        rw [e, q2 hno]
        simp only [Nat.reduceAdd, if_true]
        exact ⟨0, s.next_block, rfl, Or.inl ⟨rfl, rfl, hno⟩⟩
  | hop k q z g1 g2 g3 g4 g5 g6 ih =>
    intro fuel hf
    obtain ⟨fuel, rfl⟩ : ∃ f, fuel = f + 1 := ⟨fuel - 1, by omega⟩
    have hlt := Chain_lt h7 h3 g6
    have hsz := Chain_size h7 h3 (by omega) g6
    rw [nf_loop_step s size fuel q z 0 g1 (by omega) (by omega)]
    by_cases hz : size ≤ z
    · rw [if_pos hz, if_pos (by omega)]
      exact ⟨q, _, rfl, Or.inr ⟨g5, by omega⟩⟩
    · have hne : ¬ (GET_SIZE s.mem (q + z) = 0) := by omega
      have hlt' : q + z < s.heap_end := by omega
      simp only [if_neg hz, hne, if_false, OfNat.zero_ne_ofNat, hlt', if_true]
      exact ih fuel (by omega)

/-- What the active locator returns on a well-formed heap, under next fit from
a cursor that reaches the block list over left-behind headers: not-found with
the state unchanged when no block of the list fits, and otherwise an address
`r` with `heap_start ≤ r` and `r + B ≤ heap_end`. -/
theorem locator_chain_outcome (s : State) (bs : List (Nat × Nat)) (B fuel k : Nat)
    (loc : Locator) (hok : HeapOK s bs) (hloc : s.get_block = some loc)
    (hcur : loc = .nf → Chain s.mem s.heap_start s.heap_end bs k s.next_block)
    (hfuel : k + 2 * bs.length + 1 ≤ fuel) :
    ∃ r nb, call_get_block fuel B s = .ok r { s with next_block := nb } ∧
      ((r = 0 ∧ nb = s.next_block ∧ ∀ x ∈ bs, ¬ Fits B x) ∨
        (r ≠ 0 ∧ s.heap_start ≤ r ∧ r + B ≤ s.heap_end)) := by
  have h8 := hok.2.1
  by_cases hnf : loc = .nf
  · subst hnf
    rw [call_nf fuel B s hloc]
    unfold nf_get_free_block
    rw [if_neg hok.1]
    obtain ⟨r, nb, e1, e2⟩ := nf_chain_outcome s bs B hok (hcur rfl) fuel hfuel
    refine ⟨r, nb, e1, ?_⟩
    rcases e2 with e2 | ⟨e2, e3⟩
    · exact Or.inl e2
    · exact Or.inr ⟨by omega, e2, e3⟩
  · obtain ⟨r, nb, e1, e2⟩ :=
      locator_outcome s bs B fuel loc hok hloc (fun h => absurd h hnf) (by omega)
    refine ⟨r, nb, e1, ?_⟩
    rcases e2 with e2 | ⟨pre, z, post, p1, p2, p3⟩
    · exact Or.inl e2
    · subst p1
      have hl := ((Layout_append s.mem pre ((z, FREE) :: post) s.heap_start s.heap_end).1
        hok.2.2.2.2.2.2).2
      have hend := Layout_end hl.2.2.2.2.2
      simp only at hend
      exact Or.inr ⟨by omega, by omega, by omega⟩

/-- On a well-formed heap, under next fit from a cursor that reaches the block
list over left-behind headers, `mm_malloc(n)` with `n ≤ 2 ^ 64 - 48` returns
when some block of the list fits or else the provider grants the extension:
the handle is `header + 8` for the header the locator or, after not-found,
`expand_heap` returned, the block of the computed size at `header` lies inside
the heap, and its header and footer hold `PACK(blocksize, ALLOC)`. -/
theorem mm_malloc_total (s : State) (bs : List (Nat × Nat)) (n fuel k : Nat) (loc : Locator)
    (hok : HeapOK s bs) (hloc : s.get_block = some loc)
    (hcur : loc = .nf → Chain s.mem s.heap_start s.heap_end bs k s.next_block)
    (hn : n ≤ 18446744073709551568) (hfuel : k + 2 * bs.length + 1 ≤ fuel)
    (hgrow : (∃ x ∈ bs, Fits (blockSize n) x) ∨ (ProvOK s ∧ Granted s bs (blockSize n))) :
    ∃ r s1 header s2 s', call_get_block fuel (blockSize n) s = .ok r s1 ∧
      (if r = 0 then expand_heap (blockSize n) s1 else .ok r s1) = .ok header s2 ∧
      mm_malloc fuel n s = .ok (header + 8) s' ∧
      s.heap_start ≤ header ∧ header + blockSize n ≤ s'.heap_end ∧
      GET s'.mem header = PACK (blockSize n) ALLOC ∧
      GET s'.mem (header + blockSize n - 8) = PACK (blockSize n) ALLOC ∧
      s'.heap_start = s.heap_start ∧ s'.ds.start = s.ds.start ∧ s'.heap_end + 8 ≤ W ∧
      (s.heap_end ≤ s.ds.brk → s'.heap_end ≤ s'.ds.brk) := by
  obtain ⟨cW, cF, cA, cT, -⟩ := consts
  have hB := ROUND_UP_request n hn
  obtain ⟨B, hBdef⟩ : ∃ B, B = blockSize n := ⟨_, rfl⟩
  have hBv : B = (n + 16 + 31) / 32 * 32 := hBdef
  rw [← hBv] at hB
  rw [← hBdef] at hgrow ⊢
  have hB32 : B % 32 = 0 := by omega
  have hBge : 32 ≤ B := by omega
  have h4 := hok.2.2.2.1
  have h8 := hok.2.1
  obtain ⟨r, nb, hget, hres⟩ := locator_chain_outcome s bs B fuel k loc hok hloc hcur hfuel
  rcases hres with ⟨hr0, hnb, hno⟩ | ⟨hr, r1, r2⟩
  · subst hr0 hnb
    have hget' : call_get_block fuel B s = .ok 0 s := hget
    obtain ⟨hp, hg⟩ : ProvOK s ∧ Granted s bs B := by
      rcases hgrow with ⟨y, hy, hyf⟩ | hg
      · exact absurd hyf (hno y hy)
      · exact hg
    obtain ⟨E, m', e1, e2, e3, -, e5, e6, e7, -, e9, -⟩ :=
      expand_heap_granted s bs B hok hno (by omega) (by omega) hp hg
    have e64 := e6.2.2.2.1
    have e64' : s.heap_end + E + 8 ≤ W := e64
    obtain ⟨m'', q1, q2, q3⟩ := place_words (s.heap_end - freeLast bs) B
      { s with
        ds := { s.ds with brk := s.ds.brk + E }
        mem := m'
        heap_end := s.heap_end + E
        ds_heap_brk := s.ds.brk + E } hB32 hBge (by omega)
    refine ⟨0, s, s.heap_end - freeLast bs,
      { s with
        ds := { s.ds with brk := s.ds.brk + E }
        mem := m'
        heap_end := s.heap_end + E
        ds_heap_brk := s.ds.brk + E },
      { s with
        ds := { s.ds with brk := s.ds.brk + E }
        mem := m''
        heap_end := s.heap_end + E
        ds_heap_brk := s.ds.brk + E }, hget', ?_, ?_, by omega, ?_, q2, q3, rfl, rfl,
      e64', ?_⟩
    · rw [if_pos rfl, e5]
    · unfold mm_malloc
      rw [if_neg hok.1, hB]
      simp only [hget', if_true, e5, q1]
    · show s.heap_end - freeLast bs + B ≤ s.heap_end + E
      omega
    · intro h
      show s.heap_end + E ≤ s.ds.brk + E
      omega
  · obtain ⟨m'', q1, q2, q3⟩ := place_words r B { s with next_block := nb } hB32 hBge (by omega)
    refine ⟨r, { s with next_block := nb }, r, { s with next_block := nb },
      { s with next_block := nb, mem := m'' }, hget, by rw [if_neg hr], ?_, r1, r2, q2, q3,
      rfl, rfl, h4, fun h => h⟩
    unfold mm_malloc
    rw [if_neg hok.1, hB]
    simp only [hget, if_neg hr, q1]
/-! ## The block list after `mm_malloc` -/

/-- On a well-formed heap (under next fit: with the cursor on a block header)
`mm_malloc` returns, when some FREE block fits or else the provider grants the
extension, and leaves a well-formed heap in which the returned handle is the
payload of an ALLOCATED block of the computed block size. -/
theorem mm_malloc_layout (s : State) (bs : List (Nat × Nat)) (n fuel : Nat) (loc : Locator)
    (hok : HeapOK s bs) (hloc : s.get_block = some loc)
    (hcur : loc = .nf → s.next_block ∈ headers s.heap_start bs)
    (hn : n ≤ 18446744073709551568) (hfuel : 2 * bs.length + 1 ≤ fuel)
    (hgrow : (∃ x ∈ bs, Fits ((n + 16 + 31) / 32 * 32) x) ∨
      (ProvOK s ∧ Granted s bs ((n + 16 + 31) / 32 * 32))) :
    ∃ s' pre' post', mm_malloc fuel n s = .ok (s'.heap_start + span pre' + 8) s' ∧
      HeapOK s' (pre' ++ ((n + 16 + 31) / 32 * 32, ALLOC) :: post') ∧
      s'.heap_start = s.heap_start ∧ s'.get_block = s.get_block ∧ s.heap_end ≤ s'.heap_end ∧
      s'.ds.start = s.ds.start ∧ (s.heap_end ≤ s.ds.brk → s'.heap_end ≤ s'.ds.brk) ∧
      ((∃ x ∈ bs, Fits ((n + 16 + 31) / 32 * 32) x) →
        s'.heap_end = s.heap_end ∧ s'.ds = s.ds ∧ s'.ds_heap_brk = s.ds_heap_brk) ∧
      ((∀ x ∈ bs, ¬ Fits ((n + 16 + 31) / 32 * 32) x) →
        s.heap_end < s'.heap_end ∧ s.ds.brk < s'.ds.brk ∧ s'.next_block = s.next_block) := by
  obtain ⟨cW, cF, cA, cT, -⟩ := consts
  have hB := ROUND_UP_request n hn
  obtain ⟨B, hBdef⟩ : ∃ B, B = (n + 16 + 31) / 32 * 32 := ⟨_, rfl⟩
  rw [← hBdef] at hB hgrow ⊢
  have hB32 : B % 32 = 0 := by omega
  have hBge : 32 ≤ B := by omega
  obtain ⟨r, nb, hget, hres⟩ := locator_outcome s bs B fuel loc hok hloc hcur hfuel
  rcases hres with ⟨hr0, hnb, hno⟩ | ⟨pre, z, post, p1, p2, p3⟩
  · subst hr0 hnb
    obtain ⟨hp, hg⟩ : ProvOK s ∧ Granted s bs B := by
      rcases hgrow with ⟨y, hy, hyf⟩ | hg
      · exact absurd hyf (hno y hy)
      · exact hg
    obtain ⟨E, m', e1, e2, e3, e4, e5, e6, e7⟩ :=
      mm_malloc_miss_granted s bs n B fuel hok hB hB32 hBge (by omega) hno hp hg hget
    have hpl : placed B (freeLast bs + E) ++ [] = (B, ALLOC) ::
        (if B < freeLast bs + E then [(freeLast bs + E - B, FREE)] else []) := by
      unfold placed; simp
    rw [hpl] at e6
    refine ⟨_, dropFreeLast bs, _, e5, e6, rfl, rfl, ?_, rfl, ?_, ?_, ?_⟩
    · show s.heap_end ≤ s.heap_end + E
      omega
    · intro h
      show s.heap_end + E ≤ s.ds.brk + E
      omega
    · rintro ⟨y, hy, hyf⟩
      exact absurd hyf (hno y hy)
    · intro _
      refine ⟨?_, ?_, rfl⟩
      · show s.heap_end < s.heap_end + E
        omega
      · show s.ds.brk < s.ds.brk + E
        omega
  · subst p1
    subst p2
    obtain ⟨m', q1, q2, q3, q4, q5, q6⟩ :=
      mm_malloc_hit s pre post z n B fuel nb hok hB hB32 hBge p3 hget
    have hpl : placed B z ++ post = (B, ALLOC) ::
        ((if B < z then [(z - B, FREE)] else []) ++ post) := by
      unfold placed; simp
    rw [hpl] at q2
    refine ⟨_, pre, _, q1, q2, rfl, rfl, Nat.le_refl _, rfl, fun h => h,
      fun _ => ⟨rfl, rfl, rfl⟩, ?_⟩
    intro hno
    exact absurd (show Fits B (z, FREE) from ⟨rfl, p3⟩) (hno _ (by simp))
/-! ## Walks that never end -/

/-- C1 (fails under next fit): after the trace `a = malloc 1; b = malloc 1;
free a; a' = malloc 1; free b; free a'; d = malloc 1; free d`, in which every
`free` releases a live handle, the walk of `mm_check` counts one block whose
header and footer disagree and ends at 73600, beyond `heap_end` = 69600. -/
theorem next_fit_stale_cursor_breaks_check :
    (runOps 100 [.malloc 1, .malloc 1, .free 0, .malloc 1, .free 1, .free 2, .malloc 1, .free 3]
        heapNF []).map (fun r => (r.2, r.1.heap_end, (mm_check 100 r.1).value?)) =
      some ([(65576, false), (65608, false), (65576, false), (65608, false)], 69600,
        some (1, 73600, false)) := by
  decide

/-- C2 (fails under next fit): after the trace below, in which every `free`
releases a live handle, the handle 65608 (a request of 1 byte) and the handle
65576 (a request of 40 bytes) are both live, and 65608 lies inside
`[65576, 65576 + 40)`. -/
theorem next_fit_stale_cursor_overlapping_handles :
    (runOps 100 [.malloc 1, .malloc 1, .malloc 1, .free 0, .malloc 1, .free 1, .free 3,
        .malloc 1, .malloc 40, .malloc 40] heapNF []).map (fun r => r.2) =
      some [(65576, false), (65608, false), (65640, true), (65576, false), (65608, true),
        (65672, true), (65576, true)] ∧
      65576 ≤ 65608 ∧ 65608 < 65576 + 40 := by
  decide

/-- C4 (as stated, fails): for the 64-bit request size `2 ^ 64 - 16` the block
size `ROUND_UP(8 + n + 8)` wraps to `0`, which is below the 32-byte minimum. -/
theorem blocksize_wraps_to_zero :
    ROUND_UP (wadd (wadd TYPE_SIZE 18446744073709551600) TYPE_SIZE) = 0 ∧
      ¬ (32 ≤ ROUND_UP (wadd (wadd TYPE_SIZE 18446744073709551600) TYPE_SIZE)) := by
  decide

/-- C4 (amended): for every request size `n ≤ 2 ^ 64 - 48` the block size
`ROUND_UP(8 + n + 8)`, computed in wrapping 64-bit arithmetic, is the multiple
of 32 obtained by rounding `n + 16` up; it is at least 32 and at least
`n + 16`; a request of 0 bytes yields 32. -/
theorem blocksize_rounds_up (n : Nat) (hn : n ≤ 18446744073709551568) :
    ROUND_UP (wadd (wadd TYPE_SIZE n) TYPE_SIZE) = (n + 16 + 31) / 32 * 32 ∧
      ROUND_UP (wadd (wadd TYPE_SIZE n) TYPE_SIZE) % 32 = 0 ∧
      32 ≤ ROUND_UP (wadd (wadd TYPE_SIZE n) TYPE_SIZE) ∧
      n + 16 ≤ ROUND_UP (wadd (wadd TYPE_SIZE n) TYPE_SIZE) ∧
      ROUND_UP (wadd (wadd TYPE_SIZE 0) TYPE_SIZE) = 32 := by
  unfold ROUND_UP wadd wsub wmul W TYPE_SIZE BS
  omega

theorem blocksize_rounds_up_witness :
    (70 : Nat) ≤ 18446744073709551568 ∧
      ROUND_UP (wadd (wadd TYPE_SIZE 70) TYPE_SIZE) = (70 + 16 + 31) / 32 * 32 ∧
      ROUND_UP (wadd (wadd TYPE_SIZE 70) TYPE_SIZE) = 96 :=
  ⟨by decide, (blocksize_rounds_up 70 (by decide)).1, by decide⟩

/-- C5 (the code does otherwise): with a provider that refuses the extension,
`mm_malloc(5000)` on the fresh first-fit heap does stop, but only at the
assertion inside `coalesce`, after `expand_heap` has overwritten the footer of
the last block at 69592 (it held `PACK(4032, FREE)`, it now holds
`PACK(4096, FREE)`); `heap_end` and the break keep their values. -/
theorem expand_heap_writes_after_refused_sbrk :
    (ds_sbrk heapFull.ds 4096).1 = W - 1 ∧
      (mm_malloc 100 5000 heapFull).fault? = some Fault.assertion ∧
      GET heapFull.mem 69592 = PACK 4032 FREE ∧
      GET (mm_malloc 100 5000 heapFull).state.mem 69592 = PACK 4096 FREE ∧
      (mm_malloc 100 5000 heapFull).state.heap_end = heapFull.heap_end ∧
      (mm_malloc 100 5000 heapFull).state.ds.brk = heapFull.ds.brk := by
  decide

/-- C6: `mm_free` on a handle whose header word has status FREE returns with the
state unchanged (every heap byte, `heap_start`, `heap_end`, the cursor); and on
a well-formed heap, releasing a live handle twice gives the state that the
first release gave. -/
theorem mm_free_twice_is_once :
    (∀ (s : State) (h : Nat), s.mm_initialized ≠ 0 →
      GET_STATUS s.mem (wsub h TYPE_SIZE) = FREE → mm_free h s = .ok () s) ∧
    (∀ (s : State) (pre post : List (Nat × Nat)) (sz : Nat),
      HeapOK s (pre ++ (sz, ALLOC) :: post) →
      ∃ s', mm_free (s.heap_start + span pre + 8) s = .ok () s' ∧
        mm_free (s.heap_start + span pre + 8) s' = .ok () s') := by
  obtain ⟨cW, cF, cA, cT, -⟩ := consts
  have hnoop : ∀ (s : State) (h : Nat), s.mm_initialized ≠ 0 →
      GET_STATUS s.mem (wsub h TYPE_SIZE) = FREE → mm_free h s = .ok () s := by
    intro s h hinit hfree
    unfold mm_free
    rw [if_neg hinit, if_pos (by rw [hfree]; omega)]
  refine ⟨hnoop, ?_⟩
  intro s pre post sz hok
  obtain ⟨m', e1, ok1, -, st1⟩ := mm_free_layout s pre post sz hok
  refine ⟨_, e1, hnoop _ _ ok1.1 ?_⟩
  obtain ⟨f1, f2, f3, f4, f5, f6, f7, f8, f9, f10⟩ :=
    free_facts (m := s.mem) rfl rfl rfl hok.2.2.1 hok.2.2.2.2.2.2
  have h4 := hok.2.2.2.1
  have hw : wsub (s.heap_start + span pre + 8) TYPE_SIZE = s.heap_start + span pre := by
    rw [wsub_eq (by omega) (by omega)]; omega
  rw [hw]
  show GET_STATUS m' (s.heap_start + span pre) = FREE
  by_cases hL : 0 < freeLast pre
  · exact GET_STATUS_PACK (st1 hL) (by omega) (by omega)
  · have hl := ok1.2.2.2.2.2.2
    have hl' : Layout m' s.heap_start (coalesced pre sz post) s.heap_end := hl
    unfold coalesced at hl'
    obtain ⟨-, hb⟩ := (Layout_append m' _ _ _ _).1 hl'
    have e : s.heap_start + span (dropFreeLast pre) = s.heap_start + span pre := by omega
    rw [e] at hb
    exact GET_STATUS_PACK hb.2.2.2.1 (by have := hb.2.1; simp only at this; omega) (by omega)

theorem mm_free_twice_is_once_witness :
    heapTwo.mm_initialized ≠ 0 ∧ HeapOK heapTwo ([] ++ (32, ALLOC) :: [(32, ALLOC), (3968, FREE)]) ∧
      ∃ s', mm_free (heapTwo.heap_start + span [] + 8) heapTwo = .ok () s' ∧
        mm_free (heapTwo.heap_start + span [] + 8) s' = .ok () s' :=
  ⟨by decide, by decide,
    mm_free_twice_is_once.2 heapTwo [] [(32, ALLOC), (3968, FREE)] 32 (by decide)⟩

/-- C7: on a well-formed heap whose cursor is a block header, under each of the
three policies, after the handles of two adjacent ALLOCATED blocks of sizes
`s1` and `s2` have been released, in either order, `mm_malloc (s1 + s2 - 16)`
returns a non-null handle and leaves `heap_end`, the provider's break and
`ds_heap_brk` as they were before the call. -/
theorem coalesced_pair_is_reused (s : State) (pre post : List (Nat × Nat)) (s1 s2 fuel : Nat)
    (loc : Locator) (hok : HeapOK s (pre ++ (s1, ALLOC) :: (s2, ALLOC) :: post))
    (hcur : s.next_block ∈ headers s.heap_start (pre ++ (s1, ALLOC) :: (s2, ALLOC) :: post))
    (hloc : s.get_block = some loc)
    (hfuel : 2 * (pre ++ (s1, ALLOC) :: (s2, ALLOC) :: post).length + 3 ≤ fuel) :
    (∃ sa sb h sf, mm_free (s.heap_start + span pre + 8) s = .ok () sa ∧
      mm_free (s.heap_start + span pre + s1 + 8) sa = .ok () sb ∧
      mm_malloc fuel (s1 + s2 - 16) sb = .ok h sf ∧ h ≠ 0 ∧ sf.heap_end = sb.heap_end ∧
      sf.ds.brk = sb.ds.brk ∧ sf.ds_heap_brk = sb.ds_heap_brk) ∧
    (∃ sb sa h sf, mm_free (s.heap_start + span pre + s1 + 8) s = .ok () sb ∧
      mm_free (s.heap_start + span pre + 8) sb = .ok () sa ∧
      mm_malloc fuel (s1 + s2 - 16) sa = .ok h sf ∧ h ≠ 0 ∧ sf.heap_end = sa.heap_end ∧
      sf.ds.brk = sa.ds.brk ∧ sf.ds_heap_brk = sa.ds_heap_brk) := by
  obtain ⟨cW, cF, cA, cT, -⟩ := consts
  have hc : Chain s.mem s.heap_start s.heap_end
      (pre ++ (s1, ALLOC) :: (s2, ALLOC) :: post) 0 s.next_block := Chain.real 0 _ hcur
  -- the block size of the request is `s1 + s2`
  have hsz : ROUND_UP (wadd (wadd TYPE_SIZE (s1 + s2 - 16)) TYPE_SIZE) = s1 + s2 := by
    obtain ⟨-, hblk⟩ := (Layout_append s.mem pre _ _ _).1 hok.2.2.2.2.2.2
    obtain ⟨a1, a2, -, -, -, hblk2⟩ := hblk
    obtain ⟨b1, b2, -, -, -, hrest⟩ := hblk2
    have hend := Layout_end hrest
    have h4 := hok.2.2.2.1
    simp only at a1 a2 b1 b2 hend
    exact ROUND_UP_exact (s1 + s2) (by omega) (by omega) (by omega)
  constructor
  · obtain ⟨ma, mb, bs, e1, e2, ok2, hfit, c2, hlen⟩ := two_frees_ab s pre post s1 s2 0 _ hok hc
    obtain ⟨h, sf, r1, r2, r3, r4, r5⟩ := mm_malloc_no_growth { s with mem := mb } bs
      (s1 + s2 - 16) fuel 2 loc ok2 hloc (by rw [hsz]; exact hfit) (by simpa using c2) (by omega)
    exact ⟨_, _, h, sf, e1, e2, r1, r2, r3, by rw [r4], r5⟩
  · obtain ⟨mb, ma, bs, e1, e2, ok2, hfit, c2, hlen⟩ := two_frees_ba s pre post s1 s2 0 _ hok hc
    obtain ⟨h, sf, r1, r2, r3, r4, r5⟩ := mm_malloc_no_growth { s with mem := ma } bs
      (s1 + s2 - 16) fuel 2 loc ok2 hloc (by rw [hsz]; exact hfit) (by simpa using c2) (by omega)
    exact ⟨_, _, h, sf, e1, e2, r1, r2, r3, by rw [r4], r5⟩

theorem coalesced_pair_is_reused_witness :
    HeapOK heapTwo ([] ++ (32, ALLOC) :: (32, ALLOC) :: [(3968, FREE)]) ∧
      (∃ sa sb h sf, mm_free (heapTwo.heap_start + span [] + 8) heapTwo = .ok () sa ∧
        mm_free (heapTwo.heap_start + span [] + 32 + 8) sa = .ok () sb ∧
        mm_malloc 9 (32 + 32 - 16) sb = .ok h sf ∧ h ≠ 0 ∧ sf.heap_end = sb.heap_end ∧
        sf.ds.brk = sb.ds.brk ∧ sf.ds_heap_brk = sb.ds_heap_brk) :=
  ⟨by decide, (coalesced_pair_is_reused heapTwo [] [(3968, FREE)] 32 32 9 Locator.nf (by decide)
    (by decide) (by decide) (by decide)).1⟩

/-- C8: on a well-formed heap `bf_get_free_block` returns, without changing the
state; it returns not-found exactly when no FREE block has size `≥ size`, and
otherwise the header of a fitting block that is strictly smaller than every
fitting block at a lower address and at most as large as every fitting block
at a higher address: a smallest fitting block, the lowest one among equals. -/
theorem bf_get_free_block_smallest (s : State) (bs : List (Nat × Nat)) (size fuel : Nat)
    (hok : HeapOK s bs) (hfuel : bs.length + 1 ≤ fuel) :
    ∃ r, bf_get_free_block fuel size s = .ok r s ∧
      (r = 0 ↔ ∀ x ∈ bs, ¬ Fits size x) ∧
      (r ≠ 0 → ∃ pre x post, bs = pre ++ x :: post ∧ r = s.heap_start + span pre ∧
        Fits size x ∧ (∀ c ∈ pre, Fits size c → x.1 < c.1) ∧
        (∀ c ∈ post, Fits size c → x.1 ≤ c.1)) := by
  obtain ⟨t1, t2⟩ := bf_top s bs size fuel hok hfuel
  have h2 := hok.2.1
  by_cases hfit : ∃ x ∈ bs, Fits size x
  · obtain ⟨r, ms, e, pre, x, post, p1, p2, p3, p4, p5, p6⟩ := t2 hfit
    have hr : r ≠ 0 := by omega
    refine ⟨r, e, ⟨fun h => absurd h hr, fun hno => ?_⟩, fun _ =>
      ⟨pre, x, post, p1, p2, p4, by rw [p3]; exact p5, by rw [p3]; exact p6⟩⟩
    obtain ⟨y, hy, hyf⟩ := hfit
    exact absurd hyf (hno y hy)
  · have hno : ∀ x ∈ bs, ¬ Fits size x := fun x hx hf => hfit ⟨x, hx, hf⟩
    exact ⟨0, t1 hno, ⟨fun _ => hno, fun _ => rfl⟩, fun h => absurd rfl h⟩

theorem bf_get_free_block_smallest_witness :
    HeapOK heapBF [(64, FREE), (32, ALLOC), (128, FREE), (32, ALLOC), (96, FREE), (32, ALLOC),
        (3648, ALLOC)] ∧
      ROUND_UP (wadd (wadd TYPE_SIZE 70) TYPE_SIZE) = 96 ∧
      (bf_get_free_block 8 96 heapBF).value? =
        some (heapBF.heap_start + span [(64, FREE), (32, ALLOC), (128, FREE), (32, ALLOC)]) ∧
      ∃ r, bf_get_free_block 8 96 heapBF = .ok r heapBF ∧
        (r = 0 ↔ ∀ x ∈ [(64, FREE), (32, ALLOC), (128, FREE), (32, ALLOC), (96, FREE),
          (32, ALLOC), (3648, ALLOC)], ¬ Fits 96 x) ∧
        (r ≠ 0 → ∃ pre x post, [(64, FREE), (32, ALLOC), (128, FREE), (32, ALLOC), (96, FREE),
            (32, ALLOC), (3648, ALLOC)] = pre ++ x :: post ∧
          r = heapBF.heap_start + span pre ∧ Fits 96 x ∧ (∀ c ∈ pre, Fits 96 c → x.1 < c.1) ∧
          (∀ c ∈ post, Fits 96 c → x.1 ≤ c.1)) :=
  ⟨by decide, by decide, by decide,
    bf_get_free_block_smallest heapBF _ 96 8 (by decide) (by decide)⟩

/-- C9: on a well-formed heap `ff_get_free_block` returns, without changing the
heap or the cursor; it returns not-found exactly when no FREE block has size
`≥ size`, and otherwise the header of the first fitting block in address order. -/
theorem ff_get_free_block_lowest (s : State) (bs : List (Nat × Nat)) (size fuel : Nat)
    (hok : HeapOK s bs) (hfuel : bs.length + 1 ≤ fuel) :
    ∃ r, ff_get_free_block fuel size s = .ok r s ∧
      (r = 0 ↔ ∀ x ∈ bs, ¬ Fits size x) ∧
      (r ≠ 0 → ∃ pre x post, bs = pre ++ x :: post ∧ r = s.heap_start + span pre ∧
        Fits size x ∧ ∀ c ∈ pre, ¬ Fits size c) := by
  have h2 := hok.2.1
  refine ⟨_, ff_top s bs size fuel hok hfuel, ?_, ?_⟩
  · rcases firstFit_cases size bs s.heap_start with ⟨hno, h0⟩ | ⟨pre, x, post, p1, p2, p3, p4⟩
    · exact ⟨fun _ => hno, fun _ => h0⟩
    · constructor
      · intro h; omega
      · intro hno
        exact absurd p3 (hno x (by rw [p1]; simp))
  · intro hr
    rcases firstFit_cases size bs s.heap_start with ⟨-, h0⟩ | ⟨pre, x, post, p1, p2, p3, p4⟩
    · exact absurd h0 hr
    · exact ⟨pre, x, post, p1, p2, p3, p4⟩

theorem ff_get_free_block_lowest_witness :
    HeapOK heapBF [(64, FREE), (32, ALLOC), (128, FREE), (32, ALLOC), (96, FREE), (32, ALLOC),
        (3648, ALLOC)] ∧
      (ff_get_free_block 8 96 heapBF).value? = some (heapBF.heap_start + span [(64, FREE), (32, ALLOC)]) ∧
      ∃ r, ff_get_free_block 8 96 heapBF = .ok r heapBF ∧
        (r = 0 ↔ ∀ x ∈ [(64, FREE), (32, ALLOC), (128, FREE), (32, ALLOC), (96, FREE),
          (32, ALLOC), (3648, ALLOC)], ¬ Fits 96 x) ∧
        (r ≠ 0 → ∃ pre x post, [(64, FREE), (32, ALLOC), (128, FREE), (32, ALLOC), (96, FREE),
            (32, ALLOC), (3648, ALLOC)] = pre ++ x :: post ∧
          r = heapBF.heap_start + span pre ∧ Fits 96 x ∧ ∀ c ∈ pre, ¬ Fits 96 c) :=
  ⟨by decide, by decide, ff_get_free_block_lowest heapBF _ 96 8 (by decide) (by decide)⟩

/-- C10: on a well-formed heap whose cursor is a block header,
`nf_get_free_block` returns within `2 * (number of blocks) + 1` iterations of
its loop; it returns not-found exactly when no FREE block of size `≥ size`
exists anywhere in the heap, and otherwise the first fitting block in cyclic
address order from the cursor: the first fitting block among the blocks `post`
from the cursor to the end of the heap, or, when none of those fits, the first
fitting block among the blocks `pre` from `heap_start` up to the cursor.  The
heap bytes and the heap bounds are unchanged. -/
theorem nf_get_free_block_cyclic (s : State) (bs : List (Nat × Nat)) (size fuel : Nat)
    (hok : HeapOK s bs) (hcur : s.next_block ∈ headers s.heap_start bs)
    (hfuel : 2 * bs.length + 1 ≤ fuel) :
    ∃ r s' pre post, nf_get_free_block fuel size s = .ok r s' ∧ s'.mem = s.mem ∧
      s'.heap_start = s.heap_start ∧ s'.heap_end = s.heap_end ∧
      bs = pre ++ post ∧ s.next_block = s.heap_start + span pre ∧
      (r = 0 ↔ ∀ x ∈ bs, ¬ Fits size x) ∧
      (r ≠ 0 →
        (∃ l x t, post = l ++ x :: t ∧ r = s.next_block + span l ∧ Fits size x ∧
          ∀ c ∈ l, ¬ Fits size c) ∨
        ((∀ c ∈ post, ¬ Fits size c) ∧ ∃ l x t, pre = l ++ x :: t ∧
          r = s.heap_start + span l ∧ Fits size x ∧ ∀ c ∈ l, ¬ Fits size c)) := by
  obtain ⟨pre, b, post, hbs, hq⟩ := (mem_headers_iff bs s.heap_start s.next_block).1 hcur
  subst hbs
  have h2 := hok.2.1
  obtain ⟨t1, t2, t3⟩ := nf_top s pre post b size fuel hok hq (by omega)
  by_cases hpost : ∃ x ∈ b :: post, Fits size x
  · obtain ⟨nb, e⟩ := t1 hpost
    rcases firstFit_cases size (b :: post) (s.heap_start + span pre) with
      ⟨hno, -⟩ | ⟨l, x, t, p1, p2, p3, p4⟩
    · obtain ⟨y, hy, hyf⟩ := hpost
      exact absurd hyf (hno y hy)
    · refine ⟨_, _, pre, b :: post, e, rfl, rfl, rfl, rfl, hq, ⟨fun h => by omega, fun hno => ?_⟩,
        fun _ => Or.inl ⟨l, x, t, p1, by rw [p2, hq], p3, p4⟩⟩
      obtain ⟨y, hy, hyf⟩ := hpost
      exact absurd hyf (hno y (List.mem_append_right _ hy))
  · have hno : ∀ x ∈ b :: post, ¬ Fits size x := fun x hx hf => hpost ⟨x, hx, hf⟩
    by_cases hpre : ∃ x ∈ pre, Fits size x
    · obtain ⟨nb, e⟩ := t2 hno hpre
      rcases firstFit_cases size pre s.heap_start with ⟨hno', -⟩ | ⟨l, x, t, p1, p2, p3, p4⟩
      · obtain ⟨y, hy, hyf⟩ := hpre
        exact absurd hyf (hno' y hy)
      · refine ⟨_, _, pre, b :: post, e, rfl, rfl, rfl, rfl, hq,
          ⟨fun h => by omega, fun hno' => ?_⟩, fun _ => Or.inr ⟨hno, l, x, t, p1, p2, p3, p4⟩⟩
        obtain ⟨y, hy, hyf⟩ := hpre
        exact absurd hyf (hno' y (List.mem_append_left _ hy))
    · have hall : ∀ x ∈ pre ++ b :: post, ¬ Fits size x := by
        intro x hx hf
        rcases List.mem_append.1 hx with hx | hx
        · exact hpre ⟨x, hx, hf⟩
        · exact hno x hx hf
      exact ⟨0, s, pre, b :: post, t3 hall, rfl, rfl, rfl, rfl, hq, ⟨fun _ => hall, fun _ => rfl⟩,
        fun h => absurd rfl h⟩

theorem nf_get_free_block_cyclic_witness :
    HeapOK heapMid [(32, ALLOC), (32, ALLOC), (32, ALLOC), (3936, FREE)] ∧
      heapMid.next_block = heapMid.heap_start + 32 ∧
      (nf_get_free_block 9 64 heapMid).value? = some (heapMid.heap_start + 96) ∧
      ∃ r s' pre post, nf_get_free_block 9 64 heapMid = .ok r s' ∧ s'.mem = heapMid.mem ∧
        s'.heap_start = heapMid.heap_start ∧ s'.heap_end = heapMid.heap_end ∧
        [(32, ALLOC), (32, ALLOC), (32, ALLOC), (3936, FREE)] = pre ++ post ∧
        heapMid.next_block = heapMid.heap_start + span pre ∧
        (r = 0 ↔ ∀ x ∈ [(32, ALLOC), (32, ALLOC), (32, ALLOC), (3936, FREE)], ¬ Fits 64 x) ∧
        (r ≠ 0 →
          (∃ l x t, post = l ++ x :: t ∧ r = heapMid.next_block + span l ∧ Fits 64 x ∧
            ∀ c ∈ l, ¬ Fits 64 c) ∨
          ((∀ c ∈ post, ¬ Fits 64 c) ∧ ∃ l x t, pre = l ++ x :: t ∧
            r = heapMid.heap_start + span l ∧ Fits 64 x ∧ ∀ c ∈ l, ¬ Fits 64 c)) :=
  ⟨by decide, by decide, by decide,
    nf_get_free_block_cyclic heapMid _ 64 9 (by decide) (by decide) (by decide)⟩

/-! ## The claims, continued -/

/-- C11 (fails under next fit): on a provider with 4096-byte pages and a
limit of `0x110000`, after `a = malloc 1; b = malloc 1; free a; a' = malloc 1;
free b; free a'; x = malloc 5000` (every `free` releases a live handle) the
heap is well formed, `x = 65576` is live, and the cursor is still 65600, the
old header of `b`, which now lies inside the payload of `x`.  The caller
stores the word `2 ^ 64 - 56` at `x + 24 = 65600`.  The search of the next
`malloc 1` reads that word as a FREE tag of size `z = 2 ^ 64 - 56`, chooses
`b = 65600`, and sets the cursor to `b + z - 2 ^ 64 = 65544`, which is below
`heap_start = 65568`; it is still there when `mm_malloc` returns.  Every
address the call reads or writes (65600, 65544, 65632, 65536, 65624) lies in
the data segment `[65536, 73728)`. -/
theorem next_fit_cursor_leaves_heap :
    (runOps 100 [.malloc 1, .malloc 1, .free 0, .malloc 1, .free 1, .free 2, .malloc 5000]
        heapNF []).map (fun r => r.2) =
      some [(65576, false), (65608, false), (65576, false), (65576, true)] ∧
    HeapOK heapGrown [(5024, ALLOC), (3104, FREE)] ∧
    heapGrown.get_block = some Locator.nf ∧ heapGrown.next_block = 65600 ∧
    65576 ≤ 65600 ∧ 65600 + 8 ≤ 65576 + 5000 ∧
    HeapOK heapBait [(5024, ALLOC), (3104, FREE)] ∧
    heapBait.heap_start = 65568 ∧ heapBait.heap_end = 73696 ∧
    heapBait.ds.start = 65536 ∧ heapBait.ds.brk = 73728 ∧ heapBait.ds.limit = 1114112 ∧
    GET heapBait.mem 65600 = PACK 18446744073709551560 FREE ∧
    wadd 65600 18446744073709551560 = 65544 ∧
    (nf_get_free_block 100 32 heapBait).value? = some 65600 ∧
    (nf_get_free_block 100 32 heapBait).state.next_block = 65544 ∧
    (mm_malloc 100 1 heapBait).value? = some 65608 ∧
    (mm_malloc 100 1 heapBait).state.next_block = 65544 ∧
    (mm_malloc 100 1 heapBait).state.heap_start = 65568 ∧
    ¬ ((mm_malloc 100 1 heapBait).state.heap_start ≤
      (mm_malloc 100 1 heapBait).state.next_block) := by
  decide

/-- C12: when the data segment starts at `d ≠ 0`, is clean, has a nonzero page
size and the provider grants the initial 4096 bytes (break at `d + 4096`, an
address), `mm_init` returns; `heap_start` is the smallest multiple of 32 that
is `≥ d + 8` and `heap_end` the largest multiple of 32 that is `≤ d + 4096 - 8`;
the words at `heap_start - 8` and `heap_end` hold `PACK(0, ALLOC)`; the words
at `heap_start` and `heap_end - 8` hold `PACK(heap_end - heap_start, FREE)`;
the cursor is `heap_start`; both sentinel words lie inside `[d, d + 4096)`. -/
theorem mm_init_layout (s : State) (ap : AllocationPolicy) (d : Nat)
    (hap : ap ≠ .ap_Other) (hd : d ≠ 0) (hstart : s.ds.start = d) (hbrk : s.ds.brk = d)
    (hps : s.ds.pagesize ≠ 0) (hgrant : d + 4096 ≤ s.ds.limit) (hw : d + 4096 < W) :
    ∃ s', mm_init ap s = .ok () s' ∧ s'.ds.brk = d + 4096 ∧
      (s'.heap_start % 32 = 0 ∧ d + 8 ≤ s'.heap_start ∧
        ∀ x, x % 32 = 0 → d + 8 ≤ x → s'.heap_start ≤ x) ∧
      (s'.heap_end % 32 = 0 ∧ s'.heap_end ≤ d + 4096 - 8 ∧
        ∀ x, x % 32 = 0 → x ≤ d + 4096 - 8 → x ≤ s'.heap_end) ∧
      GET s'.mem (s'.heap_start - 8) = PACK 0 ALLOC ∧ GET s'.mem s'.heap_end = PACK 0 ALLOC ∧
      GET s'.mem s'.heap_start = PACK (s'.heap_end - s'.heap_start) FREE ∧
      GET s'.mem (s'.heap_end - 8) = PACK (s'.heap_end - s'.heap_start) FREE ∧
      s'.next_block = s'.heap_start ∧
      d ≤ s'.heap_start - 8 ∧ s'.heap_start - 8 + 8 ≤ d + 4096 ∧
      d ≤ s'.heap_end ∧ s'.heap_end + 8 ≤ d + 4096 := by
  obtain ⟨cW, cF, cA, cT, -⟩ := consts
  obtain ⟨s', h1, h2, h3, h4, h5, -, -, h8⟩ :=
    mm_init_spec s ap d hap hd hstart hbrk hps hgrant hw
  obtain ⟨-, -, -, -, k5, k6, k7⟩ := h8
  obtain ⟨-, -, -, k8, k9, k10⟩ := k7
  have e : s'.heap_start + (s'.heap_end - s'.heap_start) - 8 = s'.heap_end - 8 := by omega
  rw [show (s'.heap_start + ((s'.heap_end - s'.heap_start, FREE) : Nat × Nat).1 - 8) =
    s'.heap_end - 8 from e] at k9
  refine ⟨s', h1, by rw [h2], ⟨by omega, by omega, ?_⟩, ⟨by omega, by omega, ?_⟩, k5, k6, k8,
    k9, h5, by omega, by omega, by omega, by omega⟩
  · intro x hx1 hx2
    omega
  · intro x hx1 hx2
    omega

theorem mm_init_layout_witness :
    (boot 65536 1114112 4096).ds.start = 65536 ∧ (boot 65536 1114112 4096).ds.brk = 65536 ∧
    65536 + 4096 ≤ (boot 65536 1114112 4096).ds.limit ∧
    ∃ s', mm_init .ap_NextFit (boot 65536 1114112 4096) = .ok () s' ∧ s'.ds.brk = 65536 + 4096 ∧
      (s'.heap_start % 32 = 0 ∧ 65536 + 8 ≤ s'.heap_start ∧
        ∀ x, x % 32 = 0 → 65536 + 8 ≤ x → s'.heap_start ≤ x) ∧
      (s'.heap_end % 32 = 0 ∧ s'.heap_end ≤ 65536 + 4096 - 8 ∧
        ∀ x, x % 32 = 0 → x ≤ 65536 + 4096 - 8 → x ≤ s'.heap_end) ∧
      GET s'.mem (s'.heap_start - 8) = PACK 0 ALLOC ∧ GET s'.mem s'.heap_end = PACK 0 ALLOC ∧
      GET s'.mem s'.heap_start = PACK (s'.heap_end - s'.heap_start) FREE ∧
      GET s'.mem (s'.heap_end - 8) = PACK (s'.heap_end - s'.heap_start) FREE ∧
      s'.next_block = s'.heap_start ∧
      65536 ≤ s'.heap_start - 8 ∧ s'.heap_start - 8 + 8 ≤ 65536 + 4096 ∧
      65536 ≤ s'.heap_end ∧ s'.heap_end + 8 ≤ 65536 + 4096 :=
  ⟨rfl, rfl, by decide,
    mm_init_layout (boot 65536 1114112 4096) .ap_NextFit 65536 (by decide) (by decide) rfl rfl
      (by decide) (by decide) (by decide)⟩

/-- C13: `mm_init` stops with a PANIC, leaving the initialized flag as it was,
whenever the policy is none of the three, the data segment start is null, the
break differs from the start, the page size is zero, or `ds_sbrk(CHUNKSIZE)`
returns its failure value; in every other case it returns with the flag set. -/
theorem mm_init_panics_or_initializes (s : State) (ap : AllocationPolicy) :
    ((ap = .ap_Other ∨ s.ds.start = 0 ∨ s.ds.start ≠ s.ds.brk ∨ s.ds.pagesize = 0 ∨
        (ds_sbrk s.ds CHUNKSIZE).1 = W - 1) →
      (mm_init ap s).fault? = some Fault.panic ∧
        (mm_init ap s).state.mm_initialized = s.mm_initialized) ∧
    (¬ (ap = .ap_Other ∨ s.ds.start = 0 ∨ s.ds.start ≠ s.ds.brk ∨ s.ds.pagesize = 0 ∨
        (ds_sbrk s.ds CHUNKSIZE).1 = W - 1) →
      (mm_init ap s).fault? = none ∧ (mm_init ap s).state.mm_initialized = 1) := by
  cases ap
  case ap_Other => exact ⟨fun _ => ⟨rfl, rfl⟩, fun h => absurd (Or.inl rfl) h⟩
  all_goals
    unfold mm_init
    dsimp only [ds_heap_stat, ds_getpagesize]
    by_cases h1 : s.ds.start = 0
    · rw [if_pos h1]
      exact ⟨fun _ => ⟨rfl, rfl⟩, fun h => absurd (Or.inr (Or.inl h1)) h⟩
    · rw [if_neg h1]
      by_cases h2 : s.ds.start ≠ s.ds.brk
      · rw [if_pos h2]
        exact ⟨fun _ => ⟨rfl, rfl⟩, fun h => absurd (Or.inr (Or.inr (Or.inl h2))) h⟩
      · rw [if_neg h2]
        by_cases h3 : s.ds.pagesize = 0
        · rw [if_pos h3]
          exact ⟨fun _ => ⟨rfl, rfl⟩, fun h => absurd (Or.inr (Or.inr (Or.inr (Or.inl h3)))) h⟩
        · rw [if_neg h3]
          by_cases h4 : (ds_sbrk s.ds CHUNKSIZE).1 = W - 1
          · rw [if_pos h4]
            exact ⟨fun _ => ⟨rfl, rfl⟩,
              fun h => absurd (Or.inr (Or.inr (Or.inr (Or.inr h4)))) h⟩
          · rw [if_neg h4]
            refine ⟨fun h => ?_, fun _ => ⟨rfl, rfl⟩⟩
            rcases h with h | h | h | h | h
            · cases h
            · exact absurd h h1
            · exact absurd h h2
            · exact absurd h h3
            · exact absurd h h4

theorem mm_init_panics_or_initializes_witness :
    (ds_sbrk (boot 65536 65536 4096).ds CHUNKSIZE).1 = W - 1 ∧
      ((mm_init .ap_FirstFit (boot 65536 65536 4096)).fault? = some Fault.panic ∧
        (mm_init .ap_FirstFit (boot 65536 65536 4096)).state.mm_initialized =
          (boot 65536 65536 4096).mm_initialized) ∧
      ((mm_init .ap_BestFit (boot 65536 1114112 4096)).fault? = none ∧
        (mm_init .ap_BestFit (boot 65536 1114112 4096)).state.mm_initialized = 1) :=
  ⟨by decide,
    (mm_init_panics_or_initializes (boot 65536 65536 4096) .ap_FirstFit).1
      (Or.inr (Or.inr (Or.inr (Or.inr (by decide))))),
    (mm_init_panics_or_initializes (boot 65536 1114112 4096) .ap_BestFit).2 (by decide)⟩

/-- C14: with the initialized flag at 0, each of `mm_malloc`, `mm_calloc`,
`mm_realloc`, `mm_free` and `mm_check` stops at its assertion on
`mm_initialized` and leaves the state, the heap bytes included, as it was; the
outcome is the same whatever the heap holds. -/
theorem calls_before_mm_init_stop (s : State) (fuel n c ptr : Nat) (h : s.mm_initialized = 0) :
    mm_malloc fuel n s = .fail .assertion s ∧ mm_calloc fuel c n s = .fail .assertion s ∧
      mm_realloc ptr n s = .fail .assertion s ∧ mm_free ptr s = .fail .assertion s ∧
      mm_check fuel s = .fail .assertion s ∧
      ∀ m : Nat → Nat, mm_malloc fuel n { s with mem := m } = .fail .assertion { s with mem := m } ∧
        mm_calloc fuel c n { s with mem := m } = .fail .assertion { s with mem := m } ∧
        mm_realloc ptr n { s with mem := m } = .fail .assertion { s with mem := m } ∧
        mm_free ptr { s with mem := m } = .fail .assertion { s with mem := m } ∧
        mm_check fuel { s with mem := m } = .fail .assertion { s with mem := m } := by
  have key : ∀ t : State, t.mm_initialized = 0 →
      mm_malloc fuel n t = .fail .assertion t ∧ mm_calloc fuel c n t = .fail .assertion t ∧
      mm_realloc ptr n t = .fail .assertion t ∧ mm_free ptr t = .fail .assertion t ∧
      mm_check fuel t = .fail .assertion t := by
    intro t ht
    refine ⟨?_, ?_, ?_, ?_, ?_⟩
    · unfold mm_malloc; rw [if_pos ht]
    · unfold mm_calloc; rw [if_pos ht]
    · unfold mm_realloc; rw [if_pos ht]
    · unfold mm_free; rw [if_pos ht]
    · unfold mm_check; rw [if_pos ht]
  obtain ⟨k1, k2, k3, k4, k5⟩ := key s h
  exact ⟨k1, k2, k3, k4, k5, fun m => key { s with mem := m } h⟩

theorem calls_before_mm_init_stop_witness :
    (boot 65536 1114112 4096).mm_initialized = 0 ∧
      mm_malloc 9 1 (boot 65536 1114112 4096) = .fail .assertion (boot 65536 1114112 4096) ∧
      mm_free 65576 (boot 65536 1114112 4096) = .fail .assertion (boot 65536 1114112 4096) :=
  ⟨rfl, (calls_before_mm_init_stop (boot 65536 1114112 4096) 9 1 1 65576 rfl).1,
    (calls_before_mm_init_stop (boot 65536 1114112 4096) 9 1 1 65576 rfl).2.2.2.1⟩

/-- C15 (fails under next fit): after `a = malloc 1; b = malloc 1; free a;
a' = malloc 1; free b; free a'` (every `free` releases a live handle) the heap
is one FREE block and the cursor is left on the old header of `b`, 65600.
Then `d = malloc 40` returns 65608, a live payload `[65608, 65648)`; the caller
stores the byte 171 at 65624, inside that payload; the next call
`e = malloc 40` returns 65576 and writes the footer of its own block over the
stored byte, which now reads 65. -/
theorem next_fit_stale_cursor_overwrites_payload :
    (runOps 100 [.malloc 1, .malloc 1, .free 0, .malloc 1, .free 1, .free 2] heapNF []).map
        (fun r => r.2) = some [(65576, false), (65608, false), (65576, false)] ∧
      HeapOK heapStale [(4032, FREE)] ∧ heapStale.next_block = 65600 ∧
      (mm_malloc 100 40 heapStale).value? = some 65608 ∧
      (65608 ≤ 65624 ∧ 65624 < 65608 + 40) ∧
      (poke (mm_malloc 100 40 heapStale).state 65624 171).mem 65624 = 171 ∧
      (mm_malloc 100 40 (poke (mm_malloc 100 40 heapStale).state 65624 171)).value? =
        some 65576 ∧
      (mm_malloc 100 40 (poke (mm_malloc 100 40 heapStale).state 65624 171)).state.mem 65624 =
        65 := by
  decide

/-- C16 (as stated, fails): `count = 1`, `size = 2 ^ 64 - 1`, whose product does
not overflow, on the fresh first-fit heap: `mm_malloc(2 ^ 64 - 1)` returns the
handle 65576 of a block of 32 bytes, and the `2 ^ 64 - 1` bytes that
`mm_calloc(1, 2 ^ 64 - 1)` then passes to `memset` reach past the break
and past the end of the address space: `mm_calloc` does not return. -/
theorem mm_calloc_overruns_block :
    1 * 18446744073709551615 < W ∧ HeapOK heapFF [(4032, FREE)] ∧
      (mm_malloc 100 (1 * 18446744073709551615) heapFF).value? = some 65576 ∧
      GET (mm_malloc 100 (1 * 18446744073709551615) heapFF).state.mem 65568 = PACK 32 ALLOC ∧
      (mm_malloc 100 (1 * 18446744073709551615) heapFF).state.ds.brk = 69632 ∧
      69632 < 65576 + 1 * 18446744073709551615 ∧ W < 65576 + 1 * 18446744073709551615 ∧
      (mm_calloc 100 1 18446744073709551615 heapFF).value? = none ∧
      (mm_calloc 100 1 18446744073709551615 heapFF).fault? = some Fault.trap := by
  decide

/-- C16 (amended): for `count` and `size` whose product does not overflow, on
an initialized heap:
(1) in every state, when `mm_malloc(count * size)` does not return, neither
does `mm_calloc(count, size)`; when it returns a handle `h` whose
`count * size` bytes lie inside the data segment, `mm_calloc(count, size)`
returns the same handle, and the heap it leaves differs from the heap
`mm_malloc` leaves only in the `count * size` bytes from `h`, each of which is
zero;
(2) on a well-formed heap that lies inside the data segment, under next fit
with a cursor that reaches the block list by stepping over left-behind FREE
headers (a block header is such a cursor), for `count * size ≤ 2 ^ 64 - 48`,
when some FREE block of the list fits or else the provider grants the
extension `expand_heap` asks for, `mm_malloc(count * size)` returns such a
handle `h`, so `mm_calloc(count, size)` returns `h` with those bytes zero and
nothing else changed; the bytes lie between the header and the footer of the
block, which both still hold `PACK(blocksize, ALLOC)`;
(3) when in addition, under next fit, the cursor is a block header, the heap
`mm_malloc` leaves is well formed, and the heap `mm_calloc` leaves is well
formed with the same block list. -/
theorem mm_calloc_is_malloc_then_zero (s : State) (count size fuel : Nat)
    (hinit : s.mm_initialized ≠ 0) (hprod : count * size < W) :
    (∀ f t, mm_malloc fuel (count * size) s = .fail f t →
      mm_calloc fuel count size s = .fail f t) ∧
    (∀ h s', mm_malloc fuel (count * size) s = .ok h s' → h ≠ 0 → s'.ds.start ≤ h →
      h + count * size ≤ s'.ds.brk →
      ∃ m'', mm_calloc fuel count size s = .ok h { s' with mem := m'' } ∧
        (∀ a, h ≤ a → a < h + count * size → m'' a = 0) ∧
        (∀ a, (a < h ∨ h + count * size ≤ a) → m'' a = s'.mem a)) ∧
    (∀ bs k loc, HeapOK s bs → s.ds.start ≤ s.heap_start → s.heap_end ≤ s.ds.brk →
      s.get_block = some loc →
      (loc = .nf → Chain s.mem s.heap_start s.heap_end bs k s.next_block) →
      count * size ≤ 18446744073709551568 → k + 2 * bs.length + 1 ≤ fuel →
      ((∃ x ∈ bs, Fits ((count * size + 16 + 31) / 32 * 32) x) ∨
        (ProvOK s ∧ Granted s bs ((count * size + 16 + 31) / 32 * 32))) →
      (∃ h s' m'', mm_malloc fuel (count * size) s = .ok h s' ∧
        mm_calloc fuel count size s = .ok h { s' with mem := m'' } ∧
        (∀ a, h ≤ a → a < h + count * size → m'' a = 0) ∧
        (∀ a, (a < h ∨ h + count * size ≤ a) → m'' a = s'.mem a) ∧
        8 ≤ h ∧ h + count * size ≤ h - 8 + (count * size + 16 + 31) / 32 * 32 - 8 ∧
        GET m'' (h - 8) = PACK ((count * size + 16 + 31) / 32 * 32) ALLOC ∧
        GET m'' (h - 8 + (count * size + 16 + 31) / 32 * 32 - 8) =
          PACK ((count * size + 16 + 31) / 32 * 32) ALLOC) ∧
      ((loc = .nf → s.next_block ∈ headers s.heap_start bs) →
        ∃ h s' bs' m'', mm_malloc fuel (count * size) s = .ok h s' ∧ HeapOK s' bs' ∧
          mm_calloc fuel count size s = .ok h { s' with mem := m'' } ∧
          HeapOK { s' with mem := m'' } bs')) := by
  obtain ⟨cW, cF, cA, cT, -⟩ := consts
  have hw : wmul count size = count * size := wmul_eq hprod
  have partA : ∀ h s', mm_malloc fuel (count * size) s = .ok h s' → h ≠ 0 → s'.ds.start ≤ h →
      h + count * size ≤ s'.ds.brk →
      mm_calloc fuel count size s = .ok h
          { s' with mem := fun a => if h ≤ a ∧ a < h + count * size then 0 % 256 else s'.mem a } ∧
        (∀ a, h ≤ a → a < h + count * size →
          (fun a => if h ≤ a ∧ a < h + count * size then 0 % 256 else s'.mem a) a = 0) ∧
        (∀ a, (a < h ∨ h + count * size ≤ a) →
          (fun a => if h ≤ a ∧ a < h + count * size then 0 % 256 else s'.mem a) a =
            s'.mem a) := by
    intro h s' hm hh h1 h2
    have hms : memset s'.ds s'.mem h 0 (count * size) =
        some (fun a => if h ≤ a ∧ a < h + count * size then 0 % 256 else s'.mem a) := by
      unfold memset
      rw [if_pos ⟨h1, h2⟩]
    refine ⟨?_, ?_, ?_⟩
    · unfold mm_calloc
      rw [if_neg hinit, hw]
      simp only [hm, hh, ne_eq, not_false_eq_true, if_true, hms]
    · intro a a1 a2
      simp only [if_pos (And.intro a1 a2)]
    · intro a a1
      have : ¬ (h ≤ a ∧ a < h + count * size) := by omega
      simp only [if_neg this]
  refine ⟨?_, ?_, ?_⟩
  · intro f t hm
    unfold mm_calloc
    rw [if_neg hinit, hw]
    simp only [hm]
  · intro h s' hm hh h1 h2
    obtain ⟨p1, p2, p3⟩ := partA h s' hm hh h1 h2
    exact ⟨_, p1, p2, p3⟩
  · intro bs k loc hok hseg1 hseg2 hloc hcur hn hfuel hgrow
    obtain ⟨B, hBdef⟩ : ∃ B, B = (count * size + 16 + 31) / 32 * 32 := ⟨_, rfl⟩
    have hBn : count * size + 16 ≤ B := by omega
    have hB32 : B % 32 = 0 := by omega
    obtain ⟨r, s1, header, s2, s', k1, k2, k3, k4, k5, k6, k7, k8, k9, k10, k11⟩ :=
      mm_malloc_total s bs (count * size) fuel k loc hok hloc hcur hn hfuel hgrow
    have k5' : header + B ≤ s'.heap_end := by rw [hBdef]; exact k5
    have k6' : GET s'.mem header = PACK B ALLOC := by rw [hBdef]; exact k6
    have k7' : GET s'.mem (header + B - 8) = PACK B ALLOC := by rw [hBdef]; exact k7
    rw [← hBdef]
    have h8 := hok.2.1
    have hbrk := k11 hseg2
    obtain ⟨p1, p2, p3⟩ := partA (header + 8) s' k3 (by omega) (by rw [k9]; omega) (by omega)
    constructor
    · refine ⟨header + 8, s', _, k3, p1, p2, p3, by omega, by omega, ?_, ?_⟩
      · have e : header + 8 - 8 = header := by omega
        rw [e]
        exact GET_of_frame k6' (fun a ha hb => p3 a (by omega))
      · have e : header + 8 - 8 + B - 8 = header + B - 8 := by omega
        rw [e]
        exact GET_of_frame k7' (fun a ha hb => p3 a (by omega))
    · intro hhdr
      obtain ⟨t, pre', post', l1, l2, l3, -⟩ :=
        mm_malloc_layout s bs (count * size) fuel loc hok hloc hhdr hn (by omega) hgrow
      rw [k3] at l1
      injection l1 with e1 e2
      subst e2
      refine ⟨header + 8, s', _, _, k3, l2, p1, ?_⟩
      apply HeapOK_payload_frame s' _ pre' post' _ l2
      intro a ha
      have ha' : a < s'.heap_start + span pre' + 8 ∨
          s'.heap_start + span pre' + (count * size + 16 + 31) / 32 * 32 - 8 ≤ a := ha
      exact p3 a (by omega)

theorem mm_calloc_is_malloc_then_zero_witness :
    heapBack.mm_initialized ≠ 0 ∧ HeapOK heapBack [(4032, FREE)] ∧
      heapBack.ds.start ≤ heapBack.heap_start ∧ heapBack.heap_end ≤ heapBack.ds.brk ∧
      heapBack.get_block = some Locator.ff ∧
      (mm_malloc 3 (5 * 20) heapBack).value? = some 65576 ∧
      (mm_malloc 3 (5 * 20) heapBack).state.mem 65592 = 32 ∧
      (mm_calloc 3 5 20 heapBack).state.mem 65592 = 0 ∧
      (∃ h s' m'', mm_malloc 3 (5 * 20) heapBack = .ok h s' ∧
        mm_calloc 3 5 20 heapBack = .ok h { s' with mem := m'' } ∧
        (∀ a, h ≤ a → a < h + 5 * 20 → m'' a = 0) ∧
        (∀ a, (a < h ∨ h + 5 * 20 ≤ a) → m'' a = s'.mem a) ∧
        8 ≤ h ∧ h + 5 * 20 ≤ h - 8 + (5 * 20 + 16 + 31) / 32 * 32 - 8 ∧
        GET m'' (h - 8) = PACK ((5 * 20 + 16 + 31) / 32 * 32) ALLOC ∧
        GET m'' (h - 8 + (5 * 20 + 16 + 31) / 32 * 32 - 8) =
          PACK ((5 * 20 + 16 + 31) / 32 * 32) ALLOC) ∧
      ∃ h s' bs' m'', mm_malloc 3 (5 * 20) heapBack = .ok h s' ∧ HeapOK s' bs' ∧
        mm_calloc 3 5 20 heapBack = .ok h { s' with mem := m'' } ∧
        HeapOK { s' with mem := m'' } bs' := by
  have h := (mm_calloc_is_malloc_then_zero heapBack 5 20 3 (by decide) (by decide)).2.2
    [(4032, FREE)] 0 .ff (by decide) (by decide) (by decide) (by decide)
    (fun h => absurd h (by decide)) (by decide) (by decide) (Or.inl (by decide))
  refine ⟨by decide, by decide, by decide, by decide, ?_⟩
  exact ⟨by decide, by decide, by decide, by decide, h.1, h.2 (fun h => absurd h (by decide))⟩

/-- C18: on an initialized heap `mm_realloc` returns NULL and leaves the whole
state, every heap byte included, unchanged. -/
theorem mm_realloc_returns_null (s : State) (ptr size : Nat) (h : s.mm_initialized ≠ 0) :
    mm_realloc ptr size s = .ok 0 s := by
  unfold mm_realloc
  rw [if_neg h]

theorem mm_realloc_returns_null_witness :
    heapTwo.mm_initialized ≠ 0 ∧ mm_realloc 65576 100 heapTwo = .ok 0 heapTwo :=
  ⟨by decide, mm_realloc_returns_null heapTwo 65576 100 (by decide)⟩

/-- C19 (as stated, fails): on the fresh first-fit heap the request
`n = 2 ^ 64 - 17`, for which `n + 16` does not overflow, gets block size 0;
`mm_malloc` returns, and afterwards the header at `heap_start` holds
`PACK(0, ALLOC)`: the first block of the walk has size 0, so no block list
tiles the heap any more. -/
theorem mm_malloc_leaves_zero_size_block :
    18446744073709551599 + 16 < W ∧ HeapOK heapFF [(4032, FREE)] ∧
      ProvOK heapFF ∧ heapFF.get_block = some Locator.ff ∧
      (mm_malloc 100 18446744073709551599 heapFF).value? = some 65576 ∧
      GET (mm_malloc 100 18446744073709551599 heapFF).state.mem
        (mm_malloc 100 18446744073709551599 heapFF).state.heap_start = PACK 0 ALLOC ∧
      ∀ bs, ¬ HeapOK (mm_malloc 100 18446744073709551599 heapFF).state bs := by
  have h0 : GET (mm_malloc 100 18446744073709551599 heapFF).state.mem
      (mm_malloc 100 18446744073709551599 heapFF).state.heap_start = PACK 0 ALLOC := by decide
  have hne : (mm_malloc 100 18446744073709551599 heapFF).state.heap_start ≠
      (mm_malloc 100 18446744073709551599 heapFF).state.heap_end := by decide
  have hlt : (mm_malloc 100 18446744073709551599 heapFF).state.heap_end < W := by decide
  refine ⟨by decide, by decide, by decide, by decide, by decide, h0, ?_⟩
  intro bs hok
  obtain ⟨-, -, -, -, -, -, hl⟩ := hok
  cases bs with
  | nil => exact hne hl
  | cons b bs =>
    obtain ⟨k1, -, -, k4, -⟩ := Layout_head hl hlt
    have hz : GET_SIZE (mm_malloc 100 18446744073709551599 heapFF).state.mem
        (mm_malloc 100 18446744073709551599 heapFF).state.heap_start = 0 :=
      (sentinel_size h0).1
    omega

/-- C19 (amended): under first fit and best fit, on an initialized heap that is
well formed (the blocks tile `[heap_start, heap_end)` with 32-byte aligned
headers, sizes that are positive multiples of 32 and footers equal to headers,
between two sentinel words `PACK(0, ALLOC)`), (1) `mm_malloc(n)` with
`n ≤ 2 ^ 64 - 48` returns, when some FREE block fits or else the provider
grants the extension `expand_heap` asks for (page size a positive multiple of
32 below `2 ^ 31`, `heap_end` the break minus 8 rounded down to 32, the break
within a limit below `2 ^ 64`, and room below that limit for the block size
less a FREE last block, rounded up to pages), and leaves a well-formed heap;
(2) `mm_free` on the handle of an ALLOCATED block returns and leaves a
well-formed heap. -/
theorem wellformed_preserved (s : State) (loc : Locator) (hloc : s.get_block = some loc)
    (hpol : loc ≠ .nf) :
    (∀ bs n fuel, HeapOK s bs → n ≤ 18446744073709551568 → 2 * bs.length + 1 ≤ fuel →
      ((∃ x ∈ bs, Fits ((n + 16 + 31) / 32 * 32) x) ∨
        (ProvOK s ∧ Granted s bs ((n + 16 + 31) / 32 * 32))) →
      ∃ h s' bs', mm_malloc fuel n s = .ok h s' ∧ HeapOK s' bs') ∧
    (∀ pre sz post, HeapOK s (pre ++ (sz, ALLOC) :: post) →
      ∃ s', mm_free (s.heap_start + span pre + 8) s = .ok () s' ∧
        HeapOK s' (coalesced pre sz post)) := by
  constructor
  · intro bs n fuel hok hn hfuel hgrow
    obtain ⟨s', pre', post', k1, k2, -⟩ :=
      mm_malloc_layout s bs n fuel loc hok hloc (fun h => absurd h hpol) hn hfuel hgrow
    exact ⟨_, s', _, k1, k2⟩
  · intro pre sz post hok
    obtain ⟨m', k1, k2, -⟩ := mm_free_layout s pre post sz hok
    exact ⟨_, k1, k2⟩

theorem wellformed_preserved_witness :
    heapTight.get_block = some Locator.ff ∧ HeapOK heapTight [(4032, FREE)] ∧
      heapTight.ds.brk + 4096 = heapTight.ds.limit ∧
      (∃ h s' bs', mm_malloc 3 5000 heapTight = .ok h s' ∧ HeapOK s' bs') ∧
      heapBF.get_block = some Locator.bf ∧
      HeapOK heapBF ([(64, FREE)] ++ (32, ALLOC) ::
        [(128, FREE), (32, ALLOC), (96, FREE), (32, ALLOC), (3648, ALLOC)]) ∧
      (∃ h s' bs', mm_malloc 15 5000 heapBF = .ok h s' ∧ HeapOK s' bs') ∧
      ∃ s', mm_free (heapBF.heap_start + span [(64, FREE)] + 8) heapBF = .ok () s' ∧
        HeapOK s' (coalesced [(64, FREE)] 32
          [(128, FREE), (32, ALLOC), (96, FREE), (32, ALLOC), (3648, ALLOC)]) :=
  ⟨by decide, by decide, by decide,
    (wellformed_preserved heapTight .ff (by decide) (by decide)).1 [(4032, FREE)] 5000 3
      (by decide) (by decide) (by decide) (Or.inr ⟨by decide, by decide⟩),
    by decide, by decide,
    (wellformed_preserved heapBF .bf (by decide) (by decide)).1
      [(64, FREE), (32, ALLOC), (128, FREE), (32, ALLOC), (96, FREE), (32, ALLOC), (3648, ALLOC)]
      5000 15 (by decide) (by decide) (by decide) (Or.inr ⟨by decide, by decide⟩),
    (wellformed_preserved heapBF .bf (by decide) (by decide)).2 [(64, FREE)] 32
      [(128, FREE), (32, ALLOC), (96, FREE), (32, ALLOC), (3648, ALLOC)] (by decide)⟩

/-- C20: on a well-formed heap, `coalesce` on the FREE block of size `z` that
follows the blocks `pre` and precedes the blocks `post` returns the header of
the preceding block when that block is FREE and the block itself otherwise;
afterwards the word at the returned header and the footer word at the end of
the merged range both hold `PACK(total, FREE)`, where `total` is `z` plus the
size of the following block when it is FREE plus the size of the preceding
block when it is FREE; when neither neighbour is FREE the heap bytes are
unchanged. -/
theorem coalesce_postcondition (s : State) (pre post : List (Nat × Nat)) (z : Nat)
    (hok : HeapOK s (pre ++ (z, FREE) :: post)) :
    ∃ m', coalesce (s.heap_start + span pre) s =
        .ok (s.heap_start + span (dropFreeLast pre)) { s with mem := m' } ∧
      GET m' (s.heap_start + span (dropFreeLast pre)) =
        PACK (z + freeHead post + freeLast pre) FREE ∧
      GET m' (s.heap_start + span pre + z + freeHead post - 8) =
        PACK (z + freeHead post + freeLast pre) FREE ∧
      (freeLast pre = 0 → freeHead post = 0 → m' = s.mem) := by
  obtain ⟨m', k1, k2, k3, k4, -, -, k7, -⟩ :=
    coalesce_layout_aux s pre post z _ _ _ rfl rfl rfl hok
  have e : s.heap_start + span pre - freeLast pre = s.heap_start + span (dropFreeLast pre) := by
    rcases dropFreeLast_cases pre with ⟨y, h1, h2⟩ | ⟨h1, h2⟩
    · have := congrArg span h1
      rw [span_append] at this
      simp only [span] at this
      omega
    · rw [h1, h2]; rfl
  have e2 : freeLast pre + z + freeHead post = z + freeHead post + freeLast pre := by omega
  rw [e] at k1 k2
  rw [e2] at k2 k3
  exact ⟨m', k1, k2, k3, k4⟩

theorem coalesce_postcondition_witness :
    HeapOK heapTriple ([(32, FREE)] ++ (32, FREE) :: [(3968, FREE)]) ∧
      (coalesce (heapTriple.heap_start + 32) heapTriple).value? = some heapTriple.heap_start ∧
      ∃ m', coalesce (heapTriple.heap_start + span [(32, FREE)]) heapTriple =
          .ok (heapTriple.heap_start + span (dropFreeLast [(32, FREE)]))
            { heapTriple with mem := m' } ∧
        GET m' (heapTriple.heap_start + span (dropFreeLast [(32, FREE)])) =
          PACK (32 + freeHead [(3968, FREE)] + freeLast [(32, FREE)]) FREE ∧
        GET m' (heapTriple.heap_start + span [(32, FREE)] + 32 + freeHead [(3968, FREE)] - 8) =
          PACK (32 + freeHead [(3968, FREE)] + freeLast [(32, FREE)]) FREE ∧
        (freeLast [(32, FREE)] = 0 → freeHead [(3968, FREE)] = 0 → m' = heapTriple.mem) :=
  ⟨by decide, by decide,
    coalesce_postcondition heapTriple [(32, FREE)] [(3968, FREE)] 32 (by decide)⟩
/-! ## Claims C21 to C30 -/

theorem reach_heapFF : Reach .ap_FirstFit (boot 65536 1114112 4096) heapFF [] :=
  Reach.init heapFF rfl

theorem reach_heapOne : Reach .ap_FirstFit (boot 65536 1114112 4096) heapOne [(65576, 1)] :=
  Reach.malloc heapFF [] 100 1 65576 heapOne reach_heapFF (by decide) rfl

theorem reach_heapBack : Reach .ap_FirstFit (boot 65536 1114112 4096) heapBack [] :=
  Reach.free heapOne [(65576, 1)] 65576 1 heapBack reach_heapOne (by decide) rfl

/-- C21 (as stated, fails): under first fit, after `a = malloc 1;
z = malloc (2 ^ 64 - 17); free z; free a`, in which every `free` releases a
live handle, the walk from `heap_start = 65568` visits the header at 65568 and
then the header at 65600, and both are FREE: the first holds `PACK(32, FREE)`,
the second `PACK(0, FREE)`.  The request `2 ^ 64 - 17` gets block size 0, and
`mm_malloc` writes `PACK(0, ALLOC)` over the header of the FREE block it chose. -/
theorem free_neighbours_after_zero_size_block :
    (runOps 100 [.malloc 1, .malloc 18446744073709551599, .free 1, .free 0] heapFF []).map
        (fun r => r.2) = some [(65576, false), (65608, false)] ∧
      heapAdj.get_block = some Locator.ff ∧ heapAdj.heap_start = 65568 ∧
      ROUND_UP (wadd (wadd TYPE_SIZE 18446744073709551599) TYPE_SIZE) = 0 ∧
      Walk heapAdj.mem heapAdj.heap_end 65568 [65568, 65600] 65600 ∧
      GET heapAdj.mem 65568 = PACK 32 FREE ∧ GET heapAdj.mem 65600 = PACK 0 FREE := by
  refine ⟨by decide, by decide, by decide, by decide, ?_, by decide, by decide⟩
  have e1 : wadd 65568 (GET_SIZE heapAdj.mem 65568) = 65600 := by decide
  have e2 : wadd 65600 (GET_SIZE heapAdj.mem 65600) = 65600 := by decide
  have w2 : Walk heapAdj.mem heapAdj.heap_end 65600 [65600] 65600 := by
    have := @Walk.stuck heapAdj.mem heapAdj.heap_end 65600 (by decide) (by decide)
    rw [e2] at this
    exact this
  have := @Walk.step heapAdj.mem heapAdj.heap_end 65568 [65600] 65600
    (by decide) (by decide) (by rw [e1]; exact w2)
  exact this

/-- C21 (amended): under first fit and best fit, when the page size of the
provider is a multiple of 32 below `2 ^ 31` and the limit of the break lies
inside the address space, every state reached from `mm_init` by calls of
`mm_malloc` with requests of at most `2 ^ 64 - 48` bytes and calls of
`mm_free` on live handles has a well-formed heap in whose block list no two
neighbours are both FREE. -/
theorem no_adjacent_free_blocks (ap : AllocationPolicy) (s0 s : State)
    (live : List (Nat × Nat)) (hap : ap = .ap_FirstFit ∨ ap = .ap_BestFit)
    (hps : s0.ds.pagesize % 32 = 0) (hpi : s0.ds.pagesize < 2147483648)
    (hlim : s0.ds.limit < W) (hr : Reach ap s0 s live) :
    ∃ bs, HeapOK s bs ∧ NoAdjFree bs := by
  obtain ⟨bs, h1, h2, -⟩ := Reach_Inv ap s0 s live hap hps hpi hlim hr
  exact ⟨bs, h1, h2⟩

theorem no_adjacent_free_blocks_witness :
    Reach .ap_FirstFit (boot 65536 1114112 4096) heapBack [] ∧
      ∃ bs, HeapOK heapBack bs ∧ NoAdjFree bs :=
  ⟨reach_heapBack,
    no_adjacent_free_blocks .ap_FirstFit (boot 65536 1114112 4096) heapBack [] (Or.inl rfl)
      (by decide) (by decide) (by decide) reach_heapBack⟩


/-- C25 (as stated, fails): under first fit, after `z = malloc (2 ^ 64 - 17);
free z` on the fresh heap, where `free` releases the live handle `z`, the word
at `heap_start - 8` holds `PACK(0, FREE)`: the request gets block size 0, so
the footer `mm_malloc` and `mm_free` write for it is the start sentinel. -/
theorem free_overwrites_start_sentinel :
    (runOps 100 [.malloc 18446744073709551599, .free 0] heapFF []).map (fun r => r.2) =
        some [(65576, false)] ∧
      heapBare.get_block = some Locator.ff ∧
      GET heapFF.mem (heapFF.heap_start - 8) = PACK 0 ALLOC ∧
      GET heapBare.mem (heapBare.heap_start - 8) = PACK 0 FREE ∧
      GET heapBare.mem (heapBare.heap_start - 8) ≠ PACK 0 ALLOC := by
  decide

/-- C25 (amended): under first fit and best fit, when the page size of the
provider is a multiple of 32 below `2 ^ 31` and the limit of the break lies
inside the address space, in every state reached from `mm_init` by calls of
`mm_malloc` with requests of at most `2 ^ 64 - 48` bytes and calls of
`mm_free` on live handles, the word at `heap_start - 8` and the word at
`heap_end` both hold `PACK(0, ALLOC)`.  Hence `coalesce` on a FREE first block
returns `heap_start` itself, `coalesce` on a FREE last block leaves a block
that ends at `heap_end`, and both leave the two sentinel words alone. -/
theorem sentinels_permanent (ap : AllocationPolicy) (s0 s : State)
    (live : List (Nat × Nat)) (hap : ap = .ap_FirstFit ∨ ap = .ap_BestFit)
    (hps : s0.ds.pagesize % 32 = 0) (hpi : s0.ds.pagesize < 2147483648)
    (hlim : s0.ds.limit < W) (hr : Reach ap s0 s live) :
    GET s.mem (s.heap_start - 8) = PACK 0 ALLOC ∧ GET s.mem s.heap_end = PACK 0 ALLOC ∧
      (∀ z post, HeapOK s ((z, FREE) :: post) →
        ∃ m', coalesce s.heap_start s = .ok s.heap_start { s with mem := m' } ∧
          GET m' (s.heap_start - 8) = PACK 0 ALLOC ∧ GET m' s.heap_end = PACK 0 ALLOC) ∧
      (∀ pre z, HeapOK s (pre ++ (z, FREE) :: []) →
        ∃ r m', coalesce (s.heap_start + span pre) s = .ok r { s with mem := m' } ∧
          GET m' r = PACK (freeLast pre + z) FREE ∧ r + (freeLast pre + z) = s.heap_end ∧
          GET m' (s.heap_start - 8) = PACK 0 ALLOC ∧ GET m' s.heap_end = PACK 0 ALLOC) := by
  obtain ⟨bs, h1, -⟩ := Reach_Inv ap s0 s live hap hps hpi hlim hr
  refine ⟨h1.2.2.2.2.1, h1.2.2.2.2.2.1, ?_, ?_⟩
  · intro z post hok
    have hok' : HeapOK s ([] ++ (z, FREE) :: post) := hok
    obtain ⟨m', k1, -, -, -, k5, -⟩ := coalesce_layout_aux s [] post z _ _ _ rfl rfl rfl hok'
    have e : s.heap_start + span [] - freeLast [] = s.heap_start := by
      simp [span, freeLast, freeHead]
    rw [e] at k1
    have e2 : s.heap_start + span [] = s.heap_start := by simp [span]
    rw [e2] at k1
    exact ⟨m', k1, k5.2.2.2.2.1, k5.2.2.2.2.2.1⟩
  · intro pre z hok
    obtain ⟨m', k1, k2, -, -, k5, -, k7, k8⟩ :=
      coalesce_layout_aux s pre [] z _ _ _ rfl rfl rfl hok
    have hend := Layout_end hok.2.2.2.2.2.2
    rw [span_append] at hend
    simp only [span, freeHead] at hend k2 k8
    refine ⟨_, m', k1, ?_, ?_, k5.2.2.2.2.1, k5.2.2.2.2.2.1⟩
    · rw [k2, Nat.add_zero]
    · omega

theorem sentinels_permanent_witness :
    Reach .ap_FirstFit (boot 65536 1114112 4096) heapOne [(65576, 1)] ∧
      GET heapOne.mem (heapOne.heap_start - 8) = PACK 0 ALLOC ∧
      GET heapOne.mem heapOne.heap_end = PACK 0 ALLOC :=
  ⟨reach_heapOne,
    (sentinels_permanent .ap_FirstFit (boot 65536 1114112 4096) heapOne [(65576, 1)]
      (Or.inl rfl) (by decide) (by decide) (by decide) reach_heapOne).1,
    (sentinels_permanent .ap_FirstFit (boot 65536 1114112 4096) heapOne [(65576, 1)]
      (Or.inl rfl) (by decide) (by decide) (by decide) reach_heapOne).2.1⟩

/-- C26: for every size below `2 ^ 64` that is a multiple of 8 and every status
in `{FREE, ALLOC}`, `SIZE(PACK(size, status)) = size` and
`STATUS(PACK(size, status)) = status`; and for every 64-bit word `v`,
`PACK(SIZE(v), STATUS(v)) = v`. -/
theorem codec_round_trip :
    (∀ size status, size < W → size % 8 = 0 → (status = FREE ∨ status = ALLOC) →
      SIZE (PACK size status) = size ∧ STATUS (PACK size status) = status) ∧
    (∀ v, v < W → PACK (SIZE v) (STATUS v) = v) := by
  obtain ⟨cW, cF, cA, -, -⟩ := consts
  constructor
  · intro size status hw h8 hst
    have hs : status < 8 := by omega
    exact ⟨SIZE_PACK h8 hs hw, STATUS_PACK h8 hs⟩
  · intro v hv
    have h8 : SIZE v % 8 = 0 := SIZE_mod8 v
    have hs : STATUS v < 8 := by rw [STATUS_eq]; omega
    have hm : v % W = v := Nat.mod_eq_of_lt hv
    rw [PACK_eq h8 hs, SIZE_eq, STATUS_eq, hm]
    omega

theorem codec_round_trip_witness :
    (4032 : Nat) < W ∧ 4032 % 8 = 0 ∧
      (SIZE (PACK 4032 ALLOC) = 4032 ∧ STATUS (PACK 4032 ALLOC) = ALLOC) ∧
      PACK (SIZE 4033) (STATUS 4033) = 4033 :=
  ⟨by decide, by decide,
    codec_round_trip.1 4032 ALLOC (by decide) (by decide) (Or.inr rfl),
    codec_round_trip.2 4033 (by decide)⟩

/-- C27 (fails): under next fit, after `a = malloc 1; b = malloc 1; free a;
a' = malloc 1; free b; free a'` (every `free` releases a live handle) the heap
is well formed with the single FREE block at `heap_start = 65568`, which is
all the walk from `heap_start` visits, but the cursor is 65600, the old header
of `b`: it is not the header of a block of the list. -/
theorem next_fit_cursor_off_the_block_list :
    (runOps 100 [.malloc 1, .malloc 1, .free 0, .malloc 1, .free 1, .free 2] heapNF []).map
        (fun r => r.2) = some [(65576, false), (65608, false), (65576, false)] ∧
      heapStale.get_block = some Locator.nf ∧
      HeapOK heapStale [(4032, FREE)] ∧
      headers heapStale.heap_start [(4032, FREE)] = [65568] ∧
      Walk heapStale.mem heapStale.heap_end heapStale.heap_start [65568] heapStale.heap_end ∧
      heapStale.next_block = 65600 ∧
      heapStale.next_block ∉ headers heapStale.heap_start [(4032, FREE)] := by
  have hok : HeapOK heapStale [(4032, FREE)] := by decide
  have hw := (Walk_of_Layout (by decide : heapStale.heap_end < W) hok.2.2.2.2.2.2).1
  exact ⟨by decide, by decide, hok, by decide, hw, by decide, by decide⟩

/-- C28 (as stated, fails): under first fit, after `z = malloc (2 ^ 64 - 17);
y = malloc 5000` on the fresh heap both handles are live and both are 65576:
the block of `z` has size 0, the locator steps over nothing, and the grown
block is placed at the same header.  The header at `z - 8` holds
`PACK(5024, ALLOC)`, not the block size 0 computed for the request of `z`, and
the two live blocks are not disjoint. -/
theorem live_handles_share_a_block :
    (runOps 100 [.malloc 18446744073709551599, .malloc 5000] heapFF []).map (fun r => r.2) =
        some [(65576, true), (65576, true)] ∧
      heapShared.get_block = some Locator.ff ∧
      ROUND_UP (wadd (wadd TYPE_SIZE 18446744073709551599) TYPE_SIZE) = 0 ∧
      ROUND_UP (wadd (wadd TYPE_SIZE 5000) TYPE_SIZE) = 5024 ∧
      GET heapShared.mem (65576 - 8) = PACK 5024 ALLOC := by
  decide

/-- C28 (amended): under first fit and best fit, when the page size of the
provider is a multiple of 32 below `2 ^ 31` and the limit of the break lies
inside the address space, every state reached from `mm_init` by calls of
`mm_malloc` with requests of at most `2 ^ 64 - 48` bytes and calls of
`mm_free` on live handles has a well-formed heap with a block list `bs` such
that for every live handle `h` of a request `n` the address `h - 8` is the
header of a block of `bs`, that block is ALLOCATED and has the block size
computed for `n`, its header holds `PACK(blockSize n, ALLOC)`, and it lies
inside `[heap_start, heap_end)`; and the blocks of any two live handles do not
overlap. -/
theorem live_handles_are_blocks (ap : AllocationPolicy) (s0 s : State)
    (live : List (Nat × Nat)) (hap : ap = .ap_FirstFit ∨ ap = .ap_BestFit)
    (hps : s0.ds.pagesize % 32 = 0) (hpi : s0.ds.pagesize < 2147483648)
    (hlim : s0.ds.limit < W) (hr : Reach ap s0 s live) :
    ∃ bs, HeapOK s bs ∧
      (∀ x ∈ live, 8 ≤ x.1 ∧ x.1 - 8 ∈ headers s.heap_start bs ∧
        (x.1 - 8, blockSize x.2, ALLOC) ∈ blocksAt s.heap_start bs ∧
        GET s.mem (x.1 - 8) = PACK (blockSize x.2) ALLOC ∧
        s.heap_start ≤ x.1 - 8 ∧ x.1 - 8 + blockSize x.2 ≤ s.heap_end) ∧
      live.Pairwise (fun a b =>
        a.1 - 8 + blockSize a.2 ≤ b.1 - 8 ∨ b.1 - 8 + blockSize b.2 ≤ a.1 - 8) := by
  obtain ⟨-, cF, cA, -, -⟩ := consts
  obtain ⟨bs, hok, -, -, -, hnd, hlive⟩ := Reach_Inv ap s0 s live hap hps hpi hlim hr
  have hl := hok.2.2.2.2.2.2
  have hpos : ∀ b ∈ bs, 0 < b.1 := fun b hb => by
    have := (Layout_sizes hl b hb).1
    omega
  refine ⟨bs, hok, ?_, ?_⟩
  · intro x hx
    obtain ⟨x8, xb⟩ := hlive x hx
    obtain ⟨k1, -, -, -, k5, k6⟩ := Layout_block hl xb
    obtain ⟨pre, post, e1, e2⟩ := (mem_blocksAt_iff _ _ _ _ _).1 xb
    exact ⟨x8, (mem_headers_iff bs _ _).2 ⟨pre, _, post, e1, e2⟩, xb, k1, k5, k6⟩
  · have hpw : live.Pairwise (fun a b => a.1 ≠ b.1) := (List.pairwise_map).1 hnd
    refine List.Pairwise.imp_of_mem ?_ hpw
    intro a b ha hb hab
    obtain ⟨a8, ab⟩ := hlive a ha
    obtain ⟨b8, bb⟩ := hlive b hb
    rcases blocksAt_sep bs _ _ _ hpos ab bb with h | h | h
    · simp only [Prod.mk.injEq] at h
      omega
    · exact Or.inl h
    · exact Or.inr h

theorem live_handles_are_blocks_witness :
    Reach .ap_FirstFit (boot 65536 1114112 4096) heapOne [(65576, 1)] ∧
      ∃ bs, HeapOK heapOne bs ∧
        (∀ x ∈ [((65576 : Nat), (1 : Nat))], 8 ≤ x.1 ∧ x.1 - 8 ∈ headers heapOne.heap_start bs ∧
          (x.1 - 8, blockSize x.2, ALLOC) ∈ blocksAt heapOne.heap_start bs ∧
          GET heapOne.mem (x.1 - 8) = PACK (blockSize x.2) ALLOC ∧
          heapOne.heap_start ≤ x.1 - 8 ∧ x.1 - 8 + blockSize x.2 ≤ heapOne.heap_end) ∧
        [((65576 : Nat), (1 : Nat))].Pairwise (fun a b =>
          a.1 - 8 + blockSize a.2 ≤ b.1 - 8 ∨ b.1 - 8 + blockSize b.2 ≤ a.1 - 8) :=
  ⟨reach_heapOne,
    live_handles_are_blocks .ap_FirstFit (boot 65536 1114112 4096) heapOne [(65576, 1)]
      (Or.inl rfl) (by decide) (by decide) (by decide) reach_heapOne⟩

/-- C29 (as stated, fails): the fresh first-fit heap is well formed with the
single FREE block of size 4032; the request `n = 2 ^ 64 - 17`, whose `n + 16`
does not overflow, gets block size 0, which that block fits.  After
`h = mm_malloc(n); mm_free(h)` the header at `heap_start` holds
`PACK(0, FREE)`: the walk meets a block of size 0, and the block list is no
longer the one before the two calls. -/
theorem round_trip_loses_the_block :
    HeapOK heapFF [(4032, FREE)] ∧ NoAdjFree [(4032, FREE)] ∧
      heapFF.get_block = some Locator.ff ∧ 18446744073709551599 + 16 < W ∧
      ROUND_UP (wadd (wadd TYPE_SIZE 18446744073709551599) TYPE_SIZE) = 0 ∧
      Fits 0 (4032, FREE) ∧
      (runOps 100 [.malloc 18446744073709551599, .free 0] heapFF []).map (fun r => r.2) =
        some [(65576, false)] ∧
      heapBare.heap_start = heapFF.heap_start ∧
      GET heapFF.mem heapFF.heap_start = PACK 4032 FREE ∧
      GET heapBare.mem heapBare.heap_start = PACK 0 FREE ∧
      ¬ HeapOK heapBare [(4032, FREE)] := by
  decide

/-- C29 (amended): on a well-formed heap with block list `bs` in which no two
neighbours are both FREE, under first fit or best fit, for a request
`n ≤ 2 ^ 64 - 48` whose block size some FREE block fits, `h = mm_malloc(n)`
returns, `mm_free(h)` returns, and afterwards the heap is well formed with the
same block list `bs` between the same `heap_start` and `heap_end`. -/
theorem malloc_free_round_trip (s : State) (bs : List (Nat × Nat)) (n fuel : Nat)
    (loc : Locator) (hok : HeapOK s bs) (hna : NoAdjFree bs) (hloc : s.get_block = some loc)
    (hpol : loc ≠ .nf) (hn : n ≤ 18446744073709551568) (hfuel : 2 * bs.length + 1 ≤ fuel)
    (hfit : ∃ x ∈ bs, Fits (blockSize n) x) :
    ∃ h s1 s2, mm_malloc fuel n s = .ok h s1 ∧ mm_free h s1 = .ok () s2 ∧ HeapOK s2 bs ∧
      blocksAt s2.heap_start bs = blocksAt s.heap_start bs ∧
      s2.heap_start = s.heap_start ∧ s2.heap_end = s.heap_end := by
  obtain ⟨pre, z, post, m', e1, e2, e3, e4⟩ :=
    mm_malloc_fit s bs n fuel loc hok hloc hpol hn hfuel hfit
  subst e1
  obtain ⟨rest, r1, r2⟩ := coalesced_placed pre post (blockSize n) z e2 hna
  rw [r1] at e4
  obtain ⟨m2, f1, f2, -⟩ := mm_free_layout { s with mem := m' } pre rest (blockSize n) e4
  rw [r2] at f2
  exact ⟨_, _, _, e3, f1, f2, rfl, rfl, rfl⟩

theorem malloc_free_round_trip_witness :
    HeapOK heapBF [(64, FREE), (32, ALLOC), (128, FREE), (32, ALLOC), (96, FREE), (32, ALLOC),
        (3648, ALLOC)] ∧
      NoAdjFree [(64, FREE), (32, ALLOC), (128, FREE), (32, ALLOC), (96, FREE), (32, ALLOC),
        (3648, ALLOC)] ∧
      (∃ x ∈ [((64 : Nat), FREE), (32, ALLOC), (128, FREE), (32, ALLOC), (96, FREE), (32, ALLOC),
        (3648, ALLOC)], Fits (blockSize 70) x) ∧
      ∃ h s1 s2, mm_malloc 15 70 heapBF = .ok h s1 ∧ mm_free h s1 = .ok () s2 ∧
        HeapOK s2 [(64, FREE), (32, ALLOC), (128, FREE), (32, ALLOC), (96, FREE), (32, ALLOC),
          (3648, ALLOC)] ∧
        blocksAt s2.heap_start [(64, FREE), (32, ALLOC), (128, FREE), (32, ALLOC), (96, FREE),
          (32, ALLOC), (3648, ALLOC)] =
        blocksAt heapBF.heap_start [(64, FREE), (32, ALLOC), (128, FREE), (32, ALLOC),
          (96, FREE), (32, ALLOC), (3648, ALLOC)] ∧
        s2.heap_start = heapBF.heap_start ∧ s2.heap_end = heapBF.heap_end :=
  ⟨by decide, by decide, by decide,
    malloc_free_round_trip heapBF _ 70 15 .bf (by decide) (by decide) (by decide) (by decide)
      (by decide) (by decide) (by decide)⟩

end MemMgr

/-! ## The job table of the shell lab -/

namespace Tsh

/-- C30 (fails): starting from `initjobs` with `nextjid = 1`, after `addjob` of
the pids 1 to 15, `deletejob` of pid 2 and `addjob` of the pids 16 and 17, the
entries 0 and 15 are both occupied (pids 1 and 17) and both have job ID 1;
`getjobjid(1)` returns entry 0, so the job with pid 17 cannot be found by its
job ID. -/
theorem addjob_reuses_live_jid :
    (crowded.jobs 0).pid = 1 ∧ (crowded.jobs 0).jid = 1 ∧
      (crowded.jobs 15).pid = 17 ∧ (crowded.jobs 15).jid = 1 ∧
      (crowded.jobs 1).pid = 16 ∧ (crowded.jobs 1).jid = 16 ∧
      getjobjid crowded.jobs 1 = some 0 := by
  decide

end Tsh
